import Mathlib

/-!
Verification of the synthetic-data generation core (schema repair, deterministic
generation, dependency ordering, validation, job lifecycle) against its
natural-language specification.

The JavaScript sources are shallowly embedded: JS objects with string keys
become association lists (which preserve insertion order, as JS objects do),
JS numbers become `Rat`, `undefined` becomes `Option.none` (a property that is
absent), and in-place mutation becomes explicit state passing.  External
collaborators (the generative AI service, the SQL parser library, `Math.random`
and the clock) are parameters of the embedded functions.
-/

set_option maxHeartbeats 1000000
set_option maxRecDepth 8192

namespace SynthData

/-- A JS scalar value as stored in a generated row.  JS has a single number
type; we embed it as `Rat`.  `vDate d` models the ISO day string
`new Date(ms).toISOString().slice(0, 10)` by its UTC day number
`⌊ms / 86400000⌋`; two timestamps yield the same ISO day string exactly when
they have the same day number, so equality of `vDate` values coincides with
equality of the strings the source produces. -/
inductive Value where
  | vNull
  | vNum (q : Rat)
  | vStr (s : String)
  | vBool (b : Bool)
  | vDate (day : Int)
  deriving DecidableEq, Repr

/-- A row: a JS object mapping column names to values, in insertion order.
An absent key models JS `undefined`. -/
def Row : Type := List (String × Value)

instance : DecidableEq Row := by
  unfold Row
  infer_instance

/-- Property read `r[k]`: `none` models `undefined`. -/
def rowGet (r : Row) (k : String) : Option Value :=
  (r.find? (fun p => p.1 == k)).map (fun p => p.2)

/-- Property write `r[k] = v`: replaces the first existing entry in place
(JS keeps the key's position) or appends a new key at the end. -/
def rowSet : Row → String → Value → Row
  | [], k, v => [(k, v)]
  | (k', v') :: rest, k, v =>
      if k' == k then (k, v) :: rest else (k', v') :: rowSet rest k v

/-- Test for `v === null || v === undefined` on a property read. -/
def isNullish : Option Value → Bool
  | none => true
  | some Value.vNull => true
  | some _ => false

/-- A dataset: table name → list of rows, in insertion order. -/
def Data : Type := List (String × List Row)

instance : DecidableEq Data := by
  unfold Data
  infer_instance

/-- Read `data[t]`; `none` models `undefined`. -/
def dataGet (d : Data) (t : String) : Option (List Row) :=
  (d.find? (fun p => p.1 == t)).map (fun p => p.2)

/-- Write `data[t] = rows` (replace first occurrence in place, else append). -/
def dataSet : Data → String → List Row → Data
  | [], t, rows => [(t, rows)]
  | (t', rows') :: rest, t, rows =>
      if t' == t then (t, rows) :: rest else (t', rows') :: dataSet rest t rows

/-- Does the char list `pat` occur at the start of `l`? -/
def listStarts : List Char → List Char → Bool
  | [], _ => true
  | _ :: _, [] => false
  | a :: as, b :: bs => a == b && listStarts as bs

/-- Does the char list `pat` occur anywhere inside `l`? -/
def listHasSub (pat : List Char) : List Char → Bool
  | [] => listStarts pat []
  | b :: bs => listStarts pat (b :: bs) || listHasSub pat bs

/-- Substring test `s.includes(pat)` / regex literal test. -/
def strHas (s pat : String) : Bool :=
  listHasSub pat.data s.data

/-- Suffix test `s.endsWith(pat)`. -/
def strEnds (s pat : String) : Bool :=
  listStarts pat.data.reverse s.data.reverse

/-- ASCII lower-casing of one character (`String.prototype.toLowerCase`
restricted to the ASCII identifiers this code handles; the library
`String.toLower` is avoided because it does not reduce in the kernel). -/
def charLower (c : Char) : Char :=
  if c.toNat ≥ 65 && c.toNat ≤ 90 then Char.ofNat (c.toNat + 32) else c

/-- ASCII `s.toLowerCase()`. -/
def strLower (s : String) : String := ⟨s.data.map charLower⟩

/-- The decimal digit character for `d < 10`. -/
def digitChar (d : Nat) : Char := Char.ofNat (48 + d)

/-- Decimal digits of `n`, most significant first (fuel-bounded; `n` itself
always suffices as fuel). -/
def natDigits : Nat → Nat → List Char
  | 0, _ => []
  | fuel + 1, n =>
    if n < 10 then [digitChar n] else natDigits fuel (n / 10) ++ [digitChar (n % 10)]

/-- Kernel-computable decimal rendering of a natural number (the library
`Nat.repr` is avoided because it does not reduce in the kernel). -/
def natRepr (n : Nat) : String := ⟨natDigits (n + 1) n⟩

/-- Kernel-computable decimal rendering of an integer. -/
def intRepr (i : Int) : String :=
  if i < 0 then "-" ++ natRepr i.natAbs else natRepr i.toNat

/-- Rendering of a rational.  JS renders numbers decimally; this rendering
differs in shape for non-integers but agrees on integers and, like the JS
one, is injective — which is all the duplicate-detection code that consumes
it observes. -/
def ratRepr (q : Rat) : String :=
  if q.den == 1 then intRepr q.num else intRepr q.num ++ "/" ++ natRepr q.den

/-- Kernel-computable rational product (the Batteries `Rat.mul` is
`@[irreducible]`; this computes the same normalized rational). -/
def ratMul (a b : Rat) : Rat := Rat.divInt (a.num * b.num) ((a.den : Int) * (b.den : Int))

/-- Kernel-computable rational sum. -/
def ratAdd (a b : Rat) : Rat :=
  Rat.divInt (a.num * (b.den : Int) + b.num * (a.den : Int)) ((a.den : Int) * (b.den : Int))

/-- Kernel-computable rational difference. -/
def ratSub (a b : Rat) : Rat :=
  Rat.divInt (a.num * (b.den : Int) - b.num * (a.den : Int)) ((a.den : Int) * (b.den : Int))

/-- Kernel-computable rational quotient. -/
def ratDiv (a b : Rat) : Rat := Rat.divInt (a.num * (b.den : Int)) ((a.den : Int) * b.num)

/-- The rational of a natural number. -/
def natRat (n : Nat) : Rat := mkRat n 1

/-- The regex test `/int|serial/.test(lower(type))` used by both PK
inference heuristics. -/
def typeIntSerial (ty : String) : Bool :=
  strHas (strLower ty) "int" || strHas (strLower ty) "serial"

/-- A column definition as produced by the schema parser.  `nullable = none`
models an absent `nullable` property; `enumValues = []` models an absent or
empty enumeration list (the source only ever tests `Array.isArray(enumValues)
&& enumValues.length`). -/
structure ColumnDef where
  type : String
  nullable : Option Bool := none
  enumValues : List String := []
  deriving DecidableEq, Repr

/-- A foreign-key entry.  `referenceTable = none` models an absent property
(the source guards with `!fk.referenceTable`). -/
structure FK where
  columns : List String
  referenceTable : Option String
  referenceColumns : List String
  deriving DecidableEq, Repr

/-- A table definition.  `columns = none` models an absent `columns` object
(the AI orchestrator explicitly tests `!tableSchema.columns`);
`primaryKey = none` models an absent or non-array `primaryKey`. -/
structure TableDef where
  columns : Option (List (String × ColumnDef)) := none
  primaryKey : Option (List String) := none
  foreignKeys : List FK := []
  deriving DecidableEq, Repr

/-- A parsed schema: table name → table definition, in declaration order. -/
structure Schema where
  tables : List (String × TableDef)
  deriving DecidableEq, Repr

/-- Look a table definition up by name. -/
def schemaGet (s : Schema) (t : String) : Option TableDef :=
  (s.tables.find? (fun p => p.1 == t)).map (fun p => p.2)

/-- The `columns` object of a table, via `tblDef.columns || {}`. -/
def colsOf (td : TableDef) : List (String × ColumnDef) :=
  td.columns.getD []

/-- Embeds `inferSinglePK` from `src/server/src/lib/foreignKeyRepair.js`:
a declared single-column PK wins; otherwise prefer a numeric column named
`id`, then a numeric column named `<table>_id` or ending in `_id`. -/
def inferSinglePK (tableName : String) (td : TableDef) : Option String :=
  match td.primaryKey with
  | some [c] => some c
  | _ =>
    let cols := colsOf td
    match cols.find? (fun p => strLower p.1 == "id" && typeIntSerial p.2.type) with
    | some p => some p.1
    | none =>
      match cols.find? (fun p =>
          (strLower p.1 == strLower tableName ++ "_id" || strEnds (strLower p.1) "_id")
            && typeIntSerial p.2.type) with
      | some p => some p.1
      | none => none

/-- Embeds `inferPrimaryKey` from the deterministic generator
(`src/unnamed/part_020`): a declared non-empty PK array wins; otherwise the
same two heuristics as `inferSinglePK`, returning a singleton or empty list. -/
def inferPrimaryKey (tableName : String) (td : TableDef) : List String :=
  match td.primaryKey with
  | some (c :: cs) => c :: cs
  | _ =>
    let cols := colsOf td
    match cols.find? (fun p => strLower p.1 == "id" && typeIntSerial p.2.type) with
    | some p => [p.1]
    | none =>
      match cols.find? (fun p =>
          (strLower p.1 == strLower tableName ++ "_id" || strEnds (strLower p.1) "_id")
            && typeIntSerial p.2.type) with
      | some p => [p.1]
      | none => []

/-- The `JSON.stringify` key used for duplicate detection in the PK repair
pass and for composite keys in the validator.  String escaping is elided
(none of the proofs depend on it: only the congruence `a = b → jsonKey a =
jsonKey b` is used). -/
def jsonKey : Value → String
  | Value.vNull => "null"
  | Value.vNum q => ratRepr q
  | Value.vStr s => "\"" ++ s ++ "\""
  | Value.vBool b => if b then "true" else "false"
  | Value.vDate d => "\"" ++ intRepr d ++ "\""

/-- Does `typeof v === 'string' && v.length > 40` hold? -/
def strTooLong : Value → Bool
  | Value.vStr s => decide (s.length > 40)
  | Value.vDate _ => false
  | _ => false

/-- Does `typeof v === 'number'` hold? -/
def isNumVal : Value → Bool
  | Value.vNum _ => true
  | _ => false

/-- The scan loop of the PK repair pass of `autoRepairForeignKeys`
(`foreignKeyRepair.js`): walks the rows with a `seen` set of JSON keys and
returns `(brokeEarly, numericCount)`; the loop breaks on a null, undefined or
over-long-string PK value and on the first duplicate JSON key, counting
numeric values as it goes. -/
def scanPkRows (pkCol : String) : List Row → List String → Nat → Bool × Nat
  | [], _, num => (false, num)
  | r :: rs, seen, num =>
    if isNullish (rowGet r pkCol) || strTooLong ((rowGet r pkCol).getD Value.vNull) then
      (true, num)
    else if seen.contains (jsonKey ((rowGet r pkCol).getD Value.vNull)) then
      (true, if isNumVal ((rowGet r pkCol).getD Value.vNull) then num + 1 else num)
    else
      scanPkRows pkCol rs (jsonKey ((rowGet r pkCol).getD Value.vNull) :: seen)
        (if isNumVal ((rowGet r pkCol).getD Value.vNull) then num + 1 else num)

/-- Whole-column sequential rewrite `for r of rows: r[pkCol] = i++`
starting at `i`. -/
def rewriteFrom (pkCol : String) : Nat → List Row → List Row
  | _, [] => []
  | i, r :: rs => rowSet r pkCol (Value.vNum (natRat i)) :: rewriteFrom pkCol (i + 1) rs

/-- The guard loop of the PK pass: fill only missing PK values sequentially,
incrementing the counter on each fill. -/
def fillMissingFrom (pkCol : String) : Nat → List Row → List Row
  | _, [] => []
  | i, r :: rs =>
    if isNullish (rowGet r pkCol) then
      rowSet r pkCol (Value.vNum (natRat i)) :: fillMissingFrom pkCol (i + 1) rs
    else r :: fillMissingFrom pkCol i rs

/-- Phase 0 of `autoRepairForeignKeys` for one table: a table with a
*declared* single-column primary key whose dataset entry is missing or empty
receives the single row `{ [pkCol]: 1 }`. -/
def synthEmptyTable (tn : String) (td : TableDef) (d : Data) : Data :=
  match td.primaryKey with
  | some [pkCol] =>
    match dataGet d tn with
    | some (_ :: _) => d
    | _ => dataSet d tn [[(pkCol, Value.vNum 1)]]
  | _ => d

/-- Phase 0 of `autoRepairForeignKeys` over all tables. -/
def synthEmptyDeclared (schema : Schema) (d : Data) : Data :=
  schema.tables.foldl (fun d p => synthEmptyTable p.1 p.2 d) d

/-- The rows after the scan-and-maybe-rewrite step of the PK pass: a broken
scan or an all-non-numeric column triggers the whole-column sequential
rewrite. -/
def pkRows1 (pkCol : String) (rows : List Row) : List Row :=
  if (scanPkRows pkCol rows [] 0).1 || (scanPkRows pkCol rows [] 0).2 == 0 then
    rewriteFrom pkCol 1 rows
  else rows

/-- The rows after the full per-table PK pass: the scan/rewrite step, then
the guard loop filling any PK values still missing. -/
def pkRepairRowsFn (pkCol : String) (rows : List Row) : List Row :=
  if (pkRows1 pkCol rows).countP (fun row => isNullish (rowGet row pkCol)) > 0 then
    fillMissingFrom pkCol 1 (pkRows1 pkCol rows)
  else pkRows1 pkCol rows

/-- Pass 1 of `autoRepairForeignKeys` for a single table: scan the inferred
single PK column; on a break or an all-non-numeric column rewrite the whole
column with `1..n`; then fill any still-missing values (the guard loop). -/
def repairPkTable (tn : String) (td : TableDef) (d : Data) : Data :=
  match inferSinglePK tn td with
  | none => d
  | some pkCol =>
    match dataGet d tn with
    | some (r :: rs) => dataSet d tn (pkRepairRowsFn pkCol (r :: rs))
    | _ => d

/-- Pass 1 of `autoRepairForeignKeys` over all tables in declaration order. -/
def pkPass (schema : Schema) (d : Data) : Data :=
  schema.tables.foldl (fun d p => repairPkTable p.1 p.2 d) d

/-- Insertion into a JS `Set` viewed as a duplicate-free list in insertion
order. -/
def insertUnique (xs : List Value) (v : Value) : List Value :=
  if xs.contains v then xs else xs ++ [v]

/-- The parent PK value set `new Set(rows.map(r => r[pkCol]).filter(v => v
!== null && v !== undefined))`. -/
def pkValueSet (pkCol : String) (rows : List Row) : List Value :=
  rows.foldl (fun acc r =>
    match rowGet r pkCol with
    | none => acc
    | some Value.vNull => acc
    | some w => insertUnique acc w) []

/-- Read of the `parentPkSets` map. -/
def setsGet (ps : List (String × List Value)) (t : String) : Option (List Value) :=
  (ps.find? (fun p => p.1 == t)).map (fun p => p.2)

/-- Write of the `parentPkSets` map (replace first occurrence, else append). -/
def setsSet : List (String × List Value) → String → List Value → List (String × List Value)
  | [], t, vs => [(t, vs)]
  | (t', vs') :: rest, t, vs =>
      if t' == t then (t, vs) :: rest else (t', vs') :: setsSet rest t vs

/-- The map `parentPkSets`, built after the PK pass for every table with an
inferable single-column PK. -/
def buildParentPkSets (schema : Schema) (d : Data) : List (String × List Value) :=
  schema.tables.foldl (fun acc p =>
    match inferSinglePK p.1 p.2 with
    | none => acc
    | some pkCol => acc ++ [(p.1, pkValueSet pkCol ((dataGet d p.1).getD []))]) []

/-- Is a child FK value null, undefined, or absent from the parent set? -/
def fkRowInvalid (childCol : String) (pset : List Value) (r : Row) : Bool :=
  match rowGet r childCol with
  | none => true
  | some Value.vNull => true
  | some w => !(pset.contains w)

/-- The row loop of the FK pass: every invalid child value is reassigned
round-robin from `pvals`; `rrIdx` advances only on a rewrite.  (In the source
`pvals` is never empty at this point, so the `Value.vNull` default of `getD`
is never selected.) -/
def fkRepairRows (childCol : String) (pset pvals : List Value) : Nat → List Row → List Row
  | _, [] => []
  | rrIdx, r :: rs =>
    if fkRowInvalid childCol pset r then
      rowSet r childCol (pvals.getD (rrIdx % pvals.length) Value.vNull)
        :: fkRepairRows childCol pset pvals (rrIdx + 1) rs
    else r :: fkRepairRows childCol pset pvals rrIdx rs

/-- State of the FK pass while processing one table's foreign keys.  `rows`
is the array bound to `data[tableName]` at the start of the table's loop; the
source mutates it in place, so row writes reach `data` only while that
binding is still what `data[tableName]` holds (`aliasLive`); the parent-row
synthesis branch can replace `data[parentTable]` wholesale and thereby
disconnect it. -/
structure FkPassState where
  rows : List Row
  data : Data
  sets : List (String × List Value)
  aliasLive : Bool

/-- One foreign key of the FK pass (pass 2) of `autoRepairForeignKeys`:
simple single-column FKs only; a missing parent set skips; an empty parent
set synthesizes `{ [declaredPk]: 1 }` in the parent (when the parent declares
a PK) and adds `1` to the shared set before repairing; otherwise repairs
against the snapshot set, round-robin over its values. -/
def repairFkStep (schema : Schema) (tn : String) (fk : FK) (st : FkPassState) : FkPassState :=
  match fk.referenceTable with
  | none => st
  | some parentTable =>
    if fk.columns.length != 1 || fk.referenceColumns.length != 1 then st
    else
      match setsGet st.sets parentTable with
      | none => st
      | some pset =>
        if pset.isEmpty then
          match (schemaGet schema parentTable).bind (fun td => td.primaryKey) with
          | some (pkCol :: _) =>
            { rows := fkRepairRows (fk.columns.headD "") (pset ++ [Value.vNum 1])
                [Value.vNum 1] 0 st.rows
              data := dataSet st.data parentTable [[(pkCol, Value.vNum 1)]]
              sets := setsSet st.sets parentTable (pset ++ [Value.vNum 1])
              aliasLive := st.aliasLive && !(parentTable == tn) }
          | _ => st
        else
          { st with rows := fkRepairRows (fk.columns.headD "") pset pset 0 st.rows }

/-- The fold of one table's foreign keys in the FK pass. -/
def fkFoldTable (schema : Schema) (tn : String) (td : TableDef) (st : FkPassState) : FkPassState :=
  td.foreignKeys.foldl (fun st fk => repairFkStep schema tn fk st) st

/-- The write-back ending one table's FK pass: the mutated row array reaches
the dataset only while it is still the array the dataset holds. -/
def fkWriteBack (tn : String) (st : FkPassState) : Data × List (String × List Value) :=
  (if st.aliasLive then dataSet st.data tn st.rows else st.data, st.sets)

/-- The FK pass for one table: skip empty tables, fold the table's foreign
keys, then write the mutated rows back. -/
def fkPassTable (schema : Schema) (tn : String) (td : TableDef)
    (dst : Data × List (String × List Value)) : Data × List (String × List Value) :=
  if ((dataGet dst.1 tn).getD []).isEmpty then dst
  else fkWriteBack tn (fkFoldTable schema tn td
    { rows := (dataGet dst.1 tn).getD [], data := dst.1, sets := dst.2, aliasLive := true })

/-- Embeds `autoRepairForeignKeys` from
`src/server/src/lib/foreignKeyRepair.js`.  The source mutates `data` in place
and returns an audit-trail object; the embedding returns the mutated dataset
(the audit trail, which no claim inspects, is elided).  `enabled = false`
models `options.enabled === false`. -/
def autoRepairForeignKeys (schema : Schema) (data : Data) (enabled : Bool) : Data :=
  if enabled == false then data
  else
    (schema.tables.foldl (fun dst p => fkPassTable schema p.1 p.2 dst)
      (pkPass schema (synthEmptyDeclared schema data),
       buildParentPkSets schema (pkPass schema (synthEmptyDeclared schema data)))).1

/-- Generic association-list read (JS object property read). -/
def assocGet {α : Type} (m : List (String × α)) (k : String) : Option α :=
  (m.find? (fun p => p.1 == k)).map (fun p => p.2)

/-- Generic association-list write (replace first occurrence, else append). -/
def assocSet {α : Type} : List (String × α) → String → α → List (String × α)
  | [], k, v => [(k, v)]
  | (k', v') :: rest, k, v =>
      if k' == k then (k, v) :: rest else (k', v') :: assocSet rest k v

/-- Initialization of `inDegree` and `graph` over the table-name list. -/
def kahnInit (tables : List String) : List (String × Int) × List (String × List String) :=
  tables.foldl (fun dg t => (assocSet dg.1 t 0, assocSet dg.2 t [])) ([], [])

/-- The edge-building loop shared by `topologicalSortTables`
(`src/unnamed/part_020`) and `orderTablesForGeneration`
(`src/unnamed/part_019`): one parent→child edge per FK whose reference table
exists and differs from the owner, deduplicated via the JS `Set`. -/
def kahnAddEdges (schema : Schema) (tables : List String)
    (dg : List (String × Int) × List (String × List String)) :
    List (String × Int) × List (String × List String) :=
  tables.foldl (fun dg t =>
    let fks := ((schemaGet schema t).map (fun td => td.foreignKeys)).getD []
    fks.foldl (fun dg fk =>
      match fk.referenceTable with
      | none => dg
      | some parent =>
        if parent != t then
          match assocGet dg.2 parent with
          | none => dg
          | some children =>
            if children.contains t then dg
            else (assocSet dg.1 t ((assocGet dg.1 t).getD 0 + 1),
                  assocSet dg.2 parent (children ++ [t]))
        else dg) dg) dg

/-- The Kahn work loop: pop the queue head, append it to `ordered`, decrement
each child's in-degree (in the child list's insertion order) and enqueue
children reaching exactly zero.  In-degrees are integers (they go negative in
the source), so a node is enqueued at most once.  The fuel passed by the
callers strictly dominates the enqueue count, so it never runs out. -/
def kahnLoop (g : List (String × List String)) :
    Nat → List String → List (String × Int) → List String → List String
  | 0, _, _, ordered => ordered
  | _ + 1, [], _, ordered => ordered
  | fuel + 1, t :: queue, deg, ordered =>
    let children := (assocGet g t).getD []
    let step := children.foldl (fun dq c =>
      let dc := (assocGet dq.1 c).getD 0 - 1
      (assocSet dq.1 c dc, if dc == 0 then dq.2 ++ [c] else dq.2)) (deg, [])
    kahnLoop g fuel (queue ++ step.2) step.1 (ordered ++ [t])

/-- The Kahn phase: initial queue of zero-in-degree tables in declaration
order, then the work loop. -/
def kahnOrdered (schema : Schema) : List String :=
  let tables := schema.tables.map (fun p => p.1)
  let dg := kahnAddEdges schema tables (kahnInit tables)
  let queue := tables.filter (fun t => (assocGet dg.1 t).getD 0 == 0)
  kahnLoop dg.2 (tables.length * tables.length + tables.length + 1) queue dg.1 []

/-- The trailing append `tables.forEach(t => { if (!ordered.includes(t))
ordered.push(t) })` shared by both sort functions. -/
def appendRemaining (tables ordered : List String) : List String :=
  tables.foldl (fun acc t => if acc.contains t then acc else acc ++ [t]) ordered

/-- Embeds `topologicalSortTables` from the deterministic generator
(`src/unnamed/part_020`): Kahn's algorithm, then any tables not emitted
(cycles and everything downstream of them) appended in declaration order. -/
def topologicalSortTables (schema : Schema) : List String :=
  let tables := schema.tables.map (fun p => p.1)
  let ordered := kahnOrdered schema
  if ordered.length == tables.length then ordered
  else appendRemaining tables ordered

/-- Embeds `orderTablesForGeneration` from the data generator
(`src/unnamed/part_019`), line-for-line the same algorithm as
`topologicalSortTables` except that the trailing append runs
unconditionally. -/
def orderTablesForGeneration (schema : Schema) : List String :=
  appendRemaining (schema.tables.map (fun p => p.1)) (kahnOrdered schema)

/-- Verification device: parentCount. -/
def parentCount (g : List (String × List String)) (c : String) : Nat :=
  g.countP (fun e => e.2.contains c)

/-- Verification device: DegOk. -/
def DegOk (tables : List String) (dg : List (String × Int) × List (String × List String)) :
    Prop :=
  dg.1.map Prod.fst = tables ∧
  dg.2.map Prod.fst = tables ∧
  (∀ c, (assocGet dg.1 c).getD 0 = (parentCount dg.2 c : Int)) ∧
  (∀ p ps, (p, ps) ∈ dg.2 → ps.Nodup ∧ (∀ c ∈ ps, c ∈ tables) ∧ p ∉ ps)

/-- Verification device: kahnEdgeStep. -/
def kahnEdgeStep (t : String) (dg : List (String × Int) × List (String × List String))
    (fk : FK) : List (String × Int) × List (String × List String) :=
  match fk.referenceTable with
  | none => dg
  | some parent =>
    if parent != t then
      match assocGet dg.2 parent with
      | none => dg
      | some children =>
        if children.contains t then dg
        else (assocSet dg.1 t ((assocGet dg.1 t).getD 0 + 1),
              assocSet dg.2 parent (children ++ [t]))
    else dg

/-- Verification device: childrenOf. -/
def childrenOf (g : List (String × List String)) (p : String) : List String :=
  (assocGet g p).getD []

/-- Verification device: kahnDecStep. -/
def kahnDecStep (dq : List (String × Int) × List String) (c : String) :
    List (String × Int) × List String :=
  (assocSet dq.1 c ((assocGet dq.1 c).getD 0 - 1),
   if ((assocGet dq.1 c).getD 0 - 1) == 0 then dq.2 ++ [c] else dq.2)

/-- Random-source state of the deterministic generator.  `amb` is the ambient
`Math.random()` stream (with `ambIdx` the next index), `lcg` the state of the
seeded linear congruential generator (when `config.seed` was provided) and
`now` the ambient clock `Date.now()` (held constant over a run). -/
structure GenState where
  amb : Nat → Rat
  ambIdx : Nat
  lcg : Option Nat
  now : Rat

/-- One step `s = (s * 1664525 + 1013904223) >>> 0` of the seeded LCG. -/
def lcgNext (s : Nat) : Nat := (s * 1664525 + 1013904223) % 4294967296

/-- One ambient `Math.random()` draw. -/
def drawAmbient (st : GenState) : Rat × GenState :=
  (st.amb st.ambIdx, { st with ambIdx := st.ambIdx + 1 })

/-- One draw of the generator's `rng`: the seeded LCG (returning
`s / 0xffffffff`) when a seed was provided, else `Math.random`. -/
def drawRng (st : GenState) : Rat × GenState :=
  match st.lcg with
  | some s =>
    let s' := lcgNext s
    (Rat.divInt (s' : Int) 4294967295, { st with lcg := some s' })
  | none => drawAmbient st

/-- Embeds `buildFkSources`: table → column → (referenced table, referenced
column), later foreign keys overwriting earlier entries for the same column.
Either component may be absent in malformed FK entries. -/
def buildFkSources (schema : Schema) :
    List (String × List (String × (Option String × Option String))) :=
  schema.tables.foldl (fun m p =>
    p.2.foreignKeys.foldl (fun m fk =>
      fk.columns.enum.foldl (fun m ic =>
        let prev := (assocGet m p.1).getD []
        assocSet m p.1
          (assocSet prev ic.2 (fk.referenceTable, fk.referenceColumns.get? ic.1))) m) m) []

/-- The string `padStart(2, '0')` applied to a rendered integer. -/
def pad2 (n : Int) : String :=
  let s := intRepr n
  if s.length < 2 then "0" ++ s else s

/-- The string `s.slice(0, n)`. -/
def strTake (s : String) (n : Nat) : String := ⟨s.data.take n⟩

/-- Models `parseFloat(x.toFixed(2))`: rounding to two decimal places.  The
exact IEEE-754 tie behaviour of `toFixed` is immaterial to every claim; the
embedding rounds half up. -/
def round2 (q : Rat) : Rat :=
  Rat.divInt (Rat.floor (ratAdd (ratMul q (natRat 100)) (mkRat 1 2))) 100

/-- The type-driven branches of `synthValue` (everything after the FK-pool
shortcut), in source order.  The date branch models the produced ISO day
string by its day number (see `Value.vDate`). -/
def synthValueByType (colName : String) (rawType : String) (rowIndex : Nat)
    (tableName : String) (st : GenState) : Value × GenState :=
  if strHas rawType "serial" || strHas rawType "int" then
    (Value.vNum (natRat (rowIndex + 1)), st)
  else if strHas rawType "boolean" then (Value.vBool (rowIndex % 2 == 0), st)
  else if strHas rawType "date" then
    let e := drawAmbient st
    let past := ratSub st.now (natRat 157680000000000)
    (Value.vDate (Rat.floor (ratDiv (ratAdd past (ratMul e.1 (ratSub st.now past))) (natRat 86400000))), e.2)
  else if strHas rawType "time" then
    let e1 := drawAmbient st
    let e2 := drawAmbient e1.2
    let e3 := drawAmbient e2.2
    (Value.vStr (pad2 (Rat.floor (ratMul e1.1 (natRat 24))) ++ ":"
        ++ pad2 (Rat.floor (ratMul e2.1 (natRat 60)))
        ++ ":" ++ pad2 (Rat.floor (ratMul e3.1 (natRat 60)))), e3.2)
  else if strHas rawType "char" || strHas rawType "text" || strHas rawType "uuid" then
    (Value.vStr (strTake (tableName ++ "_" ++ colName ++ "_" ++ natRepr (rowIndex + 1)) 50), st)
  else if strHas rawType "numeric" || strHas rawType "decimal"
      || strHas rawType "real" || strHas rawType "double" then
    let e := drawAmbient st
    (Value.vNum (round2 (ratMul e.1 (natRat 100))), e.2)
  else (Value.vStr (colName ++ "_" ++ natRepr (rowIndex + 1)), st)

/-- Embeds `synthValue`: an FK-mapped column samples (via `Math.random`, not
the seeded rng) from the already-generated parent values when that pool is
non-empty; otherwise the type-driven branches apply.  An out-of-range sample
index (impossible while `Math.random` honours its `[0,1)` contract) falls
back to null. -/
def synthValue (colName : String) (colDef : ColumnDef) (rowIndex : Nat) (tableName : String)
    (generated : Data)
    (fkSources : List (String × List (String × (Option String × Option String))))
    (st : GenState) : Value × GenState :=
  let rawType := strLower colDef.type
  match (assocGet fkSources tableName).bind (fun m => assocGet m colName) with
  | some fkSource =>
    let parentRows := (fkSource.1.bind (fun pt => dataGet generated pt)).getD []
    let pool := parentRows.filterMap (fun r =>
      match fkSource.2 with
      | none => none
      | some pc =>
        match rowGet r pc with
        | none => none
        | some Value.vNull => none
        | some w => some w)
    if pool.length != 0 then
      let e := drawAmbient st
      ((pool.get? (Rat.floor (ratMul e.1 (natRat pool.length))).toNat).getD Value.vNull, e.2)
    else synthValueByType colName rawType rowIndex tableName st
  | none => synthValueByType colName rawType rowIndex tableName st

/-- Per-table null-probability overrides: the `default` entry and per-column
entries of `config.nullProbability[table]`. -/
structure TableNullProb where
  dflt : Option Rat := none
  cols : List (String × Rat) := []
  deriving DecidableEq, Repr

/-- The `config.nullProbability` shape (global default plus per-table maps). -/
structure NullProbConfig where
  dflt : Option Rat := none
  tables : List (String × TableNullProb) := []
  deriving DecidableEq, Repr

/-- Configuration of `generateDeterministicData` (the options its code
reads; `withMeta`/`debug` only shape logging and the metadata envelope and
are elided). -/
structure GenConfig where
  globalRowCount : Option Nat := none
  perTable : List (String × Nat) := []
  nullProbability : NullProbConfig := {}
  seed : Option Nat := none

/-- The effective global row count `config.globalRowCount || 25`. -/
def effGlobalCount (cfg : GenConfig) : Nat :=
  match cfg.globalRowCount with
  | some n => if n == 0 then 25 else n
  | none => 25

/-- One column of one generated row: the null draw (consuming the seeded rng
only when the column may be nulled), the sequential PK shortcut for numeric
PK columns, then `synthValue`. -/
def genCol (tn : String) (pkCols : List String) (np : NullProbConfig)
    (generated : Data)
    (fkSources : List (String × List (String × (Option String × Option String))))
    (i : Nat) (rst : Row × GenState) (col : String × ColumnDef) : Row × GenState :=
  let colName := col.1
  let colDef := col.2
  let lowerType := strLower colDef.type
  let tableNullProb := (((assocGet np.tables tn).bind (fun t => t.dflt)).orElse
    (fun _ => np.dflt)).getD 0
  let colNullProb := ((assocGet np.tables tn).bind (fun t => assocGet t.cols colName)).getD
    tableNullProb
  let nullable := colDef.nullable != some false
  let allowNull := nullable && !(pkCols.contains colName)
  let d :=
    if allowNull then
      let e := drawRng rst.2
      (decide (e.1 < colNullProb), e.2)
    else (false, rst.2)
  if d.1 then (rowSet rst.1 colName Value.vNull, d.2)
  else if pkCols.contains colName && (strHas lowerType "int" || strHas lowerType "serial") then
    (rowSet rst.1 colName (Value.vNum (natRat (i + 1))), d.2)
  else
    let v := synthValue colName colDef i tn generated fkSources d.2
    (rowSet rst.1 colName v.1, v.2)

/-- The row loop for one table; the partially built table is visible to
`synthValue` through `generated` exactly as the source's shared `generated`
object is. -/
def genRowsLoop (tn : String) (pkCols : List String) (columns : List (String × ColumnDef))
    (np : NullProbConfig)
    (fkSources : List (String × List (String × (Option String × Option String)))) :
    Nat → Nat → Data → GenState → Data × GenState
  | _, 0, gen, st => (gen, st)
  | i, rem + 1, gen, st =>
    let rs := columns.foldl (genCol tn pkCols np gen fkSources i) (([] : Row), st)
    genRowsLoop tn pkCols columns np fkSources (i + 1) rem
      (dataSet gen tn ((dataGet gen tn).getD [] ++ [rs.1])) rs.2

/-- One table of the generation loop: missing definitions are skipped, the
row count comes from the per-table override (`??`, so an explicit 0 stands)
or the global count, and the PK columns are inferred. -/
def genTable (schema : Schema) (cfg : GenConfig)
    (fkSources : List (String × List (String × (Option String × Option String))))
    (acc : Data × GenState) (tn : String) : Data × GenState :=
  match schemaGet schema tn with
  | none => acc
  | some td =>
    let rowCount := (assocGet cfg.perTable tn).getD (effGlobalCount cfg)
    let columns := colsOf td
    let pkCols := inferPrimaryKey tn td
    genRowsLoop tn pkCols columns cfg.nullProbability fkSources 0 rowCount
      (dataSet acc.1 tn []) acc.2

/-- One row of the FK reconciliation pass: each FK column holding a null or
non-member value is resampled from the pool with the generator's `rng`. -/
def reconRow (cols : List String) (pool : List Value) (rst : Row × GenState)
    : Row × GenState :=
  cols.foldl (fun rst c =>
    let bad :=
      match rowGet rst.1 c with
      | none => true
      | some Value.vNull => true
      | some w => !(pool.contains w)
    if bad then
      let e := drawRng rst.2
      (rowSet rst.1 c ((pool.get? (Rat.floor (ratMul e.1 (natRat pool.length))).toNat).getD Value.vNull), e.2)
    else rst) rst

/-- One foreign key of the FK reconciliation pass: build the deduplicated
pool of non-null parent values over all referenced columns; when non-empty,
repair every row of the owning table. -/
def reconFk (tn : String) (fk : FK) (acc : Data × GenState) : Data × GenState :=
  let parentRows := (fk.referenceTable.bind (fun pt => dataGet acc.1 pt)).getD []
  if parentRows.isEmpty then acc
  else
    let pool := fk.referenceColumns.foldl (fun pool rc =>
      parentRows.foldl (fun pool pr =>
        match rowGet pr rc with
        | none => pool
        | some Value.vNull => pool
        | some w => insertUnique pool w) pool) []
    if pool.isEmpty then acc
    else
      let rows := (dataGet acc.1 tn).getD []
      let rs := rows.foldl (fun (racc : List Row × GenState) r =>
        let r' := reconRow fk.columns pool (r, racc.2)
        (racc.1 ++ [r'.1], r'.2)) (([] : List Row), acc.2)
      (dataSet acc.1 tn rs.1, rs.2)

/-- Embeds `generateDeterministicData` from `src/unnamed/part_020`: seeded
rng setup, dependency-ordered per-table generation, then the FK
reconciliation pass.  The debug/metadata envelope (`withMeta`) is elided; the
generated dataset and the final random state are returned. -/
def generateDeterministicData (schema : Schema) (cfg : GenConfig) (st : GenState)
    : Data × GenState :=
  let fkSources := buildFkSources schema
  let st0 := { st with lcg := cfg.seed.map (fun s => s % 4294967296) }
  let order := topologicalSortTables schema
  let gs := order.foldl (genTable schema cfg fkSources) (([] : Data), st0)
  schema.tables.foldl (fun acc p =>
    p.2.foreignKeys.foldl (fun acc fk => reconFk p.1 fk acc) acc) gs

/-- The `JSON.stringify` of an array of scalar values (the composite-PK
key built by the validator). -/
def jsonArr (vs : List Value) : String :=
  "[" ++ String.intercalate "," (vs.map jsonKey) ++ "]"

/-- String interpolation of a value into an error message (`${val}`). -/
def valShow : Value → String
  | Value.vNull => "null"
  | Value.vNum q => ratRepr q
  | Value.vStr s => s
  | Value.vBool b => if b then "true" else "false"
  | Value.vDate d => intRepr d

/-- Per-table validation report. -/
structure TReport where
  rowCount : Nat
  pkDuplicates : Nat
  fkViolations : Nat
  notNullViolations : Nat
  fkCoverage : List (String × Rat)
  deriving DecidableEq, Repr

/-- Dataset-wide summary of the validation report. -/
structure VSummary where
  pkDuplicates : Nat
  fkViolations : Nat
  notNullViolations : Nat
  deriving DecidableEq, Repr

/-- The value returned by `validateDeterministicData`. -/
structure ValidationResult where
  passed : Bool
  errors : List String
  tables : List (String × TReport)
  summary : VSummary
  deriving DecidableEq, Repr

/-- The PK-uniqueness loop of the validator: walks the rows (returning them
as traversed), skipping incomplete key tuples, counting duplicate composite
JSON keys; the `seen` set grows on every complete tuple. -/
def checkPkLoop (table : String) (pkCols : List String) :
    List Row → List String → Nat → List Row × Nat × List String
  | [], _, _ => ([], 0, [])
  | r :: rs, seen, idx =>
    let keyVals := pkCols.map (fun c => rowGet r c)
    if keyVals.any (fun v => isNullish v) then
      let rest := checkPkLoop table pkCols rs seen (idx + 1)
      (r :: rest.1, rest.2)
    else
      let ck := jsonArr (keyVals.map (fun v => v.getD Value.vNull))
      let dup := seen.contains ck
      let rest := checkPkLoop table pkCols rs (seen ++ [ck]) (idx + 1)
      (r :: rest.1, (if dup then 1 else 0) + rest.2.1,
        (if dup then
          ["Duplicate PK " ++ table ++ "(" ++ String.intercalate "," pkCols ++ ")="
            ++ ck ++ " (row " ++ natRepr idx ++ ")"]
         else []) ++ rest.2.2)

/-- The NOT NULL loop of the validator for one explicitly non-nullable
column. -/
def checkNotNullRows (table col : String) :
    List Row → Nat → List Row × Nat × List String
  | [], _ => ([], 0, [])
  | r :: rs, idx =>
    let bad := isNullish (rowGet r col)
    let rest := checkNotNullRows table col rs (idx + 1)
    (r :: rest.1, (if bad then 1 else 0) + rest.2.1,
      (if bad then
        ["NOT NULL violation " ++ table ++ "." ++ col ++ " (row " ++ natRepr idx ++ ")"]
       else []) ++ rest.2.2)

/-- All NOT NULL checks of one table, over the columns marked
`nullable: false`. -/
def checkNotNullCols (table : String) (cols : List (String × ColumnDef)) (rows : List Row) :
    List Row × Nat × List String :=
  cols.foldl (fun acc c =>
    if c.2.nullable == some false then
      let r := checkNotNullRows table c.1 acc.1 0
      (r.1, acc.2.1 + r.2.1, acc.2.2 ++ r.2.2)
    else acc) (rows, 0, [])

/-- The FK check of the validator for one child column against one parent
index: returns the traversed rows, `(covered, total, violations, errors)`. -/
def checkFkColRows (table c parentTable parentColS : String) (index : List Value) :
    List Row → List Row × (Nat × Nat × Nat × List String)
  | [] => ([], (0, 0, 0, []))
  | r :: rs =>
    let rest := checkFkColRows table c parentTable parentColS index rs
    match rowGet r c with
    | none => (r :: rest.1, rest.2)
    | some Value.vNull => (r :: rest.1, rest.2)
    | some w =>
      let hit := index.contains w
      (r :: rest.1,
        ((if hit then 1 else 0) + rest.2.1, 1 + rest.2.2.1,
         (if hit then 0 else 1) + rest.2.2.2.1,
         (if hit then []
          else ["FK violation " ++ table ++ "." ++ c ++ " -> " ++ parentTable ++ "."
            ++ parentColS ++ " value " ++ valShow w]) ++ rest.2.2.2.2))

/-- All FK checks of one table: per foreign key, per child column with the
positionally matching referenced column (a missing referenced column yields
an empty index, as reading `pr[undefined]` does in the source). -/
def checkFks (d : Data) (table : String) (fks : List FK) (rows : List Row) :
    List Row × (List (String × Rat) × Nat × List String) :=
  fks.foldl (fun acc fk =>
    let parentTable := fk.referenceTable
    let parentRows := (parentTable.bind (fun pt => dataGet d pt)).getD []
    fk.columns.enum.foldl (fun acc ic =>
      let parentCol := fk.referenceColumns.get? ic.1
      let parentColS := match parentCol with
        | some pc => pc
        | none => "undefined"
      let index := match parentCol with
        | none => []
        | some pc => parentRows.filterMap (fun pr =>
            match rowGet pr pc with
            | none => none
            | some Value.vNull => none
            | some w => some w)
      let ptS := match parentTable with
        | some pt => pt
        | none => "undefined"
      let res := checkFkColRows table ic.2 ptS parentColS index acc.1
      let pct := if res.2.2.1 != 0 then
          round2 (ratMul (ratDiv (natRat res.2.1) (natRat res.2.2.1)) (natRat 100))
        else 0
      (res.1,
        (acc.2.1 ++ [(ic.2 ++ "->" ++ ptS ++ "." ++ parentColS, pct)],
         acc.2.2.1 + res.2.2.2.1,
         acc.2.2.2 ++ res.2.2.2.2))) acc) (rows, ([], 0, []))

/-- One table of the validator: PK uniqueness (declared keys only), NOT NULL,
then FK coverage; the rows are threaded through each loop exactly as the
source reads them. -/
def validateTable (d : Data) (table : String) (td : TableDef) :
    List Row × TReport × List String :=
  let rows0 := (dataGet d table).getD []
  let pk := match td.primaryKey with
    | some (c :: cs) => checkPkLoop table (c :: cs) rows0 [] 0
    | _ => (rows0, 0, [])
  let nn := checkNotNullCols table (colsOf td) pk.1
  let fkr := checkFks d table td.foreignKeys nn.1
  (fkr.1,
   { rowCount := rows0.length
     pkDuplicates := pk.2.1
     fkViolations := fkr.2.2.1
     notNullViolations := nn.2.1
     fkCoverage := fkr.2.1 },
   pk.2.2 ++ nn.2.2 ++ fkr.2.2.2)

/-- Embeds `validateDeterministicData` from `src/unnamed/part_020`.  The
source only reads the dataset; the embedding makes this auditable by
threading the dataset through every loop and returning it alongside the
report (an existing table entry is written back with the rows the checks
traversed). -/
def validateDeterministicData (schema : Schema) (d : Data) : Data × ValidationResult :=
  let acc := schema.tables.foldl (fun acc p =>
    let t := validateTable acc.1 p.1 p.2
    let d' := match dataGet acc.1 p.1 with
      | some _ => dataSet acc.1 p.1 t.1
      | none => acc.1
    (d', acc.2.1 ++ t.2.2, acc.2.2.1 ++ [(p.1, t.2.1)],
      { pkDuplicates := acc.2.2.2.pkDuplicates + t.2.1.pkDuplicates
        fkViolations := acc.2.2.2.fkViolations + t.2.1.fkViolations
        notNullViolations := acc.2.2.2.notNullViolations + t.2.1.notNullViolations }))
    (d, ([] : List String), ([] : List (String × TReport)),
      ({ pkDuplicates := 0, fkViolations := 0, notNullViolations := 0 } : VSummary))
  (acc.1,
   { passed := acc.2.1.isEmpty
     errors := acc.2.1
     tables := acc.2.2.1
     summary := acc.2.2.2 })

/-- The fixed configuration of `src/server/src/lib/config.js` and its
`clampRowCount`: an absent or falsy request yields the default 10, anything
else is clamped into `[1, 1000]` (an absent value models both `undefined`
and `NaN`). -/
def clampRowCount (requested : Option Nat) : Nat :=
  match requested with
  | none => 10
  | some n => if n == 0 then 10 else min (max 1 n) 1000

/-- Embeds `sampleEnum` from `src/server/src/lib/enumSampler.js` (with the
default `Math.random` source). -/
def sampleEnum (values : List String) (st : GenState) : Value × GenState :=
  if values.isEmpty then (Value.vNull, st)
  else
    let e := drawAmbient st
    (((values.get? (Rat.floor (ratMul e.1 (natRat values.length))).toNat).map Value.vStr).getD Value.vNull,
      e.2)

/-- One enum column of `applyEnumSampling`: only null/undefined cells are
filled. -/
def applyEnumCol (col : String) (vals : List String) (rows : List Row) (st : GenState) :
    List Row × GenState :=
  rows.foldl (fun acc r =>
    if isNullish (rowGet r col) then
      let s := sampleEnum vals acc.2
      (acc.1 ++ [rowSet r col s.1], s.2)
    else (acc.1 ++ [r], acc.2)) (([] : List Row), st)

/-- Embeds `applyEnumSampling` from `src/server/src/lib/enumSampler.js`. -/
def applyEnumSampling (schema : Schema) (acc : Data × GenState) : Data × GenState :=
  schema.tables.foldl (fun acc p =>
    let rows := (dataGet acc.1 p.1).getD []
    if rows.isEmpty then acc
    else
      let cs := (colsOf p.2).foldl (fun acc2 c =>
        if c.2.enumValues.length != 0 then applyEnumCol c.1 c.2.enumValues acc2.1 acc2.2
        else acc2) (rows, acc.2)
      (dataSet acc.1 p.1 cs.1, cs.2)) acc

/-- Configuration options of `DataGenerator.generateSyntheticData`
(`src/unnamed/part_019`) that reach the data path.  Sampling controls,
callbacks and the abort signal shape only I/O and metadata and are elided;
`hasGenAI` models whether `this.genAI` was constructed (it gates the
retry). -/
structure AiConfig where
  numRecords : Option Nat := none
  perTableRowCounts : List (String × Nat) := []
  nullProbability : List (String × TableNullProb) := []
  seed : Option Nat := none
  integrityRepair : Bool := false
  hasGenAI : Bool := true

/-- Modeling boundary for the external generative service: the per-table
row arrays that survive the response pipeline (transport, timeout,
`cleanGeminiJSON`, `JSON.parse`, unwrapping, `validateArrayRecords`) on the
first attempt and on the retry.  An error anywhere in that pipeline yields
`[]`, exactly as the source's catch blocks leave `tableData`. -/
structure AiOracle where
  firstRows : String → List Row
  retryRows : String → List Row

/-- The placeholder rows of the absolute guard: every schema column set to
the sequential value `i + 1`. -/
def absoluteGuardRows (cols : List String) (target : Nat) : List Row :=
  (List.range target).map (fun i =>
    cols.foldl (fun r c => rowSet r c (Value.vNum (natRat (i + 1)))) ([] : Row))

/-- One table of the AI generation loop: a missing definition or missing
`columns` is skipped with an empty output entry; zero usable rows after the
first attempt trigger the single retry (when a client exists); zero usable
rows after both trigger the deterministic fallback scoped to the table, and
the absolute guard if even that is empty. -/
def generateTableAI (schema : Schema) (cfg : AiConfig) (oracle : AiOracle)
    (acc : Data × GenState) (tn : String) : Data × GenState :=
  match schemaGet schema tn with
  | none => (dataSet acc.1 tn [], acc.2)
  | some td =>
    match td.columns with
    | none => (dataSet acc.1 tn [], acc.2)
    | some _ =>
      let effectiveGlobal := clampRowCount cfg.numRecords
      let first := oracle.firstRows tn
      let afterRetry := if first.isEmpty && cfg.hasGenAI then oracle.retryRows tn else first
      if afterRetry.isEmpty then
        let requested := match assocGet cfg.perTableRowCounts tn with
          | some n => if n == 0 then effectiveGlobal else n
          | none => effectiveGlobal
        let fbCfg : GenConfig :=
          { globalRowCount := some (clampRowCount (some requested))
            perTable := []
            nullProbability :=
              { tables := match assocGet cfg.nullProbability tn with
                | some tnp => [(tn, tnp)]
                | none => [] }
            seed := cfg.seed }
        let fb := generateDeterministicData ⟨[(tn, td)]⟩ fbCfg acc.2
        let tableData := (dataGet fb.1 tn).getD []
        let tableData2 :=
          if tableData.isEmpty then
            absoluteGuardRows ((colsOf td).map (fun c => c.1))
              (clampRowCount (some requested))
          else tableData
        (dataSet acc.1 tn tableData2, fb.2)
      else (dataSet acc.1 tn afterRetry, acc.2)

/-- Embeds `DataGenerator.generateSyntheticData` (`src/unnamed/part_019`,
refactored implementation): the AI-disabled deterministic path, the
no-tables throw, the per-table AI loop in dependency order, enum sampling
and the optional integrity repair.  The trailing validation only logs and
decorates metadata and is elided. -/
def generateSyntheticData (schema : Schema) (cfg : AiConfig) (useAI : Bool)
    (oracle : AiOracle) (st : GenState) : Except String (Data × GenState) :=
  if !useAI then
    let clampedPer := cfg.perTableRowCounts.map (fun p => (p.1, clampRowCount (some p.2)))
    Except.ok (generateDeterministicData schema
      { globalRowCount := some (clampRowCount cfg.numRecords)
        perTable := clampedPer
        nullProbability := { tables := cfg.nullProbability }
        seed := cfg.seed } st)
  else if schema.tables.isEmpty then Except.error "Parsed schema has no tables"
  else
    let tables := orderTablesForGeneration schema
    let gs := tables.foldl (generateTableAI schema cfg oracle) (([] : Data), st)
    let gs2 := applyEnumSampling schema gs
    if cfg.integrityRepair then Except.ok (autoRepairForeignKeys schema gs2.1 true, gs2.2)
    else Except.ok gs2

/-- The advisory row count of one table of the AI loop: the per-table
override (an explicit `0` falling back) or the clamped global request — the
`requested` value `generateTableAI` hands to the fallback and to the guard. -/
def aiRequested (cfg : AiConfig) (tn : String) : Nat :=
  match assocGet cfg.perTableRowCounts tn with
  | some n => if n == 0 then clampRowCount cfg.numRecords else n
  | none => clampRowCount cfg.numRecords

/-- Verification device: the `parentPkSets` entry of a table is absent or
non-empty.  While it holds for a table, the empty-set parent-synthesis branch
of the FK pass can never target that table. -/
def setsEntryOk (s : List (String × List Value)) (tn : String) : Prop :=
  setsGet s tn = none ∨ ∃ vs, setsGet s tn = some vs ∧ vs ≠ []

/-- Modeling boundary for one sanitized DDL `CREATE TABLE` block
(`SchemaParser.parse`): the table name its regex extracts, the outcome of
the structured-parser cascade (external library `node-sql-parser`, tried
over four block variants and two dialects), and the table the regex salvage
builds — the salvage code always produces some table definition. -/
structure DdlBlock where
  tableName : Option String
  structured : Option TableDef
  salvaged : TableDef

/-- The per-block recovery loop: a block with no extractable name is skipped
with a warning; otherwise the structured parse wins and the regex salvage is
the fallback. -/
def recoverBlocks (blocks : List DdlBlock) : List (String × TableDef) :=
  blocks.foldl (fun acc b =>
    match b.tableName with
    | none => acc
    | some n =>
      match b.structured with
      | some t => assocSet acc n t
      | none => assocSet acc n b.salvaged) []

/-- Outcome of the AI schema-recovery fallback: the call threw, the response
did not parse as JSON (`safeParseJSON` returned null), or a schema was
recovered and normalized by `_normalizeAISchema`. -/
inductive AiParse where
  | threw (msg : String)
  | unparsable
  | parsed (s : Schema)

/-- Embeds the control flow of `SchemaParser.parse`
(`src/server/src/lib/schemaParser.js`): with zero recovered tables and an AI
model present, a throwing AI call is the only path that raises; an
unparsable AI response, or no AI model at all, silently returns the schema
with zero tables.  Warnings, enum metadata and the non-fatal AI enhancement
only decorate the result and are elided. -/
def SchemaParser_parse (blocks : List DdlBlock) (ai : Option AiParse) : Except String Schema :=
  let recovered := recoverBlocks blocks
  if recovered.isEmpty then
    match ai with
    | some (AiParse.threw m) => Except.error ("DDL parsing failed completely: " ++ m)
    | some (AiParse.parsed s) => Except.ok s
    | some AiParse.unparsable => Except.ok ⟨recovered⟩
    | none => Except.ok ⟨recovered⟩
  else Except.ok ⟨recovered⟩

/-- A job of the generation service (`src/server/src/lib/generationService.js`).
The registry id, kind and timestamps play no role in any claim. -/
structure Job where
  status : String
  progress : Rat
  error : Option String
  cancelled : Bool
  deriving DecidableEq, Repr

/-- Embeds `createJob`. -/
def createJob : Job :=
  { status := "created", progress := 0, error := none, cancelled := false }

/-- The assignment `job.status = 'running'` performed by `generate` and
`generateAsync` immediately after `createJob`. -/
def startJob (j : Job) : Job := { j with status := "running" }

/-- Embeds `GenerationService.cancelJob` on a job present in the registry:
terminal jobs are refused; otherwise the cancelled flag is set and the
status becomes `cancelling`. -/
def cancelJob (j : Job) : Job × Bool :=
  if ["completed", "error", "cancelled"].contains j.status then (j, false)
  else ({ j with cancelled := true, status := "cancelling" }, true)

/-- The successful epilogue of `_executeJob`. -/
def finishSuccess (j : Job) : Job := { j with status := "completed", progress := 1 }

/-- The catch block of `_executeJob`: a cancelled flag or an abort-flavoured
message yields `cancelled`, anything else `error`. -/
def finishFailure (j : Job) (abortedMsg : Bool) (msg : String) : Job :=
  if j.cancelled || abortedMsg then { j with status := "cancelled", error := some "Cancelled" }
  else { j with status := "error", error := some msg }

/-- The progress assignments (`0.1`, `0.9`, …) of `_executeJob`. -/
def setProgress (j : Job) (p : Rat) : Job := { j with progress := p }

/-- One mutation of a job by the service: exactly the assignments the
source performs on a job object. -/
inductive JobStep : Job → Job → Prop where
  | start (j : Job) : JobStep j (startJob j)
  | progress (j : Job) (p : Rat) : JobStep j (setProgress j p)
  | cancel (j : Job) : JobStep j (cancelJob j).1
  | success (j : Job) : JobStep j (finishSuccess j)
  | failure (j : Job) (ab : Bool) (m : String) : JobStep j (finishFailure j ab m)

/-- A job state reachable from creation through the service's mutations. -/
def JobReachable (j : Job) : Prop := Relation.ReflTransGen JobStep createJob j

/-- The set of dependency edges (parent, child): one edge per foreign key
whose reference table exists and differs from the owning table.  Used to
state the claim-side notion of a foreign key lying on a dependency cycle. -/
def fkEdges (schema : Schema) : List (String × String) :=
  schema.tables.foldl (fun es p =>
    p.2.foreignKeys.foldl (fun es fk =>
      match fk.referenceTable with
      | some parent => if parent != p.1 then es ++ [(parent, p.1)] else es
      | none => es) es) []

/-- Fuel-bounded reachability along dependency edges: the edge (parent,
child) lies on a dependency cycle exactly when the child reaches the parent
again. -/
def reachesN (es : List (String × String)) : Nat → String → String → Bool
  | 0, _, _ => false
  | fuel + 1, x, y =>
    es.any (fun e => e.1 == x && (e.2 == y || reachesN es fuel e.2 y))

/-- Values of a column across a row list, the shape the PK claims speak
about. -/
def colVals (rows : List Row) (c : String) : List (Option Value) :=
  rows.map (fun r => rowGet r c)

/-- The PK invariant claimed for a repaired table: every row carries a
non-null value in the column and no two rows share one. -/
def GoodPk (rows : List Row) (c : String) : Prop :=
  (∀ v ∈ colVals rows c, isNullish v = false) ∧ (colVals rows c).Pairwise (· ≠ ·)

/-- The FK coverage invariant claimed for a repaired child table: every row
holds, in the child column, a non-null value drawn from the parent's PK
value set. -/
def CoveredBy (rows : List Row) (c : String) (ps : List Value) : Prop :=
  ∀ v ∈ colVals rows c, ∃ w, v = some w ∧ w ∈ ps

/-- Concrete inputs: table of the C1 failing input (a `time`-typed column,
whose values come from `Math.random`, not the seeded rng). -/
def c1Def : TableDef := { columns := some [("x", { type := "time" })] }

/-- Concrete inputs: schema of the C1 failing input. -/
def c1Schema : Schema := ⟨[("t", c1Def)]⟩

/-- Concrete inputs: configuration of the C1 failing input — one row, seed 1. -/
def c1Cfg : GenConfig := { globalRowCount := some 1, seed := some 1 }

/-- Concrete inputs: first ambient environment (Math.random always 0). -/
def c1StA : GenState := { amb := fun _ => 0, ambIdx := 0, lcg := none, now := 0 }

/-- Concrete inputs: second ambient environment (Math.random always 1/2). -/
def c1StB : GenState := { amb := fun _ => mkRat 1 2, ambIdx := 0, lcg := none, now := 0 }

/-- Concrete inputs: C2 parent table (declared single PK `id`). -/
def c2ParentDef : TableDef :=
  { columns := some [("id", { type := "int" })], primaryKey := some ["id"] }

/-- Concrete inputs: C2 child table whose declared PK column `id` is also its
single foreign-key column into `parent`. -/
def c2ChildDef : TableDef :=
  { columns := some [("id", { type := "int" })]
    primaryKey := some ["id"]
    foreignKeys := [{ columns := ["id"], referenceTable := some "parent",
                      referenceColumns := ["id"] }] }

/-- Concrete inputs: C2 schema. -/
def c2Schema : Schema := ⟨[("parent", c2ParentDef), ("child", c2ChildDef)]⟩

/-- Concrete inputs: C2 dataset — parent has PK 1; the child's PKs 5 and 6 are
valid PKs but dangling FKs. -/
def c2Data : Data :=
  [("parent", [[("id", Value.vNum 1)]]),
   ("child", [[("id", Value.vNum 5)], [("id", Value.vNum 6)]])]

/-- Concrete inputs: C3 parent table — PK `id` inferable but not declared. -/
def c3ParentDef : TableDef := { columns := some [("id", { type := "int" })] }

/-- Concrete inputs: C3 child table with a simple FK into the parent. -/
def c3ChildDef : TableDef :=
  { columns := some [("pid", { type := "int" })]
    foreignKeys := [{ columns := ["pid"], referenceTable := some "parent",
                      referenceColumns := ["id"] }] }

/-- Concrete inputs: C3 schema. -/
def c3Schema : Schema := ⟨[("parent", c3ParentDef), ("child", c3ChildDef)]⟩

/-- Concrete inputs: C3 dataset — the parent is empty, the child row's FK is
null. -/
def c3Data : Data := [("parent", []), ("child", [[("pid", Value.vNull)]])]

/-- Concrete inputs: C4 table `a`, referencing `b` (half of the cycle). -/
def c4DefA : TableDef :=
  { columns := some [("id", { type := "int" })]
    foreignKeys := [{ columns := ["b_id"], referenceTable := some "b",
                      referenceColumns := ["id"] }] }

/-- Concrete inputs: C4 table `b`, referencing `a` (other half of the cycle). -/
def c4DefB : TableDef :=
  { columns := some [("id", { type := "int" })]
    foreignKeys := [{ columns := ["a_id"], referenceTable := some "a",
                      referenceColumns := ["id"] }] }

/-- Concrete inputs: C4 table `c`, referencing the cyclic table `a` through a
foreign key that itself lies on no cycle. -/
def c4DefC : TableDef :=
  { columns := some [("id", { type := "int" })]
    foreignKeys := [{ columns := ["a_id"], referenceTable := some "a",
                      referenceColumns := ["id"] }] }

/-- Concrete inputs: C4 schema, declared in the order c, a, b. -/
def c4Schema : Schema := ⟨[("c", c4DefC), ("a", c4DefA), ("b", c4DefB)]⟩

/-- Concrete inputs: C5 schema — `good` has columns, `bad` has no `columns`
object. -/
def c5Schema : Schema :=
  ⟨[("good", { columns := some [("id", { type := "int" })] }), ("bad", { columns := none })]⟩

/-- Concrete inputs: an oracle whose external service yields zero usable rows
on every attempt for every table. -/
def oracleEmpty : AiOracle := { firstRows := fun _ => [], retryRows := fun _ => [] }

/-- Concrete inputs: C8 table — PK `id` inferable but not declared. -/
def c8Def : TableDef := { columns := some [("id", { type := "int" })] }

/-- Concrete inputs: C8 schema. -/
def c8Schema : Schema := ⟨[("t", c8Def)]⟩

/-- Concrete inputs: a table with an undeclared but inferable PK for the C10
witness. -/
def c10Def : TableDef := { columns := some [("id", { type := "int" })] }

/-- Concrete inputs: witness tables for the repaired-PK theorem — a parent
and a child whose FK column differs from its PK column. -/
def wAuthors : TableDef :=
  { columns := some [("id", { type := "int" }), ("name", { type := "text", nullable := some false })]
    primaryKey := some ["id"] }

/-- Concrete inputs: witness child table. -/
def wBooks : TableDef :=
  { columns := some [("id", { type := "int" }), ("author_id", { type := "int" })]
    primaryKey := some ["id"]
    foreignKeys := [{ columns := ["author_id"], referenceTable := some "authors",
                      referenceColumns := ["id"] }] }

/-- Concrete inputs: witness schema. -/
def wSchema : Schema := ⟨[("authors", wAuthors), ("books", wBooks)]⟩

/-- Concrete inputs: witness dataset with a null PK and a dangling FK. -/
def wData : Data :=
  [("authors", [[("id", Value.vNum 2)], [("id", Value.vNull)]]),
   ("books", [[("id", Value.vNum 1), ("author_id", Value.vNum 9)]])]

/-- Concrete inputs: an empty table with a *declared* single-column PK, for
the empty-table synthesis theorem. -/
def c8dDef : TableDef :=
  { columns := some [("id", { type := "int" })], primaryKey := some ["id"] }

/-- Concrete inputs: witness schema for the empty-table synthesis theorem. -/
def c8dSchema : Schema := ⟨[("t", c8dDef)]⟩

/-- Concrete inputs: parent table for the FK-coverage theorem witness. -/
def wcParent : TableDef :=
  { columns := some [("id", { type := "int" })], primaryKey := some ["id"] }

/-- Concrete inputs: the witness foreign key `pid → parent.id`. -/
def wcFk : FK :=
  { columns := ["pid"], referenceTable := some "parent", referenceColumns := ["id"] }

/-- Concrete inputs: child table with a simple FK `pid → parent.id`. -/
def wcChild : TableDef :=
  { columns := some [("pid", { type := "int" })]
    foreignKeys := [wcFk] }

/-- Concrete inputs: witness schema for the FK-coverage theorem. -/
def wcSchema : Schema := ⟨[("parent", wcParent), ("child", wcChild)]⟩

/-- Concrete inputs: witness dataset — a child row with a null FK against
the single parent PK 7. -/
def wcData : Data :=
  [("parent", [[("id", Value.vNum 7)]]),
   ("child", [[("pid", Value.vNull)]])]

/-- Concrete inputs: a two-table acyclic schema declared child-first —
`b` carries a foreign key into `a` but is listed before it. -/
def c4wA : TableDef :=
  { columns := some [("id", { type := "int" })], primaryKey := some ["id"] }

def c4wB : TableDef :=
  { columns := some [("aid", { type := "int" })],
    foreignKeys := [{ columns := ["aid"], referenceTable := some "a",
                      referenceColumns := ["id"] }] }

def c4wSchema : Schema := ⟨[("b", c4wB), ("a", c4wA)]⟩

/-- Concrete inputs: a one-table schema whose external generative service
yields zero usable rows on the first attempt and on the retry. -/
def c5wTd : TableDef := { columns := some [("id", { type := "int" })] }

def c5wSchema : Schema := ⟨[("t", c5wTd)]⟩

def c5wOracle : AiOracle := { firstRows := fun _ => [], retryRows := fun _ => [] }

def c5wCfg : AiConfig := { numRecords := some 3 }

def c5wSt : GenState := { amb := fun _ => 0, ambIdx := 0, lcg := none, now := 0 }

/-- The five job statuses named by the specification. -/
def specJobStatuses : List String :=
  ["created", "running", "completed", "error", "cancelled"]

/-- The six statuses the code actually uses (the five of the spec plus the
transient `cancelling`). -/
def codeJobStatuses : List String :=
  ["created", "running", "cancelling", "completed", "error", "cancelled"]

end SynthData

namespace SynthData

/-! Supporting lemmas: association-list reads and writes. -/

theorem rowGet_rowSet_self (r : Row) (k : String) (v : Value) :
    rowGet (rowSet r k v) k = some v := by
  induction r with
  | nil => simp [rowGet, rowSet, List.find?]
  | cons p rest ih =>
    by_cases h : p.1 == k
    · simp only [rowSet, Row] at *
      rw [if_pos h]
      simp [rowGet, List.find?]
    · simp only [rowSet, Row] at *
      rw [if_neg h]
      simpa [rowGet, List.find?, h] using ih

theorem rowGet_rowSet_other (r : Row) (k k' : String) (v : Value) (h : k' ≠ k) :
    rowGet (rowSet r k v) k' = rowGet r k' := by
  have hkk : (k == k') = false := by simpa using (Ne.symm h)
  induction r with
  | nil =>
    simp only [rowSet, Row]
    simp [rowGet, List.find?, hkk]
  | cons p rest ih =>
    by_cases hp : p.1 == k
    · simp only [rowSet, Row] at *
      rw [if_pos hp]
      have hpk : p.1 = k := by simpa using hp
      simp [rowGet, List.find?, hkk, hpk]
    · simp only [rowSet, Row] at *
      rw [if_neg hp]
      by_cases hq : p.1 = k'
      · simp [rowGet, List.find?, hq]
      · simp only [rowGet, List.find?] at *
        have hq' : (p.1 == k') = false := by simpa using hq
        simpa [hq'] using ih

theorem dataGet_dataSet_self (d : Data) (t : String) (rows : List Row) :
    dataGet (dataSet d t rows) t = some rows := by
  induction d with
  | nil => simp [dataGet, dataSet, List.find?]
  | cons p rest ih =>
    by_cases h : p.1 == t
    · simp only [dataSet, Data] at *
      rw [if_pos h]
      simp [dataGet, List.find?]
    · simp only [dataSet, Data] at *
      rw [if_neg h]
      simpa [dataGet, List.find?, h] using ih

theorem dataGet_dataSet_other (d : Data) (t t' : String) (rows : List Row) (h : t' ≠ t) :
    dataGet (dataSet d t rows) t' = dataGet d t' := by
  have hkk : (t == t') = false := by simpa using (Ne.symm h)
  induction d with
  | nil =>
    simp only [dataSet, Data]
    simp [dataGet, List.find?, hkk]
  | cons p rest ih =>
    by_cases hp : p.1 == t
    · simp only [dataSet, Data] at *
      rw [if_pos hp]
      have hpk : p.1 = t := by simpa using hp
      simp [dataGet, List.find?, hkk, hpk]
    · simp only [dataSet, Data] at *
      rw [if_neg hp]
      by_cases hq : p.1 = t'
      · simp [dataGet, List.find?, hq]
      · simp only [dataGet, List.find?] at *
        have hq' : (p.1 == t') = false := by simpa using hq
        simpa [hq'] using ih

theorem dataSet_self (d : Data) (t : String) (rows : List Row)
    (h : dataGet d t = some rows) : dataSet d t rows = d := by
  induction d with
  | nil => simp [dataGet, List.find?] at h
  | cons p rest ih =>
    by_cases hp : p.1 == t
    · have hpk : p.1 = t := by simpa using hp
      have : p.2 = rows := by
        simp [dataGet, List.find?, hp] at h
        exact h
      simp only [dataSet, Data] at *
      rw [if_pos hp, ← hpk, ← this]
    · simp only [dataSet, Data] at *
      rw [if_neg hp]
      simp only [dataGet, List.find?, hp] at h
      rw [ih h]

theorem setsGet_setsSet_self (s : List (String × List Value)) (t : String) (vs : List Value) :
    setsGet (setsSet s t vs) t = some vs := by
  induction s with
  | nil => simp [setsGet, setsSet, List.find?]
  | cons p rest ih =>
    by_cases h : p.1 == t
    · rw [setsSet, if_pos h]
      simp [setsGet, List.find?]
    · rw [setsSet, if_neg h]
      simpa [setsGet, List.find?, h] using ih

theorem setsGet_setsSet_other (s : List (String × List Value)) (t t' : String)
    (vs : List Value) (h : t' ≠ t) :
    setsGet (setsSet s t vs) t' = setsGet s t' := by
  have hkk : (t == t') = false := by simpa using (Ne.symm h)
  induction s with
  | nil =>
    rw [setsSet]
    simp [setsGet, List.find?, hkk]
  | cons p rest ih =>
    by_cases hp : p.1 == t
    · rw [setsSet, if_pos hp]
      have hpk : p.1 = t := by simpa using hp
      simp [setsGet, List.find?, hkk, hpk]
    · rw [setsSet, if_neg hp]
      by_cases hq : p.1 = t'
      · simp [setsGet, List.find?, hq]
      · simp only [setsGet, List.find?] at *
        have hq' : (p.1 == t') = false := by simpa using hq
        simpa [hq'] using ih

/-! Supporting lemmas: the PK repair pass. -/

theorem natRat_inj {a b : Nat} (h : natRat a = natRat b) : a = b := by
  have ha : natRat a = (a : Rat) := Rat.mkRat_one a
  have hb : natRat b = (b : Rat) := Rat.mkRat_one b
  rw [ha, hb] at h
  exact_mod_cast h

theorem goodPk_nil (c : String) : GoodPk [] c := by
  simp [GoodPk, colVals]

theorem goodPk_of_colVals_eq {rows1 rows2 : List Row} {c : String}
    (h : colVals rows1 c = colVals rows2 c) (hg : GoodPk rows2 c) : GoodPk rows1 c := by
  unfold GoodPk at *
  rw [h]
  exact hg

theorem goodPk_single (r : Row) (c : String) (h : isNullish (rowGet r c) = false) :
    GoodPk [r] c := by
  unfold GoodPk colVals
  refine ⟨?_, ?_⟩
  · intro v hv
    simp at hv
    rw [hv]
    exact h
  · simp

theorem scanPkRows_clean (pkCol : String) :
    ∀ (rows : List Row) (seen : List String) (num num' : Nat),
      scanPkRows pkCol rows seen num = (false, num') →
      (∀ r ∈ rows, isNullish (rowGet r pkCol) = false) ∧
      (rows.map (fun r => jsonKey ((rowGet r pkCol).getD Value.vNull))).Pairwise (· ≠ ·) ∧
      (∀ r ∈ rows, seen.contains (jsonKey ((rowGet r pkCol).getD Value.vNull)) = false) := by
  intro rows
  induction rows with
  | nil => intro seen num num' _; exact ⟨by simp, by simp, by simp⟩
  | cons r rs ih =>
    intro seen num num' hscan
    unfold scanPkRows at hscan
    by_cases h1 : (isNullish (rowGet r pkCol)
        || strTooLong ((rowGet r pkCol).getD Value.vNull)) = true
    · rw [if_pos h1] at hscan; simp at hscan
    · rw [if_neg h1] at hscan
      by_cases h2 : (seen.contains (jsonKey ((rowGet r pkCol).getD Value.vNull))) = true
      · rw [if_pos h2] at hscan; simp at hscan
      · rw [if_neg h2] at hscan
        have hrec := ih _ _ _ hscan
        have h1' : isNullish (rowGet r pkCol) = false := by
          rcases Bool.or_eq_false_iff.mp (Bool.not_eq_true _ |>.mp h1) with ⟨ha, _⟩
          exact ha
        have h2' : seen.contains (jsonKey ((rowGet r pkCol).getD Value.vNull)) = false :=
          Bool.not_eq_true _ |>.mp h2
        refine ⟨?_, ?_, ?_⟩
        · intro r' hr'
          rcases List.mem_cons.mp hr' with hr' | hr'
          · rw [hr']; exact h1'
          · exact hrec.1 r' hr'
        · refine List.Pairwise.cons ?_ hrec.2.1
          intro k hk
          obtain ⟨r', hr', hkr'⟩ := List.mem_map.mp hk
          have h3 := hrec.2.2 r' hr'
          rw [hkr'] at h3
          intro heq
          rw [← heq] at h3
          simp [List.contains_cons] at h3
        · intro r' hr'
          rcases List.mem_cons.mp hr' with hr' | hr'
          · rw [hr']; exact h2'
          · have h3 := hrec.2.2 r' hr'
            simp only [List.contains_cons, Bool.or_eq_false_iff] at h3
            exact h3.2

theorem goodPk_of_scan_clean {pkCol : String} {rows : List Row} {num num' : Nat}
    (h : scanPkRows pkCol rows [] num = (false, num')) : GoodPk rows pkCol := by
  have hc := scanPkRows_clean pkCol rows [] num num' h
  refine ⟨?_, ?_⟩
  · intro v hv
    obtain ⟨r, hr, hvr⟩ := List.mem_map.mp hv
    rw [← hvr]
    exact hc.1 r hr
  · have hp := hc.2.1
    unfold colVals
    rw [List.pairwise_map] at hp ⊢
    refine hp.imp ?_
    intro a b hne heq
    exact hne (by rw [heq])

theorem rewriteFrom_length (pkCol : String) : ∀ (i : Nat) (rows : List Row),
    (rewriteFrom pkCol i rows).length = rows.length := by
  intro i rows
  induction rows generalizing i with
  | nil => rfl
  | cons r rs ih => simpa [rewriteFrom] using ih (i + 1)

theorem rewriteFrom_colVals (pkCol : String) : ∀ (rows : List Row) (i : Nat),
    colVals (rewriteFrom pkCol i rows) pkCol
      = (List.range rows.length).map (fun j => some (Value.vNum (natRat (i + j)))) := by
  intro rows
  induction rows with
  | nil => intro i; rfl
  | cons r rs ih =>
    intro i
    have hh : rowGet (rowSet r pkCol (Value.vNum (natRat i))) pkCol
        = some (Value.vNum (natRat i)) := rowGet_rowSet_self r pkCol _
    show rowGet (rowSet r pkCol (Value.vNum (natRat i))) pkCol
        :: colVals (rewriteFrom pkCol (i + 1) rs) pkCol = _
    rw [hh, ih (i + 1), List.length_cons, List.range_succ_eq_map, List.map_cons,
      List.map_map]
    refine congrArg₂ _ (by rw [Nat.add_zero]) ?_
    apply List.map_congr_left
    intro j _
    show some (Value.vNum (natRat (i + 1 + j))) = some (Value.vNum (natRat (i + Nat.succ j)))
    rw [show i + 1 + j = i + Nat.succ j from by omega]

theorem goodPk_rewriteFrom (pkCol : String) (rows : List Row) (i : Nat) :
    GoodPk (rewriteFrom pkCol i rows) pkCol := by
  unfold GoodPk
  rw [rewriteFrom_colVals]
  constructor
  · intro v hv
    obtain ⟨j, _, hj⟩ := List.mem_map.mp hv
    rw [← hj]
    rfl
  · rw [List.pairwise_map]
    refine (List.pairwise_lt_range _).imp ?_
    intro a b hlt heq
    have : i + a = i + b := by
      have := Option.some.inj heq
      have hv := Value.vNum.inj this
      exact natRat_inj hv
    omega

theorem fillMissingFrom_of_nonull (pkCol : String) : ∀ (i : Nat) (rows : List Row),
    (∀ r ∈ rows, isNullish (rowGet r pkCol) = false) →
    fillMissingFrom pkCol i rows = rows := by
  intro i rows
  induction rows generalizing i with
  | nil => intro _; rfl
  | cons r rs ih =>
    intro h
    have hr : isNullish (rowGet r pkCol) = false := h r (List.mem_cons_self _ _)
    unfold fillMissingFrom
    rw [if_neg (by simp [hr])]
    rw [ih i (fun r' hr' => h r' (List.mem_cons_of_mem _ hr'))]

theorem fillMissingFrom_length (pkCol : String) : ∀ (i : Nat) (rows : List Row),
    (fillMissingFrom pkCol i rows).length = rows.length := by
  intro i rows
  induction rows generalizing i with
  | nil => rfl
  | cons r rs ih =>
    unfold fillMissingFrom
    by_cases h : isNullish (rowGet r pkCol) = true
    · rw [if_pos h]
      simpa using ih (i + 1)
    · rw [if_neg h]
      simpa using ih i

theorem countP_missing_zero (pkCol : String) (rows : List Row)
    (h : ∀ r ∈ rows, isNullish (rowGet r pkCol) = false) :
    rows.countP (fun row => isNullish (rowGet row pkCol)) = 0 := by
  refine List.countP_eq_zero.mpr ?_
  intro r hr
  simp [h r hr]

theorem pkRows1_good (pkCol : String) (rows : List Row) :
    GoodPk (pkRows1 pkCol rows) pkCol := by
  unfold pkRows1
  by_cases hcond : ((scanPkRows pkCol rows [] 0).1
      || ((scanPkRows pkCol rows [] 0).2 == 0)) = true
  · rw [if_pos hcond]
    exact goodPk_rewriteFrom pkCol rows 1
  · rw [if_neg hcond]
    have h1 : (scanPkRows pkCol rows [] 0).1 = false := by
      rcases Bool.or_eq_false_iff.mp (Bool.not_eq_true _ |>.mp hcond) with ⟨ha, _⟩
      exact ha
    have hpair : scanPkRows pkCol rows [] 0 = (false, (scanPkRows pkCol rows [] 0).2) := by
      rw [← h1]
    exact goodPk_of_scan_clean hpair

theorem pkRows1_length (pkCol : String) (rows : List Row) :
    (pkRows1 pkCol rows).length = rows.length := by
  unfold pkRows1
  by_cases hcond : ((scanPkRows pkCol rows [] 0).1
      || ((scanPkRows pkCol rows [] 0).2 == 0)) = true
  · rw [if_pos hcond, rewriteFrom_length]
  · rw [if_neg hcond]

theorem pkRepairRowsFn_good (pkCol : String) (rows : List Row) :
    GoodPk (pkRepairRowsFn pkCol rows) pkCol := by
  unfold pkRepairRowsFn
  have hg := pkRows1_good pkCol rows
  have hnn : ∀ r' ∈ pkRows1 pkCol rows, isNullish (rowGet r' pkCol) = false := by
    intro r' hr'
    exact hg.1 (rowGet r' pkCol) (List.mem_map.mpr ⟨r', hr', rfl⟩)
  rw [if_neg (by simp [countP_missing_zero pkCol _ hnn])]
  exact hg

theorem pkRepairRowsFn_length (pkCol : String) (rows : List Row) :
    (pkRepairRowsFn pkCol rows).length = rows.length := by
  unfold pkRepairRowsFn
  by_cases hm : ((pkRows1 pkCol rows).countP (fun row => isNullish (rowGet row pkCol))) > 0
  · rw [if_pos hm, fillMissingFrom_length, pkRows1_length]
  · rw [if_neg hm, pkRows1_length]

theorem repairPkTable_good (tn : String) (td : TableDef) (d : Data) (pkCol : String)
    (h : inferSinglePK tn td = some pkCol) :
    GoodPk ((dataGet (repairPkTable tn td d) tn).getD []) pkCol := by
  rcases hd : dataGet d tn with _ | rows
  · have hrep : repairPkTable tn td d = d := by
      unfold repairPkTable
      rw [h, hd]
    rw [hrep, hd]
    exact goodPk_nil pkCol
  · rcases rows with _ | ⟨r, rs⟩
    · have hrep : repairPkTable tn td d = d := by
        unfold repairPkTable
        rw [h, hd]
      rw [hrep, hd]
      exact goodPk_nil pkCol
    · have hrep : repairPkTable tn td d = dataSet d tn (pkRepairRowsFn pkCol (r :: rs)) := by
        unfold repairPkTable
        rw [h, hd]
      rw [hrep, dataGet_dataSet_self]
      exact pkRepairRowsFn_good pkCol (r :: rs)

theorem repairPkTable_other (tn tn' : String) (td : TableDef) (d : Data) (h : tn' ≠ tn) :
    dataGet (repairPkTable tn' td d) tn = dataGet d tn := by
  rcases hpk : inferSinglePK tn' td with _ | pk
  · have hrep : repairPkTable tn' td d = d := by
      unfold repairPkTable
      rw [hpk]
    rw [hrep]
  · rcases hd : dataGet d tn' with _ | rows
    · have hrep : repairPkTable tn' td d = d := by
        unfold repairPkTable
        rw [hpk, hd]
      rw [hrep]
    · rcases rows with _ | ⟨r, rs⟩
      · have hrep : repairPkTable tn' td d = d := by
          unfold repairPkTable
          rw [hpk, hd]
        rw [hrep]
      · have hrep : repairPkTable tn' td d
            = dataSet d tn' (pkRepairRowsFn pk (r :: rs)) := by
          unfold repairPkTable
          rw [hpk, hd]
        rw [hrep]
        exact dataGet_dataSet_other d tn' tn _ (Ne.symm h)

theorem repairPkTable_len (tn : String) (td : TableDef) (d : Data) :
    ((dataGet (repairPkTable tn td d) tn).getD []).length
      = ((dataGet d tn).getD []).length := by
  rcases hpk : inferSinglePK tn td with _ | pk
  · have hrep : repairPkTable tn td d = d := by
      unfold repairPkTable
      rw [hpk]
    rw [hrep]
  · rcases hd : dataGet d tn with _ | rows
    · have hrep : repairPkTable tn td d = d := by
        unfold repairPkTable
        rw [hpk, hd]
      rw [hrep, hd]
    · rcases rows with _ | ⟨r, rs⟩
      · have hrep : repairPkTable tn td d = d := by
          unfold repairPkTable
          rw [hpk, hd]
        rw [hrep, hd]
      · have hrep : repairPkTable tn td d
            = dataSet d tn (pkRepairRowsFn pk (r :: rs)) := by
          unfold repairPkTable
          rw [hpk, hd]
        rw [hrep, dataGet_dataSet_self]
        simp only [Option.getD]
        exact pkRepairRowsFn_length pk (r :: rs)

theorem pkFold_preserve (l : List (String × TableDef)) (d : Data) (tn : String)
    (h : ∀ p ∈ l, p.1 ≠ tn) :
    dataGet (l.foldl (fun d p => repairPkTable p.1 p.2 d) d) tn = dataGet d tn := by
  induction l generalizing d with
  | nil => rfl
  | cons p rest ih =>
    rw [List.foldl_cons, ih _ (fun q hq => h q (List.mem_cons_of_mem _ hq))]
    exact repairPkTable_other tn p.1 p.2 d (h p (List.mem_cons_self _ _))

theorem pkFold_good (l : List (String × TableDef)) (d : Data) (tn : String) (td : TableDef)
    (pkCol : String) (hnd : (l.map Prod.fst).Nodup) (hmem : (tn, td) ∈ l)
    (hpk : inferSinglePK tn td = some pkCol) :
    GoodPk ((dataGet (l.foldl (fun d p => repairPkTable p.1 p.2 d) d) tn).getD []) pkCol := by
  induction l generalizing d with
  | nil => cases hmem
  | cons p rest ih =>
    rw [List.foldl_cons]
    rcases List.mem_cons.mp hmem with heq | hmem'
    · have hp : p = (tn, td) := heq.symm
      subst hp
      have hfresh : ∀ q ∈ rest, q.1 ≠ tn := by
        intro q hq hq1
        have hnotin := (List.nodup_cons.mp hnd).1
        exact hnotin (by rw [← hq1]; exact List.mem_map.mpr ⟨q, hq, rfl⟩)
      rw [pkFold_preserve rest _ tn hfresh]
      exact repairPkTable_good tn td d pkCol hpk
    · exact ih _ (List.Nodup.of_cons hnd) hmem'

theorem pkFold_len (l : List (String × TableDef)) (d : Data) (tn : String) :
    ((dataGet (l.foldl (fun d p => repairPkTable p.1 p.2 d) d) tn).getD []).length
      = ((dataGet d tn).getD []).length := by
  induction l generalizing d with
  | nil => rfl
  | cons p rest ih =>
    rw [List.foldl_cons, ih]
    by_cases hp : p.1 = tn
    · rw [← hp]
      exact repairPkTable_len p.1 p.2 d
    · rw [repairPkTable_other tn p.1 p.2 d hp]

/-! Supporting lemmas: the FK repair pass. -/

theorem fkRepairRows_length (c : String) (ps pv : List Value) :
    ∀ (i : Nat) (rows : List Row), (fkRepairRows c ps pv i rows).length = rows.length := by
  intro i rows
  induction rows generalizing i with
  | nil => rfl
  | cons r rs ih =>
    unfold fkRepairRows
    by_cases h : fkRowInvalid c ps r = true
    · rw [if_pos h]
      simpa using ih (i + 1)
    · rw [if_neg h]
      simpa using ih i

theorem fkRepairRows_colVals_other (c c' : String) (hne : c ≠ c') (ps pv : List Value) :
    ∀ (i : Nat) (rows : List Row),
      colVals (fkRepairRows c ps pv i rows) c' = colVals rows c' := by
  intro i rows
  induction rows generalizing i with
  | nil => rfl
  | cons r rs ih =>
    unfold fkRepairRows
    by_cases h : fkRowInvalid c ps r = true
    · rw [if_pos h]
      show rowGet (rowSet r c _) c' :: colVals (fkRepairRows c ps pv (i + 1) rs) c'
          = rowGet r c' :: colVals rs c'
      rw [rowGet_rowSet_other r c c' _ (Ne.symm hne), ih (i + 1)]
    · rw [if_neg h]
      show rowGet r c' :: colVals (fkRepairRows c ps pv i rs) c'
          = rowGet r c' :: colVals rs c'
      rw [ih i]

theorem getD_mem_of_ne_nil {l : List Value} (h : l ≠ []) (k : Nat) :
    l.getD (k % l.length) Value.vNull ∈ l := by
  have hlen : 0 < l.length := List.length_pos.mpr h
  have hk : k % l.length < l.length := Nat.mod_lt _ hlen
  rw [List.getD_eq_getElem?_getD, List.getElem?_eq_getElem hk]
  simp only [Option.getD_some]
  exact List.getElem_mem hk

theorem fkRowInvalid_false (c : String) (ps : List Value) (r : Row)
    (h : fkRowInvalid c ps r = false) :
    ∃ w, rowGet r c = some w ∧ ps.contains w = true := by
  unfold fkRowInvalid at h
  rcases hg : rowGet r c with _ | w
  · rw [hg] at h; simp at h
  · rw [hg] at h
    cases w with
    | vNull => simp at h
    | vNum q => exact ⟨_, rfl, by simpa using h⟩
    | vStr s => exact ⟨_, rfl, by simpa using h⟩
    | vBool b => exact ⟨_, rfl, by simpa using h⟩
    | vDate dd => exact ⟨_, rfl, by simpa using h⟩

theorem fkRepairRows_covered (c : String) (ps pv S : List Value)
    (hpv : pv ≠ []) (hsub : ∀ v ∈ pv, v ∈ S)
    (hset : ∀ w, ps.contains w = true → w ∈ S) :
    ∀ (i : Nat) (rows : List Row), CoveredBy (fkRepairRows c ps pv i rows) c S := by
  intro i rows
  induction rows generalizing i with
  | nil => intro v hv; cases hv
  | cons r rs ih =>
    unfold fkRepairRows
    by_cases h : fkRowInvalid c ps r = true
    · rw [if_pos h]
      intro v hv
      rcases List.mem_cons.mp hv with hv | hv
      · refine ⟨pv.getD (i % pv.length) Value.vNull, ?_, hsub _ (getD_mem_of_ne_nil hpv i)⟩
        rw [hv]
        exact rowGet_rowSet_self r c _
      · exact ih (i + 1) v hv
    · rw [if_neg h]
      intro v hv
      rcases List.mem_cons.mp hv with hv | hv
      · obtain ⟨w, hw, hcont⟩ := fkRowInvalid_false c ps r (Bool.not_eq_true _ |>.mp h)
        exact ⟨w, by rw [hv]; exact hw, hset w hcont⟩
      · exact ih i v hv

theorem coveredBy_of_colVals_eq {rows1 rows2 : List Row} {c : String} {ps : List Value}
    (h : colVals rows1 c = colVals rows2 c) (hc : CoveredBy rows2 c ps) :
    CoveredBy rows1 c ps := by
  unfold CoveredBy at *
  rw [h]
  exact hc

theorem fkRepairRows_round_robin (c : String) (ps pv : List Value) :
    ∀ (rows : List Row) (start j : Nat),
      (fkRepairRows c ps pv start rows).get? j =
        (rows.get? j).map (fun r =>
          if fkRowInvalid c ps r then
            rowSet r c (pv.getD
              ((start + (rows.take j).countP (fkRowInvalid c ps)) % pv.length)
              Value.vNull)
          else r) := by
  intro rows
  induction rows with
  | nil => intro start j; rfl
  | cons r rs ih =>
    intro start j
    unfold fkRepairRows
    by_cases h : fkRowInvalid c ps r = true
    · rw [if_pos h]
      cases j with
      | zero => simp [h]
      | succ j =>
        show (fkRepairRows c ps pv (start + 1) rs).get? j = _
        rw [ih (start + 1) j]
        have hcount : (List.take (j + 1) (r :: rs)).countP (fkRowInvalid c ps)
            = (List.take j rs).countP (fkRowInvalid c ps) + 1 := by
          simp [List.take_succ_cons, List.countP_cons, h]
        rw [hcount]
        have harith : start + 1 + (List.take j rs).countP (fkRowInvalid c ps)
            = start + ((List.take j rs).countP (fkRowInvalid c ps) + 1) := by omega
        rw [harith]
        rfl
    · rw [if_neg h]
      cases j with
      | zero => simp [h]
      | succ j =>
        show (fkRepairRows c ps pv start rs).get? j = _
        rw [ih start j]
        have hcount : (List.take (j + 1) (r :: rs)).countP (fkRowInvalid c ps)
            = (List.take j rs).countP (fkRowInvalid c ps) := by
          simp [List.take_succ_cons, List.countP_cons, h]
        rw [hcount]
        rfl

theorem repairFkStep_cases (schema : Schema) (tn : String) (fk : FK) (st : FkPassState) :
    repairFkStep schema tn fk st = st ∨
    (∃ c0 pt pset, fk.columns = [c0] ∧ fk.referenceTable = some pt ∧
      setsGet st.sets pt = some pset ∧ pset ≠ [] ∧
      repairFkStep schema tn fk st
        = { st with rows := fkRepairRows c0 pset pset 0 st.rows }) ∨
    (∃ c0 pt pkc rest, fk.columns = [c0] ∧ fk.referenceTable = some pt ∧
      setsGet st.sets pt = some [] ∧
      (schemaGet schema pt).bind (fun td => td.primaryKey) = some (pkc :: rest) ∧
      repairFkStep schema tn fk st =
        { rows := fkRepairRows c0 [Value.vNum 1] [Value.vNum 1] 0 st.rows
          data := dataSet st.data pt [[(pkc, Value.vNum 1)]]
          sets := setsSet st.sets pt [Value.vNum 1]
          aliasLive := st.aliasLive && !(pt == tn) }) := by
  rcases hrt : fk.referenceTable with _ | pt
  · left
    unfold repairFkStep
    simp only [hrt]
  · by_cases hlen : (fk.columns.length != 1 || fk.referenceColumns.length != 1) = true
    · left
      unfold repairFkStep
      simp only [hrt]
      rw [if_pos hlen]
    · have hc1 : fk.columns.length = 1 := by
        rcases Bool.or_eq_false_iff.mp (Bool.not_eq_true _ |>.mp hlen) with ⟨h1, _⟩
        simpa using h1
      obtain ⟨c0, hc0⟩ : ∃ c0, fk.columns = [c0] := by
        rcases hcols : fk.columns with _ | ⟨x, xs⟩
        · rw [hcols] at hc1; simp at hc1
        · rw [hcols] at hc1
          have hxs : xs = [] := by
            have h0 : xs.length = 0 := by simpa using hc1
            exact List.length_eq_zero.mp h0
          exact ⟨x, by rw [hxs]⟩
      rcases hset : setsGet st.sets pt with _ | pset
      · left
        unfold repairFkStep
        simp only [hrt]
        rw [if_neg hlen]
        simp only [hset]
      · by_cases hemp : pset.isEmpty = true
        · have hpe : pset = [] := List.isEmpty_iff.mp hemp
          subst hpe
          rcases hbind : (schemaGet schema pt).bind (fun td => td.primaryKey) with _ | l
          · left
            unfold repairFkStep
            simp only [hrt]
            rw [if_neg hlen]
            simp only [hset]
            rw [if_pos hemp]
            simp only [hbind]
          · rcases l with _ | ⟨pkc, rest⟩
            · left
              unfold repairFkStep
              simp only [hrt]
              rw [if_neg hlen]
              simp only [hset]
              rw [if_pos hemp]
              simp only [hbind]
            · right; right
              refine ⟨c0, pt, pkc, rest, hc0, by simp [hrt], hset, hbind, ?_⟩
              unfold repairFkStep
              simp only [hrt]
              rw [if_neg hlen]
              simp only [hset]
              rw [if_pos hemp]
              simp only [hbind, hc0]
              rfl
        · right; left
          have hne : pset ≠ [] := by
            intro hh
            rw [hh] at hemp
            simp at hemp
          refine ⟨c0, pt, pset, hc0, by simp [hrt], hset, hne, ?_⟩
          unfold repairFkStep
          simp only [hrt]
          rw [if_neg hlen]
          simp only [hset]
          rw [if_neg hemp]
          simp only [hc0]
          rfl

theorem repairFkStep_data (schema : Schema) (tn : String) (fk : FK) (st : FkPassState)
    (k : String) :
    dataGet (repairFkStep schema tn fk st).data k = dataGet st.data k ∨
    (setsGet st.sets k = some [] ∧
      ∃ pkc rest, (schemaGet schema k).bind (fun td => td.primaryKey) = some (pkc :: rest) ∧
        dataGet (repairFkStep schema tn fk st).data k = some [[(pkc, Value.vNum 1)]]) := by
  rcases repairFkStep_cases schema tn fk st with h
    | ⟨c0, pt, pset, hc0, hrt, hset, hne, h⟩
    | ⟨c0, pt, pkc, rest, hc0, hrt, hset, hbind, h⟩
  · rw [h]; left; rfl
  · rw [h]; left; rfl
  · rw [h]
    by_cases hk : pt = k
    · subst hk
      right
      exact ⟨hset, pkc, rest, hbind, dataGet_dataSet_self _ _ _⟩
    · left
      exact dataGet_dataSet_other _ _ _ _ (fun hh => hk hh.symm)

theorem repairFkStep_setsOk (schema : Schema) (tn : String) (fk : FK) (st : FkPassState)
    (k : String) (hOk : ∀ l, setsGet st.sets k = some l → l ≠ []) :
    ∀ l, setsGet (repairFkStep schema tn fk st).sets k = some l → l ≠ [] := by
  rcases repairFkStep_cases schema tn fk st with h
    | ⟨c0, pt, pset, hc0, hrt, hset, hne, h⟩
    | ⟨c0, pt, pkc, rest, hc0, hrt, hset, hbind, h⟩
  · rw [h]; exact hOk
  · rw [h]; exact hOk
  · rw [h]
    by_cases hk : pt = k
    · subst hk
      intro l hl
      rw [setsGet_setsSet_self] at hl
      intro hnil
      rw [hnil] at hl
      cases hl
    · intro l hl
      rw [setsGet_setsSet_other _ _ _ _ (fun hh => hk hh.symm)] at hl
      exact hOk l hl

theorem repairFkStep_sets_const (schema : Schema) (tn : String) (fk : FK) (st : FkPassState)
    (p : String) (ps : List Value) (hps : setsGet st.sets p = some ps) (hne : ps ≠ []) :
    setsGet (repairFkStep schema tn fk st).sets p = some ps := by
  rcases repairFkStep_cases schema tn fk st with h
    | ⟨c0, pt, pset, hc0, hrt, hset, hne2, h⟩
    | ⟨c0, pt, pkc, rest, hc0, hrt, hset, hbind, h⟩
  · rw [h]; exact hps
  · rw [h]; exact hps
  · rw [h]
    have hk : pt ≠ p := by
      intro hh
      subst hh
      rw [hset] at hps
      cases hps
      exact hne rfl
    rw [setsGet_setsSet_other _ _ _ _ (Ne.symm hk)]
    exact hps

theorem repairFkStep_alias (schema : Schema) (tn : String) (fk : FK) (st : FkPassState)
    (hOk : ∀ l, setsGet st.sets tn = some l → l ≠ []) :
    (repairFkStep schema tn fk st).aliasLive = st.aliasLive := by
  rcases repairFkStep_cases schema tn fk st with h
    | ⟨c0, pt, pset, hc0, hrt, hset, hne, h⟩
    | ⟨c0, pt, pkc, rest, hc0, hrt, hset, hbind, h⟩
  · rw [h]
  · rw [h]
  · rw [h]
    have hk : pt ≠ tn := by
      intro hh
      subst hh
      exact hOk [] hset rfl
    show (st.aliasLive && !(pt == tn)) = st.aliasLive
    have hb : (pt == tn) = false := by simpa using hk
    rw [hb]
    simp

theorem repairFkStep_rows_other (schema : Schema) (tn : String) (fk : FK) (st : FkPassState)
    (c' : String) (hcol : ∀ c0, fk.columns = [c0] → c0 ≠ c') :
    colVals (repairFkStep schema tn fk st).rows c' = colVals st.rows c' := by
  rcases repairFkStep_cases schema tn fk st with h
    | ⟨c0, pt, pset, hc0, hrt, hset, hne, h⟩
    | ⟨c0, pt, pkc, rest, hc0, hrt, hset, hbind, h⟩
  · rw [h]
  · rw [h]
    exact fkRepairRows_colVals_other c0 c' (hcol c0 hc0) pset pset 0 st.rows
  · rw [h]
    exact fkRepairRows_colVals_other c0 c' (hcol c0 hc0) _ _ 0 st.rows

theorem rowGet_singleton (k : String) (v : Value) : rowGet [(k, v)] k = some v := by
  simp [rowGet, List.find?]

theorem fkFold_setsOk (schema : Schema) (tnCur : String) (fks : List FK) (st : FkPassState)
    (k : String) (hOk : ∀ l, setsGet st.sets k = some l → l ≠ []) :
    ∀ l, setsGet (fks.foldl (fun st fk => repairFkStep schema tnCur fk st) st).sets k
      = some l → l ≠ [] := by
  induction fks generalizing st with
  | nil => exact hOk
  | cons fk rest ih => exact ih _ (repairFkStep_setsOk schema tnCur fk st k hOk)

theorem fkFold_sets_const (schema : Schema) (tnCur : String) (fks : List FK)
    (st : FkPassState) (p : String) (ps : List Value)
    (hps : setsGet st.sets p = some ps) (hne : ps ≠ []) :
    setsGet (fks.foldl (fun st fk => repairFkStep schema tnCur fk st) st).sets p = some ps := by
  induction fks generalizing st with
  | nil => exact hps
  | cons fk rest ih => exact ih _ (repairFkStep_sets_const schema tnCur fk st p ps hps hne)

theorem fkFold_alias (schema : Schema) (tnCur : String) (fks : List FK) (st : FkPassState)
    (hOk : ∀ l, setsGet st.sets tnCur = some l → l ≠ []) :
    (fks.foldl (fun st fk => repairFkStep schema tnCur fk st) st).aliasLive
      = st.aliasLive := by
  induction fks generalizing st with
  | nil => rfl
  | cons fk rest ih =>
    rw [List.foldl_cons, ih _ (repairFkStep_setsOk schema tnCur fk st tnCur hOk)]
    exact repairFkStep_alias schema tnCur fk st hOk

theorem repairFkStep_goodData (schema : Schema) (tnCur : String) (fk : FK)
    (st : FkPassState) (tn : String) (td : TableDef) (pk : String)
    (H1 : schemaGet schema tn = some td) (H2 : inferSinglePK tn td = some pk)
    (H3 : ∀ l, td.primaryKey = some l → l.length ≤ 1)
    (hgood : GoodPk ((dataGet st.data tn).getD []) pk) :
    GoodPk ((dataGet (repairFkStep schema tnCur fk st).data tn).getD []) pk := by
  rcases repairFkStep_data schema tnCur fk st tn with h | ⟨hsets, pkc, rest, hbind, hnew⟩
  · rw [h]; exact hgood
  · rw [hnew]
    rw [H1] at hbind
    simp only [Option.bind] at hbind
    have hr : rest = [] := by
      have hlen := H3 _ hbind
      simp only [List.length_cons] at hlen
      exact List.length_eq_zero.mp (by omega)
    subst hr
    have hpk_eq : pkc = pk := by
      unfold inferSinglePK at H2
      rw [hbind] at H2
      simpa using H2
    subst hpk_eq
    simp only [Option.getD]
    exact goodPk_single _ _ (by rw [rowGet_singleton]; rfl)

theorem fkFold_goodData (schema : Schema) (tnCur : String) (fks : List FK)
    (st : FkPassState) (tn : String) (td : TableDef) (pk : String)
    (H1 : schemaGet schema tn = some td) (H2 : inferSinglePK tn td = some pk)
    (H3 : ∀ l, td.primaryKey = some l → l.length ≤ 1)
    (hgood : GoodPk ((dataGet st.data tn).getD []) pk) :
    GoodPk ((dataGet (fks.foldl (fun st fk => repairFkStep schema tnCur fk st) st).data
      tn).getD []) pk := by
  induction fks generalizing st with
  | nil => exact hgood
  | cons fk rest ih =>
    exact ih _ (repairFkStep_goodData schema tnCur fk st tn td pk H1 H2 H3 hgood)

theorem fkFold_good_pair (schema : Schema) (tn : String) (td : TableDef) (pk : String)
    (fks : List FK) (st : FkPassState)
    (H1 : schemaGet schema tn = some td) (H2 : inferSinglePK tn td = some pk)
    (H3 : ∀ l, td.primaryKey = some l → l.length ≤ 1)
    (hfks : ∀ fk ∈ fks, pk ∉ fk.columns)
    (hrows : GoodPk st.rows pk) (hdata : GoodPk ((dataGet st.data tn).getD []) pk) :
    GoodPk (fks.foldl (fun st fk => repairFkStep schema tn fk st) st).rows pk ∧
    GoodPk ((dataGet (fks.foldl (fun st fk => repairFkStep schema tn fk st) st).data
      tn).getD []) pk := by
  induction fks generalizing st with
  | nil => exact ⟨hrows, hdata⟩
  | cons fk rest ih =>
    refine ih _ (fun fk' h' => hfks fk' (List.mem_cons_of_mem _ h')) ?_ ?_
    · refine goodPk_of_colVals_eq (repairFkStep_rows_other schema tn fk st pk ?_) hrows
      intro c0 hc0 hc0pk
      have := hfks fk (List.mem_cons_self _ _)
      rw [hc0, hc0pk] at this
      exact this (List.mem_singleton_self _)
    · exact repairFkStep_goodData schema tn fk st tn td pk H1 H2 H3 hdata

theorem fkPassTable_goodData (schema : Schema) (tn' : String) (td' : TableDef)
    (dst : Data × List (String × List Value)) (tn : String) (td : TableDef) (pk : String)
    (H1 : schemaGet schema tn = some td) (H2 : inferSinglePK tn td = some pk)
    (H3 : ∀ l, td.primaryKey = some l → l.length ≤ 1)
    (htd' : tn' = tn → td' = td)
    (hfks : ∀ fk ∈ td.foreignKeys, pk ∉ fk.columns)
    (hgood : GoodPk ((dataGet dst.1 tn).getD []) pk) :
    GoodPk ((dataGet (fkPassTable schema tn' td' dst).1 tn).getD []) pk := by
  unfold fkPassTable
  by_cases hempty : ((dataGet dst.1 tn').getD []).isEmpty = true
  · rw [if_pos hempty]; exact hgood
  · rw [if_neg hempty]
    by_cases htn : tn' = tn
    · subst htn
      have htd := htd' rfl
      subst htd
      have hpair := fkFold_good_pair schema tn' td' pk td'.foreignKeys
        { rows := (dataGet dst.1 tn').getD [], data := dst.1, sets := dst.2,
          aliasLive := true } H1 H2 H3 hfks hgood hgood
      unfold fkWriteBack fkFoldTable
      unfold fkFoldTable at hpair
      by_cases halias : (td'.foreignKeys.foldl (fun st fk => repairFkStep schema tn' fk st)
          { rows := (dataGet dst.1 tn').getD [], data := dst.1, sets := dst.2,
            aliasLive := true }).aliasLive = true
      · rw [if_pos halias]
        show GoodPk ((dataGet (dataSet _ tn' _) tn').getD []) pk
        rw [dataGet_dataSet_self]
        exact hpair.1
      · rw [if_neg halias]
        exact hpair.2
    · unfold fkWriteBack fkFoldTable
      have hdata := fkFold_goodData schema tn' td'.foreignKeys
        { rows := (dataGet dst.1 tn').getD [], data := dst.1, sets := dst.2,
          aliasLive := true } tn td pk H1 H2 H3 hgood
      by_cases halias : (td'.foreignKeys.foldl (fun st fk => repairFkStep schema tn' fk st)
          { rows := (dataGet dst.1 tn').getD [], data := dst.1, sets := dst.2,
            aliasLive := true }).aliasLive = true
      · rw [if_pos halias]
        show GoodPk ((dataGet (dataSet _ tn' _) tn).getD []) pk
        rw [dataGet_dataSet_other _ _ _ _ (fun hh => htn hh.symm)]
        exact hdata
      · rw [if_neg halias]
        exact hdata

theorem fkPassFold_goodData (schema : Schema) (l : List (String × TableDef))
    (dst : Data × List (String × List Value)) (tn : String) (td : TableDef) (pk : String)
    (H1 : schemaGet schema tn = some td) (H2 : inferSinglePK tn td = some pk)
    (H3 : ∀ l', td.primaryKey = some l' → l'.length ≤ 1)
    (hl : ∀ p ∈ l, p.1 = tn → p.2 = td)
    (hfks : ∀ fk ∈ td.foreignKeys, pk ∉ fk.columns)
    (hgood : GoodPk ((dataGet dst.1 tn).getD []) pk) :
    GoodPk ((dataGet (l.foldl (fun dst p => fkPassTable schema p.1 p.2 dst) dst).1
      tn).getD []) pk := by
  induction l generalizing dst with
  | nil => exact hgood
  | cons p rest ih =>
    refine ih _ (fun q hq => hl q (List.mem_cons_of_mem _ hq)) ?_
    exact fkPassTable_goodData schema p.1 p.2 dst tn td pk H1 H2 H3
      (hl p (List.mem_cons_self _ _)) hfks hgood

theorem setsGet_append_none (a b : List (String × List Value)) (k : String)
    (h : setsGet a k = none) : setsGet (a ++ b) k = setsGet b k := by
  induction a with
  | nil => rfl
  | cons p rest ih =>
    by_cases hb : (p.1 == k) = true
    · simp only [setsGet, List.find?, hb] at h
      simp at h
    · have hb2 : (p.1 == k) = false := by
        revert hb; cases (p.1 == k) <;> simp
      simp only [setsGet, List.cons_append, List.find?, hb2] at h ⊢
      exact ih h

theorem setsGet_append_some (a : List (String × List Value)) (k : String) (s : List Value)
    (b : List (String × List Value)) (h : setsGet a k = some s) :
    setsGet (a ++ b) k = some s := by
  induction a with
  | nil => simp [setsGet] at h
  | cons p rest ih =>
    by_cases hb : (p.1 == k) = true
    · simp only [setsGet, List.find?, hb] at h
      simp only [setsGet, List.cons_append, List.find?, hb]
      exact h
    · have hb2 : (p.1 == k) = false := by
        revert hb; cases (p.1 == k) <;> simp
      simp only [setsGet, List.find?, hb2] at h
      simp only [setsGet, List.cons_append, List.find?, hb2]
      exact ih h

theorem setsGet_singleton_ne (t k : String) (s : List Value) (h : t ≠ k) :
    setsGet [(t, s)] k = none := by
  have hb2 : (t == k) = false := by simpa using h
  simp only [setsGet, List.find?, hb2]
  rfl

theorem setsGet_singleton_self (t : String) (s : List Value) :
    setsGet [(t, s)] t = some s := by
  have hb2 : (t == t) = true := by simp
  simp only [setsGet, List.find?, hb2]
  rfl

theorem buildSetsFold_none (d : Data) (l : List (String × TableDef)) (tn : String) :
    ∀ (acc : List (String × List Value)), (∀ p ∈ l, p.1 ≠ tn) → setsGet acc tn = none →
    setsGet (l.foldl (fun acc p =>
      match inferSinglePK p.1 p.2 with
      | none => acc
      | some pkCol => acc ++ [(p.1, pkValueSet pkCol ((dataGet d p.1).getD []))]) acc) tn
      = none := by
  induction l with
  | nil => intro acc _ h; exact h
  | cons p rest ih =>
    intro acc hne h
    rw [List.foldl_cons]
    refine ih _ (fun q hq => hne q (List.mem_cons_of_mem _ hq)) ?_
    rcases hpk : inferSinglePK p.1 p.2 with _ | pkc
    · simp only [hpk]
      exact h
    · simp only [hpk]
      rw [setsGet_append_none _ _ _ h]
      exact setsGet_singleton_ne p.1 tn _ (hne p (List.mem_cons_self _ _))

theorem buildSetsFold_some (d : Data) (l : List (String × TableDef)) (tn : String)
    (s : List Value) :
    ∀ (acc : List (String × List Value)), (∀ p ∈ l, p.1 ≠ tn) → setsGet acc tn = some s →
    setsGet (l.foldl (fun acc p =>
      match inferSinglePK p.1 p.2 with
      | none => acc
      | some pkCol => acc ++ [(p.1, pkValueSet pkCol ((dataGet d p.1).getD []))]) acc) tn
      = some s := by
  induction l with
  | nil => intro acc _ h; exact h
  | cons p rest ih =>
    intro acc hne h
    rw [List.foldl_cons]
    refine ih _ (fun q hq => hne q (List.mem_cons_of_mem _ hq)) ?_
    rcases hpk : inferSinglePK p.1 p.2 with _ | pkc
    · simp only [hpk]
      exact h
    · simp only [hpk]
      exact setsGet_append_some acc tn s _ h

theorem buildSetsFold_at (d : Data) (l : List (String × TableDef)) (tn : String)
    (td : TableDef) (pk : String) :
    ∀ (acc : List (String × List Value)), (l.map Prod.fst).Nodup → (tn, td) ∈ l →
    inferSinglePK tn td = some pk → setsGet acc tn = none →
    setsGet (l.foldl (fun acc p =>
      match inferSinglePK p.1 p.2 with
      | none => acc
      | some pkCol => acc ++ [(p.1, pkValueSet pkCol ((dataGet d p.1).getD []))]) acc) tn
      = some (pkValueSet pk ((dataGet d tn).getD [])) := by
  induction l with
  | nil => intro acc _ hmem _ _; cases hmem
  | cons p rest ih =>
    intro acc hnd hmem hpk hacc
    rw [List.foldl_cons]
    have hhd := (List.nodup_cons.mp hnd).1
    rcases List.mem_cons.mp hmem with heq | hmem'
    · cases heq
      have hrest : ∀ q ∈ rest, q.1 ≠ tn := by
        intro q hq hq1
        exact hhd (List.mem_map.mpr ⟨q, hq, hq1⟩)
      refine buildSetsFold_some d rest tn _ _ hrest ?_
      have hpk' : inferSinglePK ((tn, td) : String × TableDef).1 (tn, td).2 = some pk := hpk
      simp only [hpk']
      rw [setsGet_append_none _ _ _ hacc]
      exact setsGet_singleton_self tn _
    · have hp1 : p.1 ≠ tn := fun hh => hhd (hh ▸ List.mem_map.mpr ⟨(tn, td), hmem', rfl⟩)
      refine ih _ (List.Nodup.of_cons hnd) hmem' hpk ?_
      rcases hpk2 : inferSinglePK p.1 p.2 with _ | pkc
      · simp only [hpk2]
        exact hacc
      · simp only [hpk2]
        rw [setsGet_append_none _ _ _ hacc]
        exact setsGet_singleton_ne p.1 tn _ hp1

theorem buildParentPkSets_at (schema : Schema) (d : Data) (tn : String) (td : TableDef)
    (pk : String) (hnd : (schema.tables.map Prod.fst).Nodup)
    (hmem : (tn, td) ∈ schema.tables) (hpk : inferSinglePK tn td = some pk) :
    setsGet (buildParentPkSets schema d) tn
      = some (pkValueSet pk ((dataGet d tn).getD [])) := by
  unfold buildParentPkSets
  exact buildSetsFold_at d schema.tables tn td pk [] hnd hmem hpk rfl

theorem inferSinglePK_declared (tn : String) (td : TableDef) (pk : String)
    (h : td.primaryKey = some [pk]) : inferSinglePK tn td = some pk := by
  unfold inferSinglePK
  rw [h]

theorem synthEmptyTable_cases (tn : String) (td : TableDef) (d : Data) :
    synthEmptyTable tn td d = d ∨
    ∃ pk, synthEmptyTable tn td d = dataSet d tn [[(pk, Value.vNum 1)]] := by
  unfold synthEmptyTable
  rcases td.primaryKey with _ | l
  · exact Or.inl rfl
  · rcases l with _ | ⟨c, cs⟩
    · exact Or.inl rfl
    · rcases cs with _ | ⟨c2, cs2⟩
      · rcases dataGet d tn with _ | rows
        · exact Or.inr ⟨c, rfl⟩
        · rcases rows with _ | ⟨r, rs⟩
          · exact Or.inr ⟨c, rfl⟩
          · exact Or.inl rfl
      · exact Or.inl rfl

theorem synthEmptyTable_at (tn : String) (td : TableDef) (d : Data) (pk : String)
    (hdecl : td.primaryKey = some [pk])
    (hempty : dataGet d tn = none ∨ dataGet d tn = some []) :
    synthEmptyTable tn td d = dataSet d tn [[(pk, Value.vNum 1)]] := by
  unfold synthEmptyTable
  rw [hdecl]
  rcases hempty with h | h <;> rw [h]

theorem synthEmptyTable_other (tn tn' : String) (td : TableDef) (d : Data) (h : tn' ≠ tn) :
    dataGet (synthEmptyTable tn' td d) tn = dataGet d tn := by
  rcases synthEmptyTable_cases tn' td d with hc | ⟨pk, hc⟩
  · rw [hc]
  · rw [hc]
    exact dataGet_dataSet_other d tn' tn _ (Ne.symm h)

theorem synthFold_preserve (l : List (String × TableDef)) (d : Data) (tn : String)
    (h : ∀ p ∈ l, p.1 ≠ tn) :
    dataGet (l.foldl (fun d p => synthEmptyTable p.1 p.2 d) d) tn = dataGet d tn := by
  induction l generalizing d with
  | nil => rfl
  | cons p rest ih =>
    rw [List.foldl_cons, ih _ (fun q hq => h q (List.mem_cons_of_mem _ hq))]
    exact synthEmptyTable_other tn p.1 p.2 d (h p (List.mem_cons_self _ _))

theorem synthFold_at (l : List (String × TableDef)) (tn : String) (td : TableDef)
    (pk : String) :
    ∀ d : Data, (l.map Prod.fst).Nodup → (tn, td) ∈ l → td.primaryKey = some [pk] →
    (dataGet d tn = none ∨ dataGet d tn = some []) →
    dataGet (l.foldl (fun d p => synthEmptyTable p.1 p.2 d) d) tn
      = some [[(pk, Value.vNum 1)]] := by
  induction l with
  | nil => intro d _ hmem _ _; cases hmem
  | cons p rest ih =>
    intro d hnd hmem hdecl hempty
    rw [List.foldl_cons]
    have hhd := (List.nodup_cons.mp hnd).1
    rcases List.mem_cons.mp hmem with heq | hmem'
    · cases heq
      have hrest : ∀ q ∈ rest, q.1 ≠ tn := by
        intro q hq hq1
        exact hhd (List.mem_map.mpr ⟨q, hq, hq1⟩)
      rw [synthFold_preserve rest _ tn hrest]
      have hat : synthEmptyTable tn td d = dataSet d tn [[(pk, Value.vNum 1)]] :=
        synthEmptyTable_at tn td d pk hdecl hempty
      show dataGet (synthEmptyTable tn td d) tn = some [[(pk, Value.vNum 1)]]
      rw [hat]
      exact dataGet_dataSet_self d tn _
    · have hp1 : p.1 ≠ tn := fun hh => hhd (hh ▸ List.mem_map.mpr ⟨(tn, td), hmem', rfl⟩)
      refine ih _ (List.Nodup.of_cons hnd) hmem' hdecl ?_
      rcases hempty with h | h
      · exact Or.inl ((synthEmptyTable_other tn p.1 p.2 d hp1).trans h)
      · exact Or.inr ((synthEmptyTable_other tn p.1 p.2 d hp1).trans h)

theorem pkValueSet_single (pk : String) :
    pkValueSet pk [[(pk, Value.vNum 1)]] = [Value.vNum 1] := by
  simp [pkValueSet, rowGet_singleton, insertUnique]

theorem scanPkRows_single_one (pk : String) :
    scanPkRows pk [[(pk, Value.vNum 1)]] [] 0 = (false, 1) := by
  simp [scanPkRows, rowGet_singleton, isNullish, strTooLong, isNumVal]

theorem pkRows1_single_one (pk : String) :
    pkRows1 pk [[(pk, Value.vNum 1)]] = [[(pk, Value.vNum 1)]] := by
  unfold pkRows1
  rw [scanPkRows_single_one]
  rfl

theorem pkRepairRowsFn_single_one (pk : String) :
    pkRepairRowsFn pk [[(pk, Value.vNum 1)]] = [[(pk, Value.vNum 1)]] := by
  have hc : ([[(pk, Value.vNum 1)]].countP (fun row => isNullish (rowGet row pk))) = 0 := by
    refine countP_missing_zero pk _ ?_
    intro r hr
    have hr' : r = [(pk, Value.vNum 1)] := by simpa using hr
    rw [hr', rowGet_singleton]
    rfl
  unfold pkRepairRowsFn
  rw [pkRows1_single_one, hc]
  rfl

theorem repairPkTable_exact_at (tn : String) (td : TableDef) (d : Data) (pk : String)
    (hpk : inferSinglePK tn td = some pk)
    (hd : dataGet d tn = some [[(pk, Value.vNum 1)]]) :
    dataGet (repairPkTable tn td d) tn = some [[(pk, Value.vNum 1)]] := by
  have hrep : repairPkTable tn td d = dataSet d tn (pkRepairRowsFn pk [[(pk, Value.vNum 1)]]) := by
    unfold repairPkTable
    rw [hpk, hd]
  rw [hrep, pkRepairRowsFn_single_one]
  exact dataGet_dataSet_self d tn _

theorem pkFold_exact (l : List (String × TableDef)) (tn : String) (td : TableDef)
    (pk : String) :
    ∀ d : Data, (l.map Prod.fst).Nodup → (tn, td) ∈ l → inferSinglePK tn td = some pk →
    dataGet d tn = some [[(pk, Value.vNum 1)]] →
    dataGet (l.foldl (fun d p => repairPkTable p.1 p.2 d) d) tn
      = some [[(pk, Value.vNum 1)]] := by
  induction l with
  | nil => intro d _ hmem _ _; cases hmem
  | cons p rest ih =>
    intro d hnd hmem hpk hd
    rw [List.foldl_cons]
    have hhd := (List.nodup_cons.mp hnd).1
    rcases List.mem_cons.mp hmem with heq | hmem'
    · cases heq
      have hrest : ∀ q ∈ rest, q.1 ≠ tn := by
        intro q hq hq1
        exact hhd (List.mem_map.mpr ⟨q, hq, hq1⟩)
      rw [pkFold_preserve rest _ tn hrest]
      exact repairPkTable_exact_at tn td d pk hpk hd
    · have hp1 : p.1 ≠ tn := fun hh => hhd (hh ▸ List.mem_map.mpr ⟨(tn, td), hmem', rfl⟩)
      exact ih _ (List.Nodup.of_cons hnd) hmem' hpk
        ((repairPkTable_other tn p.1 p.2 d hp1).trans hd)

theorem repairFkStep_data_exact (schema : Schema) (tnCur : String) (fk : FK)
    (st : FkPassState) (tn : String)
    (hOk : ∀ l, setsGet st.sets tn = some l → l ≠ []) :
    dataGet (repairFkStep schema tnCur fk st).data tn = dataGet st.data tn := by
  rcases repairFkStep_data schema tnCur fk st tn with h | ⟨hsets, _, _, _, _⟩
  · exact h
  · exact absurd rfl (hOk [] hsets)

theorem fkFold_data_exact (schema : Schema) (tnCur : String) (fks : List FK) (tn : String) :
    ∀ st : FkPassState, (∀ l, setsGet st.sets tn = some l → l ≠ []) →
    dataGet (fks.foldl (fun st fk => repairFkStep schema tnCur fk st) st).data tn
      = dataGet st.data tn := by
  induction fks with
  | nil => intro st _; rfl
  | cons fk rest ih =>
    intro st hOk
    rw [List.foldl_cons, ih _ (repairFkStep_setsOk schema tnCur fk st tn hOk)]
    exact repairFkStep_data_exact schema tnCur fk st tn hOk

theorem fkFold_rows_exact (schema : Schema) (tnCur : String) (pk : String) (fks : List FK) :
    ∀ st : FkPassState, (∀ fk ∈ fks, pk ∉ fk.columns) →
    colVals (fks.foldl (fun st fk => repairFkStep schema tnCur fk st) st).rows pk
      = colVals st.rows pk := by
  induction fks with
  | nil => intro st _; rfl
  | cons fk rest ih =>
    intro st hfks
    rw [List.foldl_cons, ih _ (fun q hq => hfks q (List.mem_cons_of_mem _ hq))]
    refine repairFkStep_rows_other schema tnCur fk st pk ?_
    intro c0 hc0 hc0pk
    have := hfks fk (List.mem_cons_self _ _)
    rw [hc0, hc0pk] at this
    exact this (List.mem_singleton_self _)

theorem fkWriteBack_fst_self (tn : String) (st : FkPassState)
    (halias : st.aliasLive = true) :
    dataGet (fkWriteBack tn st).1 tn = some st.rows := by
  unfold fkWriteBack
  rw [halias, if_pos rfl]
  exact dataGet_dataSet_self st.data tn st.rows

theorem fkWriteBack_fst_other (tn tn' : String) (st : FkPassState) (h : tn' ≠ tn) :
    dataGet (fkWriteBack tn' st).1 tn = dataGet st.data tn := by
  unfold fkWriteBack
  by_cases ha : st.aliasLive = true
  · rw [ha, if_pos rfl]
    exact dataGet_dataSet_other st.data tn' tn st.rows (Ne.symm h)
  · have ha2 : st.aliasLive = false := by
      revert ha; cases st.aliasLive <;> simp
    rw [ha2, if_neg (by simp)]

theorem fkPassTable_setsOk (schema : Schema) (tn' : String) (td' : TableDef)
    (dst : Data × List (String × List Value)) (tn : String)
    (hOk : ∀ l, setsGet dst.2 tn = some l → l ≠ []) :
    ∀ l, setsGet (fkPassTable schema tn' td' dst).2 tn = some l → l ≠ [] := by
  unfold fkPassTable
  by_cases hempty : ((dataGet dst.1 tn').getD []).isEmpty = true
  · rw [if_pos hempty]; exact hOk
  · rw [if_neg hempty]
    unfold fkWriteBack fkFoldTable
    exact fkFold_setsOk schema tn' td'.foreignKeys
      { rows := (dataGet dst.1 tn').getD [], data := dst.1, sets := dst.2, aliasLive := true }
      tn hOk

theorem fkPassTable_exact (schema : Schema) (tn' : String) (td' : TableDef)
    (dst : Data × List (String × List Value)) (tn : String) (td : TableDef) (pk : String)
    (htd' : tn' = tn → td' = td)
    (hfks : ∀ fk ∈ td.foreignKeys, pk ∉ fk.columns)
    (hOk : ∀ l, setsGet dst.2 tn = some l → l ≠ []) :
    colVals ((dataGet (fkPassTable schema tn' td' dst).1 tn).getD []) pk
      = colVals ((dataGet dst.1 tn).getD []) pk := by
  unfold fkPassTable
  by_cases hempty : ((dataGet dst.1 tn').getD []).isEmpty = true
  · rw [if_pos hempty]
  · rw [if_neg hempty]
    by_cases htn : tn' = tn
    · have htd := htd' htn
      subst htn
      subst htd
      have halias : (fkFoldTable schema tn' td'
          { rows := (dataGet dst.1 tn').getD [], data := dst.1,
            sets := dst.2, aliasLive := true }).aliasLive = true := by
        unfold fkFoldTable
        exact fkFold_alias schema tn' td'.foreignKeys _ hOk
      rw [fkWriteBack_fst_self tn' _ halias]
      show colVals (fkFoldTable schema tn' td'
          { rows := (dataGet dst.1 tn').getD [], data := dst.1,
            sets := dst.2, aliasLive := true }).rows pk
        = colVals ((dataGet dst.1 tn').getD []) pk
      unfold fkFoldTable
      exact fkFold_rows_exact schema tn' pk td'.foreignKeys _ hfks
    · rw [fkWriteBack_fst_other tn tn' _ htn]
      show colVals ((dataGet (fkFoldTable schema tn' td'
          { rows := (dataGet dst.1 tn').getD [], data := dst.1,
            sets := dst.2, aliasLive := true }).data tn).getD []) pk
        = colVals ((dataGet dst.1 tn).getD []) pk
      unfold fkFoldTable
      rw [fkFold_data_exact schema tn' td'.foreignKeys tn
        { rows := (dataGet dst.1 tn').getD [], data := dst.1,
          sets := dst.2, aliasLive := true } hOk]

theorem fkPassFold_exact (schema : Schema) (l : List (String × TableDef)) (tn : String)
    (td : TableDef) (pk : String) :
    ∀ dst : Data × List (String × List Value),
    (∀ p ∈ l, p.1 = tn → p.2 = td) →
    (∀ fk ∈ td.foreignKeys, pk ∉ fk.columns) →
    (∀ l', setsGet dst.2 tn = some l' → l' ≠ []) →
    colVals ((dataGet (l.foldl (fun dst p => fkPassTable schema p.1 p.2 dst) dst).1
      tn).getD []) pk = colVals ((dataGet dst.1 tn).getD []) pk := by
  induction l with
  | nil => intro dst _ _ _; rfl
  | cons p rest ih =>
    intro dst hl hfks hOk
    rw [List.foldl_cons]
    rw [ih _ (fun q hq => hl q (List.mem_cons_of_mem _ hq)) hfks
      (fkPassTable_setsOk schema p.1 p.2 dst tn hOk)]
    exact fkPassTable_exact schema p.1 p.2 dst tn td pk (hl p (List.mem_cons_self _ _))
      hfks hOk

theorem repairFkStep_nonempty (schema : Schema) (tnCur : String) (fk : FK)
    (st : FkPassState) (c pt : String) (pset : List Value)
    (hc : fk.columns = [c]) (hrt : fk.referenceTable = some pt)
    (hrc : fk.referenceColumns.length = 1)
    (hset : setsGet st.sets pt = some pset) (hne : pset ≠ []) :
    repairFkStep schema tnCur fk st
      = { st with rows := fkRepairRows c pset pset 0 st.rows } := by
  have hlen : (fk.columns.length != 1 || fk.referenceColumns.length != 1) = false := by
    rw [hc, hrc]
    rfl
  have hemp : ¬(pset.isEmpty = true) := by
    intro hh
    exact hne (List.isEmpty_iff.mp hh)
  unfold repairFkStep
  simp only [hrt]
  rw [if_neg (by rw [hlen]; exact Bool.false_ne_true)]
  simp only [hset]
  rw [if_neg hemp]
  simp only [hc]
  rfl

theorem fkFold_rows_exact_col (schema : Schema) (tnCur c : String) (fks : List FK) :
    ∀ st : FkPassState, (∀ fk' ∈ fks, ∀ c0, fk'.columns = [c0] → c0 ≠ c) →
    colVals (fks.foldl (fun st fk => repairFkStep schema tnCur fk st) st).rows c
      = colVals st.rows c := by
  induction fks with
  | nil => intro st _; rfl
  | cons fk rest ih =>
    intro st hfks
    rw [List.foldl_cons, ih _ (fun q hq => hfks q (List.mem_cons_of_mem _ hq))]
    exact repairFkStep_rows_other schema tnCur fk st c (hfks fk (List.mem_cons_self _ _))

theorem fkPassTable_data_other (schema : Schema) (tn' : String) (td' : TableDef)
    (dst : Data × List (String × List Value)) (tn : String) (htn : tn' ≠ tn)
    (hOk : ∀ l, setsGet dst.2 tn = some l → l ≠ []) :
    dataGet (fkPassTable schema tn' td' dst).1 tn = dataGet dst.1 tn := by
  unfold fkPassTable
  by_cases hempty : ((dataGet dst.1 tn').getD []).isEmpty = true
  · rw [if_pos hempty]
  · rw [if_neg hempty]
    rw [fkWriteBack_fst_other tn tn' _ htn]
    show dataGet (fkFoldTable schema tn' td'
        { rows := (dataGet dst.1 tn').getD [], data := dst.1,
          sets := dst.2, aliasLive := true }).data tn = dataGet dst.1 tn
    unfold fkFoldTable
    rw [fkFold_data_exact schema tn' td'.foreignKeys tn
      { rows := (dataGet dst.1 tn').getD [], data := dst.1,
        sets := dst.2, aliasLive := true } hOk]

theorem fkPassFold_data_exact (schema : Schema) (l : List (String × TableDef)) (tn : String) :
    ∀ dst : Data × List (String × List Value), (∀ p ∈ l, p.1 ≠ tn) →
    (∀ l', setsGet dst.2 tn = some l' → l' ≠ []) →
    dataGet (l.foldl (fun dst p => fkPassTable schema p.1 p.2 dst) dst).1 tn
      = dataGet dst.1 tn := by
  induction l with
  | nil => intro dst _ _; rfl
  | cons p rest ih =>
    intro dst hkeys hOk
    rw [List.foldl_cons, ih _ (fun q hq => hkeys q (List.mem_cons_of_mem _ hq))
      (fkPassTable_setsOk schema p.1 p.2 dst tn hOk)]
    exact fkPassTable_data_other schema p.1 p.2 dst tn (hkeys p (List.mem_cons_self _ _)) hOk

theorem fkPassFold_setsOk (schema : Schema) (l : List (String × TableDef)) (tn : String) :
    ∀ dst : Data × List (String × List Value),
    (∀ l', setsGet dst.2 tn = some l' → l' ≠ []) →
    ∀ l', setsGet (l.foldl (fun dst p => fkPassTable schema p.1 p.2 dst) dst).2 tn
      = some l' → l' ≠ [] := by
  induction l with
  | nil => intro dst hOk; exact hOk
  | cons p rest ih =>
    intro dst hOk
    exact ih _ (fkPassTable_setsOk schema p.1 p.2 dst tn hOk)

theorem fkPassTable_sets_const (schema : Schema) (tn' : String) (td' : TableDef)
    (dst : Data × List (String × List Value)) (p : String) (ps : List Value)
    (hps : setsGet dst.2 p = some ps) (hne : ps ≠ []) :
    setsGet (fkPassTable schema tn' td' dst).2 p = some ps := by
  unfold fkPassTable
  by_cases hempty : ((dataGet dst.1 tn').getD []).isEmpty = true
  · rw [if_pos hempty]; exact hps
  · rw [if_neg hempty]
    unfold fkWriteBack fkFoldTable
    exact fkFold_sets_const schema tn' td'.foreignKeys
      { rows := (dataGet dst.1 tn').getD [], data := dst.1,
        sets := dst.2, aliasLive := true } p ps hps hne

theorem fkPassFold_sets_const (schema : Schema) (l : List (String × TableDef))
    (p : String) (ps : List Value) (hne : ps ≠ []) :
    ∀ dst : Data × List (String × List Value), setsGet dst.2 p = some ps →
    setsGet (l.foldl (fun dst q => fkPassTable schema q.1 q.2 dst) dst).2 p = some ps := by
  induction l with
  | nil => intro dst h; exact h
  | cons q rest ih =>
    intro dst h
    exact ih _ (fkPassTable_sets_const schema q.1 q.2 dst p ps h hne)

theorem fkPassTable_covered (schema : Schema) (ct : String) (cd : TableDef)
    (dst : Data × List (String × List Value)) (preF postF : List FK) (fk : FK)
    (c pt : String) (pset0 : List Value)
    (hsplitF : cd.foreignKeys = preF ++ fk :: postF)
    (hc : fk.columns = [c]) (hrt : fk.referenceTable = some pt)
    (hrc : fk.referenceColumns.length = 1)
    (hpostF : ∀ fk' ∈ postF, ∀ c0, fk'.columns = [c0] → c0 ≠ c)
    (hOkCt : ∀ l', setsGet dst.2 ct = some l' → l' ≠ [])
    (hpt : setsGet dst.2 pt = some pset0) (hpne : pset0 ≠ [])
    (hne : (dataGet dst.1 ct).getD [] ≠ []) :
    CoveredBy ((dataGet (fkPassTable schema ct cd dst).1 ct).getD []) c pset0 := by
  unfold fkPassTable
  rw [if_neg (fun hh => hne (List.isEmpty_iff.mp hh))]
  have halias : (fkFoldTable schema ct cd
      { rows := (dataGet dst.1 ct).getD [], data := dst.1,
        sets := dst.2, aliasLive := true }).aliasLive = true := by
    unfold fkFoldTable
    exact fkFold_alias schema ct cd.foreignKeys _ hOkCt
  rw [fkWriteBack_fst_self ct _ halias]
  show CoveredBy (fkFoldTable schema ct cd
      { rows := (dataGet dst.1 ct).getD [], data := dst.1,
        sets := dst.2, aliasLive := true }).rows c pset0
  unfold fkFoldTable
  rw [hsplitF, List.foldl_append, List.foldl_cons]
  have hsetsA : setsGet (preF.foldl (fun st fk => repairFkStep schema ct fk st)
      { rows := (dataGet dst.1 ct).getD [], data := dst.1,
        sets := dst.2, aliasLive := true }).sets pt = some pset0 :=
    fkFold_sets_const schema ct preF _ pt pset0 hpt hpne
  have hstep := repairFkStep_nonempty schema ct fk
    (preF.foldl (fun st fk => repairFkStep schema ct fk st)
      { rows := (dataGet dst.1 ct).getD [], data := dst.1,
        sets := dst.2, aliasLive := true }) c pt pset0 hc hrt hrc hsetsA hpne
  have hcovStep : CoveredBy (repairFkStep schema ct fk
      (preF.foldl (fun st fk => repairFkStep schema ct fk st)
        { rows := (dataGet dst.1 ct).getD [], data := dst.1,
          sets := dst.2, aliasLive := true })).rows c pset0 := by
    rw [hstep]
    show CoveredBy (fkRepairRows c pset0 pset0 0
        (preF.foldl (fun st fk => repairFkStep schema ct fk st)
          { rows := (dataGet dst.1 ct).getD [], data := dst.1,
            sets := dst.2, aliasLive := true }).rows) c pset0
    exact fkRepairRows_covered c pset0 pset0 pset0 hpne (fun v hv => hv)
      (fun w hw => List.mem_of_elem_eq_true hw) 0 _
  refine coveredBy_of_colVals_eq ?_ hcovStep
  exact fkFold_rows_exact_col schema ct c postF _ hpostF

theorem foldl_fst_invariant {α β γ : Type} (f : α × γ → β → α × γ)
    (hf : ∀ acc b, (f acc b).1 = acc.1) :
    ∀ (l : List β) (acc : α × γ), (l.foldl f acc).1 = acc.1 := by
  intro l
  induction l with
  | nil => intro acc; rfl
  | cons b rest ih =>
    intro acc
    rw [List.foldl_cons, ih, hf]

theorem checkPkLoop_rows (t : String) (pk : List String) :
    ∀ (rows : List Row) (seen : List String) (idx : Nat),
    (checkPkLoop t pk rows seen idx).1 = rows := by
  intro rows
  induction rows with
  | nil => intro seen idx; rfl
  | cons r rs ih =>
    intro seen idx
    simp only [checkPkLoop]
    by_cases h : ((pk.map (fun c => rowGet r c)).any (fun v => isNullish v)) = true
    · rw [if_pos h]
      show r :: (checkPkLoop t pk rs seen (idx + 1)).1 = r :: rs
      rw [ih]
    · rw [if_neg h]
      show r :: (checkPkLoop t pk rs _ (idx + 1)).1 = r :: rs
      rw [ih]

theorem checkNotNullRows_rows (t c : String) :
    ∀ (rows : List Row) (idx : Nat), (checkNotNullRows t c rows idx).1 = rows := by
  intro rows
  induction rows with
  | nil => intro idx; rfl
  | cons r rs ih =>
    intro idx
    simp only [checkNotNullRows]
    show r :: (checkNotNullRows t c rs (idx + 1)).1 = r :: rs
    rw [ih]

theorem checkFkColRows_rows (t c pt pcs : String) (index : List Value) :
    ∀ rows : List Row, (checkFkColRows t c pt pcs index rows).1 = rows := by
  intro rows
  induction rows with
  | nil => rfl
  | cons r rs ih =>
    rcases hw : rowGet r c with _ | w
    · simp only [checkFkColRows, hw]
      show r :: (checkFkColRows t c pt pcs index rs).1 = r :: rs
      rw [ih]
    · rcases w with _ | q | s | b | dd <;>
        (simp only [checkFkColRows, hw]
         show r :: (checkFkColRows t c pt pcs index rs).1 = r :: rs
         rw [ih])

theorem checkNotNullCols_rows (t : String) (cols : List (String × ColumnDef))
    (rows : List Row) : (checkNotNullCols t cols rows).1 = rows := by
  unfold checkNotNullCols
  refine foldl_fst_invariant _ ?_ cols _
  intro acc c
  by_cases hc : (c.2.nullable == some false) = true
  · simp [hc, checkNotNullRows_rows]
  · simp [hc]

theorem checkFks_rows (d : Data) (t : String) (fks : List FK) (rows : List Row) :
    (checkFks d t fks rows).1 = rows := by
  unfold checkFks
  refine foldl_fst_invariant _ ?_ fks _
  intro acc fk
  refine foldl_fst_invariant _ ?_ fk.columns.enum acc
  intro acc2 ic
  show (checkFkColRows t ic.2 _ _ _ acc2.1).1 = acc2.1
  exact checkFkColRows_rows _ _ _ _ _ _

theorem validateTable_rows (d : Data) (t : String) (td : TableDef) :
    (validateTable d t td).1 = (dataGet d t).getD [] := by
  simp only [validateTable]
  rcases htd : td.primaryKey with _ | l
  · simp only [htd]
    rw [checkFks_rows, checkNotNullCols_rows]
  · rcases l with _ | ⟨c, cs⟩
    · simp only [htd]
      rw [checkFks_rows, checkNotNullCols_rows]
    · simp only [htd]
      rw [checkFks_rows, checkNotNullCols_rows, checkPkLoop_rows]

theorem validateData_fst (schema : Schema) (d : Data) :
    (validateDeterministicData schema d).1 = d := by
  unfold validateDeterministicData
  refine foldl_fst_invariant _ ?_ schema.tables _
  intro acc p
  rcases hd : dataGet acc.1 p.1 with _ | rows
  · simp only [hd]
  · simp only [hd]
    rw [validateTable_rows, hd]
    exact dataSet_self acc.1 p.1 rows hd

theorem keyed_mem_unique (l : List (String × TableDef)) (hnd : (l.map Prod.fst).Nodup)
    (tn : String) (td : TableDef) (hmem : (tn, td) ∈ l) :
    ∀ p ∈ l, p.1 = tn → p.2 = td := by
  induction l with
  | nil => cases hmem
  | cons q rest ih =>
    intro p hp hptn
    have hhd := (List.nodup_cons.mp hnd).1
    rcases List.mem_cons.mp hp with hpq | hp'
    · rcases List.mem_cons.mp hmem with heq | hmem'
      · rw [hpq, ← heq]
      · exfalso
        apply hhd
        have : q.1 = tn := by rw [← hpq, hptn]
        rw [this]
        exact List.mem_map.mpr ⟨(tn, td), hmem', rfl⟩
    · rcases List.mem_cons.mp hmem with heq | hmem'
      · exfalso
        apply hhd
        have hq1 : q.1 = tn := by rw [← heq]
        rw [hq1, ← hptn]
        exact List.mem_map.mpr ⟨p, hp', rfl⟩
      · exact ih (List.Nodup.of_cons hnd) hmem' p hp' hptn

theorem schemaGet_of_mem (schema : Schema) (tn : String) (td : TableDef)
    (hnd : (schema.tables.map Prod.fst).Nodup) (hmem : (tn, td) ∈ schema.tables) :
    schemaGet schema tn = some td := by
  unfold schemaGet
  have huniq := keyed_mem_unique schema.tables hnd tn td hmem
  rcases hfind : schema.tables.find? (fun p => p.1 == tn) with _ | p
  · exfalso
    have := List.find?_eq_none.mp hfind (tn, td) hmem
    simp at this
  · have hpmem := List.mem_of_find?_eq_some hfind
    have hpeq : p.1 = tn := by
      have := List.find?_some hfind
      simpa using this
    rw [hfind]
    show some p.2 = some td
    rw [huniq p hpmem hpeq]

theorem assocGet_assocSet_self {α : Type} (m : List (String × α)) (k : String) (v : α) :
    assocGet (assocSet m k v) k = some v := by
  induction m with
  | nil => simp [assocGet, assocSet, List.find?]
  | cons p rest ih =>
    rcases p with ⟨k', v'⟩
    by_cases h : (k' == k) = true
    · simp only [assocSet]
      rw [if_pos h]
      simp [assocGet, List.find?]
    · simp only [assocSet]
      rw [if_neg h]
      have h2 : (k' == k) = false := by
        revert h; cases (k' == k) <;> simp
      simp only [assocGet, List.find?, h2]
      exact ih

theorem assocGet_assocSet_other {α : Type} (m : List (String × α)) (k k' : String) (v : α)
    (h : k' ≠ k) : assocGet (assocSet m k v) k' = assocGet m k' := by
  have hkk : (k == k') = false := by simpa using (Ne.symm h)
  induction m with
  | nil => simp [assocGet, assocSet, List.find?, hkk]
  | cons p rest ih =>
    rcases p with ⟨k0, v0⟩
    by_cases h0 : (k0 == k) = true
    · simp only [assocSet]
      rw [if_pos h0]
      have hk0 : k0 = k := by simpa using h0
      subst hk0
      simp [assocGet, List.find?, hkk]
    · simp only [assocSet]
      rw [if_neg h0]
      by_cases h1 : (k0 == k') = true
      · simp only [assocGet, List.find?, h1]
      · have h1' : (k0 == k') = false := by
          revert h1; cases (k0 == k') <;> simp
        simp only [assocGet, List.find?, h1']
        exact ih

theorem assocSet_append_of_not_mem {α : Type} (m : List (String × α)) (k : String) (v : α)
    (h : k ∉ m.map Prod.fst) : assocSet m k v = m ++ [(k, v)] := by
  induction m with
  | nil => rfl
  | cons p rest ih =>
    rcases p with ⟨k0, v0⟩
    have hk0 : (k0 == k) = false := by
      have : k0 ≠ k := by
        intro hh
        exact h (by rw [← hh]; exact List.mem_cons_self _ _)
      simpa using this
    simp only [assocSet]
    rw [if_neg (by rw [hk0]; exact Bool.false_ne_true)]
    rw [ih (fun hh => h (List.mem_cons_of_mem _ hh))]
    rfl

theorem assocGet_none_of_not_mem {α : Type} (m : List (String × α)) (k : String)
    (h : k ∉ m.map Prod.fst) : assocGet m k = none := by
  unfold assocGet
  rcases hfind : m.find? (fun p => p.1 == k) with _ | p
  · rw [hfind]
    rfl
  · exfalso
    have hp := List.mem_of_find?_eq_some hfind
    have hpk : p.1 = k := by
      have := List.find?_some hfind
      simpa using this
    exact h (hpk ▸ List.mem_map.mpr ⟨p, hp, rfl⟩)

theorem assocGet_some_of_mem_keys {α : Type} (m : List (String × α)) (k : String)
    (h : k ∈ m.map Prod.fst) : ∃ v, assocGet m k = some v := by
  induction m with
  | nil => simp at h
  | cons p rest ih =>
    by_cases hp : (p.1 == k) = true
    · refine ⟨p.2, ?_⟩
      simp only [assocGet, List.find?, hp]
      rfl
    · have hp' : (p.1 == k) = false := by
        revert hp; cases (p.1 == k) <;> simp
      simp only [assocGet, List.find?, hp']
      refine ih ?_
      rw [List.map_cons] at h
      rcases List.mem_cons.mp h with h1 | h1
      · exfalso
        rw [h1] at hp'
        simp at hp'
      · exact h1

theorem assocSet_keys_of_mem {α : Type} (m : List (String × α)) (k : String) (v : α)
    (h : k ∈ m.map Prod.fst) : (assocSet m k v).map Prod.fst = m.map Prod.fst := by
  induction m with
  | nil => simp at h
  | cons p rest ih =>
    rcases p with ⟨k0, v0⟩
    by_cases h0 : (k0 == k) = true
    · simp only [assocSet]
      rw [if_pos h0]
      have : k0 = k := by simpa using h0
      rw [this]
      rfl
    · simp only [assocSet]
      rw [if_neg h0]
      have hk : k ∈ rest.map Prod.fst := by
        rw [List.map_cons] at h
        rcases List.mem_cons.mp h with h1 | h1
        · exfalso
          rw [h1] at h0
          simp at h0
        · exact h1
      show k0 :: (assocSet rest k v).map Prod.fst = k0 :: rest.map Prod.fst
      rw [ih hk]

theorem assoc_split {α : Type} (m : List (String × α)) (k : String) (v : α)
    (h : assocGet m k = some v) :
    ∃ l1 l2, m = l1 ++ (k, v) :: l2 ∧ (∀ e ∈ l1, e.1 ≠ k) := by
  induction m with
  | nil => simp [assocGet, List.find?] at h
  | cons p rest ih =>
    by_cases hp : (p.1 == k) = true
    · have hk : p.1 = k := by simpa using hp
      simp only [assocGet, List.find?, hp] at h
      have hv : p.2 = v := by
        simpa using h
      refine ⟨[], rest, ?_, by simp⟩
      rw [← hk, ← hv]
      rfl
    · have hp' : (p.1 == k) = false := by
        revert hp; cases (p.1 == k) <;> simp
      simp only [assocGet, List.find?, hp'] at h
      obtain ⟨l1, l2, heq, hne⟩ := ih h
      refine ⟨p :: l1, l2, by rw [heq]; rfl, ?_⟩
      intro e he
      rcases List.mem_cons.mp he with h1 | h1
      · rw [h1]
        intro hh
        rw [hh] at hp'
        simp at hp'
      · exact hne e h1

theorem assocSet_split {α : Type} (l1 l2 : List (String × α)) (k : String) (v v' : α)
    (h : ∀ e ∈ l1, e.1 ≠ k) :
    assocSet (l1 ++ (k, v) :: l2) k v' = l1 ++ (k, v') :: l2 := by
  induction l1 with
  | nil =>
    show assocSet ((k, v) :: l2) k v' = (k, v') :: l2
    simp only [assocSet]
    rw [if_pos (by simp)]
  | cons e rest ih =>
    have he : (e.1 == k) = false := by
      simpa using h e (List.mem_cons_self _ _)
    rcases e with ⟨k0, v0⟩
    show assocSet ((k0, v0) :: (rest ++ (k, v) :: l2)) k v' = (k0, v0) :: (rest ++ (k, v') :: l2)
    simp only [assocSet]
    rw [if_neg (by rw [he]; exact Bool.false_ne_true)]
    rw [ih (fun e2 h2 => h e2 (List.mem_cons_of_mem _ h2))]

theorem contains_false_of_not_mem {x : String} {l : List String} (h : x ∉ l) :
    l.contains x = false := by
  cases hb : l.contains x
  · rfl
  · exact absurd (List.mem_of_elem_eq_true hb) h

theorem not_mem_of_contains_false {x : String} {l : List String} (h : l.contains x = false) :
    x ∉ l := by
  intro hm
  have h' : List.elem x l = false := h
  rw [List.elem_eq_true_of_mem hm] at h'
  cases h' 

theorem kahnInit_aux (tables : List String) :
    ∀ (acc1 : List (String × Int)) (acc2 : List (String × List String)),
    tables.Nodup → (∀ t ∈ tables, t ∉ acc1.map Prod.fst) →
    (∀ t ∈ tables, t ∉ acc2.map Prod.fst) →
    tables.foldl (fun dg t => (assocSet dg.1 t 0, assocSet dg.2 t [])) (acc1, acc2)
      = (acc1 ++ tables.map (fun t => (t, (0 : Int))),
         acc2 ++ tables.map (fun t => (t, ([] : List String)))) := by
  induction tables with
  | nil => intro acc1 acc2 _ _ _; simp
  | cons t rest ih =>
    intro acc1 acc2 hnd h1 h2
    rw [List.foldl_cons]
    have hstep : (assocSet ((acc1, acc2) : List (String × Int) × List (String × List String)).1 t 0,
        assocSet (acc1, acc2).2 t [])
        = (acc1 ++ [(t, (0 : Int))], acc2 ++ [(t, ([] : List String))]) := by
      show (assocSet acc1 t 0, assocSet acc2 t []) = _
      rw [assocSet_append_of_not_mem _ _ _ (h1 t (List.mem_cons_self _ _)),
          assocSet_append_of_not_mem _ _ _ (h2 t (List.mem_cons_self _ _))]
    rw [hstep]
    have hhd := (List.nodup_cons.mp hnd).1
    rw [ih _ _ (List.Nodup.of_cons hnd) ?_ ?_]
    · simp
    · intro s hs
      rw [List.map_append]
      intro hmem
      rcases List.mem_append.mp hmem with hm | hm
      · exact h1 s (List.mem_cons_of_mem _ hs) hm
      · have : s = t := by simpa using hm
        exact hhd (this ▸ hs)
    · intro s hs
      rw [List.map_append]
      intro hmem
      rcases List.mem_append.mp hmem with hm | hm
      · exact h2 s (List.mem_cons_of_mem _ hs) hm
      · have : s = t := by simpa using hm
        exact hhd (this ▸ hs)

theorem kahnInit_eq (tables : List String) (hnd : tables.Nodup) :
    kahnInit tables = (tables.map (fun t => (t, (0 : Int))),
                       tables.map (fun t => (t, ([] : List String)))) := by
  unfold kahnInit
  rw [kahnInit_aux tables [] [] hnd (by simp) (by simp)]
  simp

theorem assocGet_map_const {α : Type} (tables : List String) (x0 : α) (c : String) :
    (assocGet (tables.map (fun t => (t, x0))) c).getD x0 = x0 := by
  induction tables with
  | nil => rfl
  | cons t rest ih =>
    by_cases h : (t == c) = true
    · simp [assocGet, List.find?, h]
    · have h' : (t == c) = false := by revert h; cases (t == c) <;> simp
      simp only [List.map_cons, assocGet, List.find?, h']
      exact ih

theorem map_fst_pair {α : Type} (f : String → α) :
    ∀ l : List String, (l.map (fun t => (t, f t))).map Prod.fst = l := by
  intro l
  induction l with
  | nil => rfl
  | cons t r ih =>
    simp only [List.map_cons]
    rw [ih]

theorem degOk_init (tables : List String) (hnd : tables.Nodup) :
    DegOk tables (kahnInit tables) := by
  rw [kahnInit_eq tables hnd]
  refine ⟨map_fst_pair (fun _ => (0 : Int)) tables, map_fst_pair (fun _ => ([] : List String)) tables, ?_, ?_⟩
  · intro c
    have hcnt : parentCount (tables.map (fun t => (t, ([] : List String)))) c = 0 := by
      unfold parentCount
      rw [List.countP_eq_zero]
      intro e he
      obtain ⟨t, _, hte⟩ := List.mem_map.mp he
      rw [← hte]
      exact fun hh => Bool.false_ne_true hh
    rw [hcnt]
    have hmc := assocGet_map_const tables (0 : Int) c
    rw [hmc]
    rfl
  · intro p ps hmem
    obtain ⟨t, _, hte⟩ := List.mem_map.mp hmem
    have hps : ps = [] := by
      have := congrArg Prod.snd hte
      simpa using this
    rw [hps]
    exact ⟨List.nodup_nil, by simp, by simp⟩

theorem contains_append_single (l : List String) (t c : String) (hne : c ≠ t) :
    (l ++ [t]).contains c = l.contains c := by
  by_cases h : c ∈ l
  · show List.elem c (l ++ [t]) = List.elem c l
    rw [List.elem_eq_true_of_mem h, List.elem_eq_true_of_mem (List.mem_append_left _ h)]
  · have h2 : c ∉ l ++ [t] := by
      intro hm
      rcases List.mem_append.mp hm with h1 | h1
      · exact h h1
      · exact hne (List.mem_singleton.mp h1)
    rw [contains_false_of_not_mem h, contains_false_of_not_mem h2]

theorem degOk_add (tables : List String) (dg : List (String × Int) × List (String × List String))
    (hInv : DegOk tables dg) (t parent : String) (ht : t ∈ tables) (hne : parent ≠ t)
    (children : List String) (hch : assocGet dg.2 parent = some children)
    (hnotin : children.contains t = false) :
    DegOk tables (assocSet dg.1 t ((assocGet dg.1 t).getD 0 + 1),
                  assocSet dg.2 parent (children ++ [t])) := by
  obtain ⟨hk1, hk2, hdeg, hch2⟩ := hInv
  obtain ⟨l1, l2, hsplit, hne1⟩ := assoc_split dg.2 parent children hch
  have hset2 : assocSet dg.2 parent (children ++ [t]) = l1 ++ (parent, children ++ [t]) :: l2 := by
    rw [hsplit]
    exact assocSet_split l1 l2 parent children (children ++ [t]) hne1
  have hpmem : (parent, children) ∈ dg.2 := by
    rw [hsplit]
    exact List.mem_append_right _ (List.mem_cons_self _ _)
  obtain ⟨hcnd, hcsub, hpns⟩ := hch2 parent children hpmem
  have htnotmem : t ∉ children := not_mem_of_contains_false hnotin
  refine ⟨?_, ?_, ?_, ?_⟩
  · rw [assocSet_keys_of_mem _ _ _ (by rw [hk1]; exact ht)]
    exact hk1
  · rw [hset2]
    rw [hsplit] at hk2
    simp only [List.map_append, List.map_cons] at hk2 ⊢
    exact hk2
  · intro c
    by_cases hc : c = t
    · subst hc
      rw [assocGet_assocSet_self]
      have hcount : parentCount (assocSet dg.2 parent (children ++ [c])) c
          = parentCount dg.2 c + 1 := by
        rw [hset2, hsplit]
        unfold parentCount
        rw [List.countP_append, List.countP_append, List.countP_cons, List.countP_cons]
        have hnew : ((children ++ [c]).contains c) = true :=
          List.elem_eq_true_of_mem (List.mem_append_right _ (List.mem_singleton_self _))
        simp [hnew, hnotin, htnotmem]
        omega
      show (assocGet dg.1 c).getD 0 + 1 = _
      rw [hdeg c, hcount]
      push_cast
      omega
    · rw [assocGet_assocSet_other _ _ _ _ hc]
      rw [hdeg c]
      have hcount : parentCount (assocSet dg.2 parent (children ++ [t])) c
          = parentCount dg.2 c := by
        rw [hset2, hsplit]
        unfold parentCount
        rw [List.countP_append, List.countP_append, List.countP_cons, List.countP_cons]
        simp [hc]
      rw [hcount]
  · intro p ps hpmem2
    rw [hset2] at hpmem2
    rcases List.mem_append.mp hpmem2 with h1 | h1
    · exact hch2 p ps (by rw [hsplit]; exact List.mem_append_left _ h1)
    · rcases List.mem_cons.mp h1 with h2 | h2
      · injection h2 with hp hps
        subst hp
        subst hps
        refine ⟨?_, ?_, ?_⟩
        · refine List.Nodup.append hcnd (List.nodup_singleton t) ?_
          intro a ha hat
          rw [List.mem_singleton.mp hat] at ha
          exact htnotmem ha
        · intro c hcc
          rcases List.mem_append.mp hcc with h3 | h3
          · exact hcsub c h3
          · rw [List.mem_singleton.mp h3]
            exact ht
        · intro hpp
          rcases List.mem_append.mp hpp with h3 | h3
          · exact hpns h3
          · exact hne (List.mem_singleton.mp h3)
      · exact hch2 p ps (by rw [hsplit]; exact List.mem_append_right _ (List.mem_cons_of_mem _ h2))

theorem kahnAddEdges_eq (schema : Schema) (tables : List String)
    (dg : List (String × Int) × List (String × List String)) :
    kahnAddEdges schema tables dg = tables.foldl (fun dg t =>
      (((schemaGet schema t).map (fun td => td.foreignKeys)).getD []).foldl
        (fun dg fk => kahnEdgeStep t dg fk) dg) dg := rfl

theorem kahnEdgeStep_degOk (tables : List String) (t : String) (ht : t ∈ tables) (fk : FK)
    (dg : List (String × Int) × List (String × List String)) (h : DegOk tables dg) :
    DegOk tables (kahnEdgeStep t dg fk) := by
  rcases hrt : fk.referenceTable with _ | parent
  · simp only [kahnEdgeStep, hrt]
    exact h
  · simp only [kahnEdgeStep, hrt]
    by_cases hpt : (parent != t) = true
    · rw [if_pos hpt]
      rcases hget : assocGet dg.2 parent with _ | children
      · simp only [hget]
        exact h
      · simp only [hget]
        by_cases hct : (children.contains t) = true
        · rw [if_pos hct]
          exact h
        · rw [if_neg hct]
          have hct' : children.contains t = false := by
            revert hct; cases (children.contains t) <;> simp
          have hne : parent ≠ t := by
            intro hh
            rw [hh] at hpt
            simp at hpt
          exact degOk_add tables dg h t parent ht hne children hget hct'
    · rw [if_neg hpt]
      exact h

theorem kahnEdgeFold_degOk (tables : List String) (t : String) (ht : t ∈ tables)
    (fks : List FK) :
    ∀ dg, DegOk tables dg →
    DegOk tables (fks.foldl (fun dg fk => kahnEdgeStep t dg fk) dg) := by
  induction fks with
  | nil => intro dg h; exact h
  | cons fk rest ih =>
    intro dg h
    rw [List.foldl_cons]
    exact ih _ (kahnEdgeStep_degOk tables t ht fk dg h)

theorem kahnAddEdges_degOk (schema : Schema) (tables : List String) :
    ∀ (ts : List String) (dg : List (String × Int) × List (String × List String)),
    (∀ x ∈ ts, x ∈ tables) → DegOk tables dg →
    DegOk tables (ts.foldl (fun dg t =>
      (((schemaGet schema t).map (fun td => td.foreignKeys)).getD []).foldl
        (fun dg fk => kahnEdgeStep t dg fk) dg) dg) := by
  intro ts
  induction ts with
  | nil => intro dg _ h; exact h
  | cons t rest ih =>
    intro dg hmem h
    rw [List.foldl_cons]
    exact ih _ (fun x hx => hmem x (List.mem_cons_of_mem _ hx))
      (kahnEdgeFold_degOk tables t (hmem t (List.mem_cons_self _ _)) _ dg h)

theorem kahnEdgeStep_mono (t : String) (fk : FK)
    (dg : List (String × Int) × List (String × List String)) (q c : String)
    (h : c ∈ childrenOf dg.2 q) : c ∈ childrenOf (kahnEdgeStep t dg fk).2 q := by
  rcases hrt : fk.referenceTable with _ | parent
  · simp only [kahnEdgeStep, hrt]
    exact h
  · simp only [kahnEdgeStep, hrt]
    by_cases hpt : (parent != t) = true
    · rw [if_pos hpt]
      rcases hget : assocGet dg.2 parent with _ | children
      · simp only [hget]
        exact h
      · simp only [hget]
        by_cases hct : (children.contains t) = true
        · rw [if_pos hct]
          exact h
        · rw [if_neg hct]
          show c ∈ childrenOf (assocSet dg.2 parent (children ++ [t])) q
          by_cases hq : q = parent
          · subst hq
            unfold childrenOf
            rw [assocGet_assocSet_self]
            unfold childrenOf at h
            rw [hget] at h
            exact List.mem_append_left _ h
          · unfold childrenOf
            rw [assocGet_assocSet_other _ _ _ _ hq]
            exact h
    · rw [if_neg hpt]
      exact h

theorem kahnEdgeFold_mono (t : String) (fks : List FK) (q c : String) :
    ∀ dg, c ∈ childrenOf dg.2 q →
    c ∈ childrenOf ((fks.foldl (fun dg fk => kahnEdgeStep t dg fk) dg)).2 q := by
  induction fks with
  | nil => intro dg h; exact h
  | cons fk rest ih =>
    intro dg h
    rw [List.foldl_cons]
    exact ih _ (kahnEdgeStep_mono t fk dg q c h)

theorem kahnAddEdgesFold_mono (schema : Schema) (ts : List String) (q c : String) :
    ∀ dg, c ∈ childrenOf dg.2 q →
    c ∈ childrenOf ((ts.foldl (fun dg t =>
      (((schemaGet schema t).map (fun td => td.foreignKeys)).getD []).foldl
        (fun dg fk => kahnEdgeStep t dg fk) dg) dg)).2 q := by
  induction ts with
  | nil => intro dg h; exact h
  | cons t rest ih =>
    intro dg h
    rw [List.foldl_cons]
    exact ih _ (kahnEdgeFold_mono t _ q c dg h)

theorem kahnEdgeStep_adds (t : String) (fk : FK)
    (dg : List (String × Int) × List (String × List String)) (parent : String)
    (hrt : fk.referenceTable = some parent) (hne : parent ≠ t)
    (children : List String) (hget : assocGet dg.2 parent = some children) :
    t ∈ childrenOf (kahnEdgeStep t dg fk).2 parent := by
  simp only [kahnEdgeStep, hrt]
  have hpt : (parent != t) = true := by simpa using hne
  rw [if_pos hpt]
  simp only [hget]
  by_cases hct : (children.contains t) = true
  · rw [if_pos hct]
    unfold childrenOf
    rw [hget]
    exact List.mem_of_elem_eq_true hct
  · rw [if_neg hct]
    unfold childrenOf
    rw [assocGet_assocSet_self]
    exact List.mem_append_right _ (List.mem_singleton_self _)

theorem kahnAddEdges_edge (schema : Schema) (tables : List String)
    (hnd : (schema.tables.map Prod.fst).Nodup)
    (htab : tables = schema.tables.map Prod.fst)
    (t : String) (td : TableDef) (hmem : (t, td) ∈ schema.tables)
    (fk : FK) (hfk : fk ∈ td.foreignKeys) (parent : String)
    (hrt : fk.referenceTable = some parent) (hne : parent ≠ t)
    (hp : parent ∈ tables)
    (dg : List (String × Int) × List (String × List String)) (hInv : DegOk tables dg) :
    t ∈ childrenOf (kahnAddEdges schema tables dg).2 parent := by
  rw [kahnAddEdges_eq]
  have htmem : t ∈ tables := by
    rw [htab]
    exact List.mem_map.mpr ⟨(t, td), hmem, rfl⟩
  obtain ⟨ts1, ts2, hts⟩ := List.append_of_mem htmem
  rw [hts, List.foldl_append, List.foldl_cons]
  have hInv1 : DegOk tables (ts1.foldl (fun dg t =>
      (((schemaGet schema t).map (fun td => td.foreignKeys)).getD []).foldl
        (fun dg fk => kahnEdgeStep t dg fk) dg) dg) := by
    refine kahnAddEdges_degOk schema tables ts1 dg ?_ hInv
    intro x hx
    rw [hts]
    exact List.mem_append_left _ hx
  have hfks : ((schemaGet schema t).map (fun td => td.foreignKeys)).getD []
      = td.foreignKeys := by
    rw [schemaGet_of_mem schema t td hnd hmem]
    rfl
  refine kahnAddEdgesFold_mono schema ts2 parent t _ ?_
  show t ∈ childrenOf ((((schemaGet schema t).map (fun td => td.foreignKeys)).getD []).foldl
      (fun dg fk => kahnEdgeStep t dg fk) (ts1.foldl (fun dg t =>
        (((schemaGet schema t).map (fun td => td.foreignKeys)).getD []).foldl
          (fun dg fk => kahnEdgeStep t dg fk) dg) dg)).2 parent
  rw [hfks]
  obtain ⟨f1, f2, hfsplit⟩ := List.append_of_mem hfk
  rw [hfsplit, List.foldl_append, List.foldl_cons]
  have hInv2 : DegOk tables (f1.foldl (fun dg fk => kahnEdgeStep t dg fk)
      (ts1.foldl (fun dg t =>
        (((schemaGet schema t).map (fun td => td.foreignKeys)).getD []).foldl
          (fun dg fk => kahnEdgeStep t dg fk) dg) dg)) :=
    kahnEdgeFold_degOk tables t htmem f1 _ hInv1
  obtain ⟨children, hch⟩ := assocGet_some_of_mem_keys _ parent (by rw [hInv2.2.1]; exact hp)
  refine kahnEdgeFold_mono t f2 parent t _ ?_
  exact kahnEdgeStep_adds t fk _ parent hrt hne children hch

theorem mem_of_assocGet_some {α : Type} {m : List (String × α)} {k : String} {v : α}
    (h : assocGet m k = some v) : (k, v) ∈ m := by
  unfold assocGet at h
  rcases hf : m.find? (fun p => p.1 == k) with _ | q
  · rw [hf] at h
    cases h
  · rw [hf] at h
    have hq := List.mem_of_find?_eq_some hf
    have hqk : q.1 = k := by
      have := List.find?_some hf
      simpa using this
    have hqv : q.2 = v := by
      simpa using h
    have : q = (k, v) := by
      rw [← hqk, ← hqv]
    rw [← this]
    exact hq

theorem mem_keys_of_assocGet_some {α : Type} {m : List (String × α)} {k : String} {v : α}
    (h : assocGet m k = some v) : k ∈ m.map Prod.fst :=
  List.mem_map.mpr ⟨(k, v), mem_of_assocGet_some h, rfl⟩

theorem assocGet_head {α : Type} (k : String) (v : α) (rest : List (String × α)) :
    assocGet ((k, v) :: rest) k = some v := by
  simp only [assocGet, List.find?]
  have : (k == k) = true := by simp
  rw [this]
  rfl

theorem assocGet_tail {α : Type} (k k0 : String) (v0 : α) (rest : List (String × α))
    (h : k ≠ k0) : assocGet ((k0, v0) :: rest) k = assocGet rest k := by
  have h2 : (k0 == k) = false := by simpa using (Ne.symm h)
  simp only [assocGet, List.find?, h2]

theorem parentCount_eq (g : List (String × List String)) (c : String)
    (hnd : (g.map Prod.fst).Nodup) :
    parentCount g c = (g.map Prod.fst).countP (fun p => (childrenOf g p).contains c) := by
  induction g with
  | nil => rfl
  | cons e rest ih =>
    rcases e with ⟨p, ps⟩
    rw [List.map_cons] at hnd
    have hhd : p ∉ rest.map Prod.fst := (List.nodup_cons.mp hnd).1
    have htl : (rest.map Prod.fst).Nodup := (List.nodup_cons.mp hnd).2
    unfold parentCount
    rw [List.countP_cons]
    show List.countP _ rest + _ = _
    rw [List.map_cons, List.countP_cons]
    have hcp : childrenOf ((p, ps) :: rest) p = ps := by
      unfold childrenOf
      rw [assocGet_head]
      rfl
    have hcongr : (rest.map Prod.fst).countP
        (fun q => (childrenOf ((p, ps) :: rest) q).contains c)
        = (rest.map Prod.fst).countP (fun q => (childrenOf rest q).contains c) := by
      refine List.countP_congr ?_
      intro q hq
      have hqp : q ≠ p := by
        intro hh
        exact hhd (hh ▸ hq)
      have heqb : (childrenOf ((p, ps) :: rest) q).contains c
          = (childrenOf rest q).contains c := by
        unfold childrenOf
        rw [assocGet_tail q p ps rest hqp]
      rw [heqb]
    rw [hcp, hcongr]
    have hih := ih htl
    unfold parentCount at hih
    rw [hih]

theorem countP_subset_le (l m : List String) (q : String → Bool)
    (hl : l.Nodup) (hsub : ∀ x ∈ l, x ∈ m) :
    l.countP q ≤ m.countP q := by
  have hsp : List.Subperm l m := List.subperm_of_subset hl hsub
  exact hsp.countP_le q

theorem countP_eq_forces_mem (l m : List String) (q : String → Bool)
    (hl : l.Nodup) (hsub : ∀ x ∈ l, x ∈ m)
    (heq : l.countP q = m.countP q) :
    ∀ x ∈ m, q x = true → x ∈ l := by
  intro x hx hqx
  have hsp : List.Subperm l m := List.subperm_of_subset hl hsub
  have hfil : List.Subperm (l.filter q) (m.filter q) := hsp.filter q
  have hlen : (m.filter q).length ≤ (l.filter q).length := by
    rw [← List.countP_eq_length_filter, ← List.countP_eq_length_filter]
    omega
  have hperm : List.Perm (l.filter q) (m.filter q) := hfil.perm_of_length_le hlen
  have hxm : x ∈ m.filter q := List.mem_filter.mpr ⟨hx, hqx⟩
  have hxl := hperm.mem_iff.mpr hxm
  exact (List.mem_filter.mp hxl).1

theorem kahnLoop_step_eq (g : List (String × List String)) (fuel : Nat) (t : String)
    (queue : List String) (deg : List (String × Int)) (ordered : List String) :
    kahnLoop g (fuel + 1) (t :: queue) deg ordered
      = kahnLoop g fuel
          (queue ++ (((assocGet g t).getD []).foldl kahnDecStep (deg, [])).2)
          (((assocGet g t).getD []).foldl kahnDecStep (deg, [])).1
          (ordered ++ [t]) := rfl

theorem kahnDecFold :
    ∀ (cs : List String), cs.Nodup →
    ∀ (deg : List (String × Int)) (q0 : List String),
    (∀ c ∈ cs, assocGet ((cs.foldl kahnDecStep (deg, q0)).1) c
        = some ((assocGet deg c).getD 0 - 1)) ∧
    (∀ c, c ∉ cs → assocGet ((cs.foldl kahnDecStep (deg, q0)).1) c = assocGet deg c) ∧
    (cs.foldl kahnDecStep (deg, q0)).2
      = q0 ++ cs.filter (fun c => ((assocGet deg c).getD 0 - 1) == 0) := by
  intro cs
  induction cs with
  | nil =>
    intro _ deg q0
    refine ⟨?_, fun c _ => rfl, by simp⟩
    intro c hc
    cases hc
  | cons c0 rest ih =>
    intro hnd deg q0
    have hc0nr : c0 ∉ rest := (List.nodup_cons.mp hnd).1
    have hstep : kahnDecStep (deg, q0) c0
        = (assocSet deg c0 ((assocGet deg c0).getD 0 - 1),
           if ((assocGet deg c0).getD 0 - 1) == 0 then q0 ++ [c0] else q0) := rfl
    obtain ⟨ha, hb, hq⟩ := ih (List.Nodup.of_cons hnd)
      (assocSet deg c0 ((assocGet deg c0).getD 0 - 1))
      (if ((assocGet deg c0).getD 0 - 1) == 0 then q0 ++ [c0] else q0)
    refine ⟨?_, ?_, ?_⟩
    · intro c hc
      rw [List.foldl_cons, hstep]
      rcases List.mem_cons.mp hc with h1 | h1
      · rw [h1]
        rw [hb c0 hc0nr]
        exact assocGet_assocSet_self deg c0 _
      · have hcc0 : c ≠ c0 := by
          intro hh
          rw [hh] at h1
          exact hc0nr h1
        rw [ha c h1]
        rw [assocGet_assocSet_other _ _ _ _ hcc0]
    · intro c hc
      rw [List.foldl_cons, hstep]
      have hcr : c ∉ rest := fun hh => hc (List.mem_cons_of_mem _ hh)
      have hcc0 : c ≠ c0 := fun hh => hc (hh ▸ List.mem_cons_self _ _)
      rw [hb c hcr]
      rw [assocGet_assocSet_other _ _ _ _ hcc0]
    · rw [List.foldl_cons, hstep, hq]
      have hfil : rest.filter (fun c =>
          ((assocGet (assocSet deg c0 ((assocGet deg c0).getD 0 - 1)) c).getD 0 - 1) == 0)
          = rest.filter (fun c => ((assocGet deg c).getD 0 - 1) == 0) := by
        refine List.filter_congr ?_
        intro c hc
        have hcc0 : c ≠ c0 := by
          intro hh
          rw [hh] at hc
          exact hc0nr hc
        rw [assocGet_assocSet_other _ _ _ _ hcc0]
      rw [hfil, List.filter_cons]
      by_cases hp0 : (((assocGet deg c0).getD 0 - 1) == 0) = true
      · rw [if_pos hp0, if_pos hp0]
        simp
      · rw [if_neg hp0, if_neg hp0]

theorem kahnLoop_main (g : List (String × List String)) (tables : List String)
    (hndtab : tables.Nodup) (hkeys : g.map Prod.fst = tables)
    (hchild : ∀ p ps, (p, ps) ∈ g → ps.Nodup ∧ (∀ c ∈ ps, c ∈ tables) ∧ p ∉ ps) :
    ∀ (fuel : Nat) (queue : List String) (deg : List (String × Int)) (ordered : List String),
    (ordered ++ queue).Nodup →
    (∀ x ∈ ordered ++ queue, x ∈ tables) →
    (∀ c, c ∈ tables → (assocGet deg c).getD 0
      = (parentCount g c : Int) - (ordered.countP (fun p => (childrenOf g p).contains c) : Int)) →
    (∀ c, c ∈ tables → ((assocGet deg c).getD 0 ≤ 0 ↔ (c ∈ ordered ∨ c ∈ queue))) →
    (∀ c ∈ queue, ∀ p, c ∈ childrenOf g p → p ∈ ordered) →
    (∀ c ∈ ordered, ∀ p, c ∈ childrenOf g p →
      ∃ i j, i < j ∧ ordered.get? i = some p ∧ ordered.get? j = some c) →
    (kahnLoop g fuel queue deg ordered).Nodup ∧
    (∀ x ∈ kahnLoop g fuel queue deg ordered, x ∈ tables) ∧
    (∀ c ∈ kahnLoop g fuel queue deg ordered, ∀ p, c ∈ childrenOf g p →
      ∃ i j, i < j ∧ (kahnLoop g fuel queue deg ordered).get? i = some p ∧
        (kahnLoop g fuel queue deg ordered).get? j = some c) := by
  intro fuel
  induction fuel with
  | zero =>
    intro queue deg ordered hA hB _ _ _ hO
    refine ⟨(List.sublist_append_left ordered queue).nodup hA, ?_, ?_⟩
    · intro x hx
      exact hB x (List.mem_append_left _ hx)
    · exact hO
  | succ fuel ih =>
    intro queue deg ordered hA hB hD hI hQ hO
    rcases queue with _ | ⟨t, queue⟩
    · refine ⟨by simpa using hA, ?_, ?_⟩
      · intro x hx
        exact hB x (List.mem_append_left _ hx)
      · exact hO
    · rw [kahnLoop_step_eq]
      have htmem : t ∈ tables := hB t (List.mem_append_right _ (List.mem_cons_self _ _))
      have hcsprops : ((assocGet g t).getD []).Nodup
          ∧ (∀ c ∈ (assocGet g t).getD [], c ∈ tables)
          ∧ t ∉ (assocGet g t).getD [] := by
        rcases hgt : assocGet g t with _ | ps
        · exact ⟨List.nodup_nil, by simp, by simp⟩
        · exact hchild t ps (mem_of_assocGet_some hgt)
      obtain ⟨hcsnd, hcssub, htcs⟩ := hcsprops
      obtain ⟨hdeca, hdecb, hdecq⟩ := kahnDecFold ((assocGet g t).getD []) hcsnd deg []
      have hNQ : (((assocGet g t).getD []).foldl kahnDecStep (deg, [])).2
          = ((assocGet g t).getD []).filter
              (fun c => ((assocGet deg c).getD 0 - 1) == 0) := by
        rw [hdecq]
        rfl
      -- facts about NQ membership
      have hNQ_mem : ∀ c, c ∈ (((assocGet g t).getD []).foldl kahnDecStep (deg, [])).2 ↔
          (c ∈ (assocGet g t).getD [] ∧ (assocGet deg c).getD 0 = 1) := by
        intro c
        rw [hNQ]
        rw [List.mem_filter]
        constructor
        · rintro ⟨h1, h2⟩
          refine ⟨h1, ?_⟩
          have := beq_iff_eq.mp h2
          omega
        · rintro ⟨h1, h2⟩
          refine ⟨h1, ?_⟩
          rw [h2]
          rfl
      have htq_nodup := hA
      have hord_nodup : (ordered ++ [t]).Nodup :=
        (List.Sublist.append_left ((List.nil_sublist queue).cons₂ t) ordered).nodup hA
      have hval_in : ∀ c ∈ (assocGet g t).getD [],
          (assocGet ((((assocGet g t).getD []).foldl kahnDecStep (deg, [])).1) c).getD 0
            = (assocGet deg c).getD 0 - 1 := by
        intro c hc
        rw [hdeca c hc]
        rfl
      have hval_out : ∀ c, c ∉ (assocGet g t).getD [] →
          (assocGet ((((assocGet g t).getD []).foldl kahnDecStep (deg, [])).1) c).getD 0
            = (assocGet deg c).getD 0 := by
        intro c hc
        rw [hdecb c hc]
      have hD' : ∀ c, c ∈ tables →
          (assocGet ((((assocGet g t).getD []).foldl kahnDecStep (deg, [])).1) c).getD 0
            = (parentCount g c : Int)
              - (((ordered ++ [t]).countP (fun p => (childrenOf g p).contains c)) : Int) := by
        intro c hctab
        have hcnt : (ordered ++ [t]).countP (fun p => (childrenOf g p).contains c)
            = ordered.countP (fun p => (childrenOf g p).contains c)
              + List.countP (fun p => (childrenOf g p).contains c) [t] :=
          List.countP_append _ _ _
        by_cases hccs : c ∈ (assocGet g t).getD []
        · have hccs2 : c ∈ childrenOf g t := hccs
          have hb : (childrenOf g t).contains c = true := List.elem_eq_true_of_mem hccs2
          have h1 : List.countP (fun p => (childrenOf g p).contains c) [t] = 1 := by
            rw [List.countP_cons, List.countP_nil]
            simp [hccs2]
          rw [hval_in c hccs, hD c hctab, hcnt, h1]
          push_cast
          omega
        · have hccs2 : c ∉ childrenOf g t := hccs
          have hb : (childrenOf g t).contains c = false := contains_false_of_not_mem hccs2
          have h1 : List.countP (fun p => (childrenOf g p).contains c) [t] = 0 := by
            rw [List.countP_cons, List.countP_nil]
            simp [hccs2]
          rw [hval_out c hccs, hD c hctab, hcnt, h1]
          push_cast
          omega
      have hI' : ∀ c, c ∈ tables →
          ((assocGet ((((assocGet g t).getD []).foldl kahnDecStep (deg, [])).1) c).getD 0 ≤ 0 ↔
            (c ∈ ordered ++ [t] ∨
             c ∈ queue ++ (((assocGet g t).getD []).foldl kahnDecStep (deg, [])).2)) := by
        intro c hctab
        by_cases hccs : c ∈ (assocGet g t).getD []
        · rw [hval_in c hccs]
          have hct : c ≠ t := fun hh => htcs (hh ▸ hccs)
          have hold := hI c hctab
          constructor
          · intro hle
            by_cases h0 : (assocGet deg c).getD 0 ≤ 0
            · rcases hold.mp h0 with h1 | h1
              · exact Or.inl (List.mem_append_left _ h1)
              · rcases List.mem_cons.mp h1 with h2 | h2
                · exact absurd h2 hct
                · exact Or.inr (List.mem_append_left _ h2)
            · have h1 : (assocGet deg c).getD 0 = 1 := by omega
              exact Or.inr (List.mem_append_right _ ((hNQ_mem c).mpr ⟨hccs, h1⟩))
          · intro hmem
            rcases hmem with h1 | h1
            · rcases List.mem_append.mp h1 with h2 | h2
              · have := hold.mpr (Or.inl h2)
                omega
              · exact absurd (List.mem_singleton.mp h2) hct
            · rcases List.mem_append.mp h1 with h2 | h2
              · have := hold.mpr (Or.inr (List.mem_cons_of_mem _ h2))
                omega
              · have := ((hNQ_mem c).mp h2).2
                omega
        · rw [hval_out c hccs]
          have hold := hI c hctab
          constructor
          · intro hle
            rcases hold.mp hle with h1 | h1
            · exact Or.inl (List.mem_append_left _ h1)
            · rcases List.mem_cons.mp h1 with h2 | h2
              · refine Or.inl (List.mem_append_right _ ?_)
                rw [h2]
                exact List.mem_singleton_self _
              · exact Or.inr (List.mem_append_left _ h2)
          · intro hmem
            refine hold.mpr ?_
            rcases hmem with h1 | h1
            · rcases List.mem_append.mp h1 with h2 | h2
              · exact Or.inl h2
              · refine Or.inr ?_
                rw [List.mem_singleton.mp h2]
                exact List.mem_cons_self _ _
            · rcases List.mem_append.mp h1 with h2 | h2
              · exact Or.inr (List.mem_cons_of_mem _ h2)
              · exact absurd ((hNQ_mem c).mp h2).1 hccs
      have hA' : ((ordered ++ [t]) ++
          (queue ++ (((assocGet g t).getD []).foldl kahnDecStep (deg, [])).2)).Nodup := by
        have hassoc : (ordered ++ [t]) ++
            (queue ++ (((assocGet g t).getD []).foldl kahnDecStep (deg, [])).2)
            = (ordered ++ t :: queue) ++
              (((assocGet g t).getD []).foldl kahnDecStep (deg, [])).2 := by
          simp
        rw [hassoc]
        refine List.Nodup.append hA ?_ ?_
        · rw [hNQ]
          exact hcsnd.filter _
        · intro a ha haq
          obtain ⟨hacs, hav⟩ := (hNQ_mem a).mp haq
          have hnot : ¬((assocGet deg a).getD 0 ≤ 0) := by omega
          have hnm : ¬(a ∈ ordered ∨ a ∈ t :: queue) :=
            fun hm => hnot ((hI a (hcssub a hacs)).mpr hm)
          rcases List.mem_append.mp ha with h2 | h2
          · exact hnm (Or.inl h2)
          · exact hnm (Or.inr h2)
      have hB' : ∀ x ∈ (ordered ++ [t]) ++
          (queue ++ (((assocGet g t).getD []).foldl kahnDecStep (deg, [])).2), x ∈ tables := by
        intro x hx
        rcases List.mem_append.mp hx with h1 | h1
        · rcases List.mem_append.mp h1 with h2 | h2
          · exact hB x (List.mem_append_left _ h2)
          · rw [List.mem_singleton.mp h2]
            exact htmem
        · rcases List.mem_append.mp h1 with h2 | h2
          · exact hB x (List.mem_append_right _ (List.mem_cons_of_mem _ h2))
          · exact hcssub x ((hNQ_mem x).mp h2).1
      have hQ' : ∀ c ∈ queue ++ (((assocGet g t).getD []).foldl kahnDecStep (deg, [])).2,
          ∀ p, c ∈ childrenOf g p → p ∈ ordered ++ [t] := by
        intro c hc p hedge
        rcases List.mem_append.mp hc with h1 | h1
        · exact List.mem_append_left _ (hQ c (List.mem_cons_of_mem _ h1) p hedge)
        · obtain ⟨hccs, hc1⟩ := (hNQ_mem c).mp h1
          have hctab : c ∈ tables := hcssub c hccs
          have hnew := hD' c hctab
          rw [hval_in c hccs, hc1] at hnew
          have hPtab : parentCount g c
              = tables.countP (fun p => (childrenOf g p).contains c) := by
            have hpc := parentCount_eq g c (by rw [hkeys]; exact hndtab)
            rw [hkeys] at hpc
            exact hpc
          have hsubl : ∀ x ∈ ordered ++ [t], x ∈ tables := by
            intro x hx
            rcases List.mem_append.mp hx with h2 | h2
            · exact hB x (List.mem_append_left _ h2)
            · rw [List.mem_singleton.mp h2]
              exact htmem
          have hptab : p ∈ tables := by
            rcases hgp : assocGet g p with _ | ps
            · exfalso
              unfold childrenOf at hedge
              rw [hgp] at hedge
              cases hedge
            · have hpk := mem_keys_of_assocGet_some hgp
              rw [hkeys] at hpk
              exact hpk
          refine countP_eq_forces_mem (ordered ++ [t]) tables
            (fun p => (childrenOf g p).contains c) hord_nodup hsubl (by omega)
            p hptab (List.elem_eq_true_of_mem hedge)
      have hO' : ∀ c ∈ ordered ++ [t], ∀ p, c ∈ childrenOf g p →
          ∃ i j, i < j ∧ (ordered ++ [t]).get? i = some p ∧
            (ordered ++ [t]).get? j = some c := by
        intro c hc p hedge
        rcases List.mem_append.mp hc with h1 | h1
        · obtain ⟨i, j, hij, hgi, hgj⟩ := hO c h1 p hedge
          have hjlen : j < ordered.length := by
            rcases List.get?_eq_some.mp hgj with ⟨h, _⟩
            exact h
          have hilen : i < ordered.length := lt_trans hij hjlen
          refine ⟨i, j, hij, ?_, ?_⟩
          · rw [List.get?_append hilen]
            exact hgi
          · rw [List.get?_append hjlen]
            exact hgj
        · have hct : c = t := List.mem_singleton.mp h1
          subst hct
          have hpord : p ∈ ordered := hQ c (List.mem_cons_self _ _) p hedge
          obtain ⟨i, hgi⟩ := List.get?_of_mem hpord
          have hilen : i < ordered.length := by
            rcases List.get?_eq_some.mp hgi with ⟨h, _⟩
            exact h
          refine ⟨i, ordered.length, hilen, ?_, ?_⟩
          · rw [List.get?_append hilen]
            exact hgi
          · exact List.get?_concat_length ordered c
      exact ih (queue ++ (((assocGet g t).getD []).foldl kahnDecStep (deg, [])).2)
        ((((assocGet g t).getD []).foldl kahnDecStep (deg, [])).1) (ordered ++ [t])
        hA' hB' hD' hI' hQ' hO'

theorem kahnOrdered_eq (schema : Schema) :
    kahnOrdered schema =
      kahnLoop (kahnAddEdges schema (schema.tables.map Prod.fst)
          (kahnInit (schema.tables.map Prod.fst))).2
        ((schema.tables.map Prod.fst).length * (schema.tables.map Prod.fst).length
          + (schema.tables.map Prod.fst).length + 1)
        ((schema.tables.map Prod.fst).filter (fun t =>
          (assocGet (kahnAddEdges schema (schema.tables.map Prod.fst)
            (kahnInit (schema.tables.map Prod.fst))).1 t).getD 0 == 0))
        (kahnAddEdges schema (schema.tables.map Prod.fst)
          (kahnInit (schema.tables.map Prod.fst))).1 [] := rfl

theorem kahnAddEdges_degOk_full (schema : Schema)
    (hnd : (schema.tables.map Prod.fst).Nodup) :
    DegOk (schema.tables.map Prod.fst)
      (kahnAddEdges schema (schema.tables.map Prod.fst)
        (kahnInit (schema.tables.map Prod.fst))) := by
  rw [kahnAddEdges_eq]
  exact kahnAddEdges_degOk schema (schema.tables.map Prod.fst) (schema.tables.map Prod.fst)
    (kahnInit (schema.tables.map Prod.fst)) (fun x hx => hx)
    (degOk_init (schema.tables.map Prod.fst) hnd)

theorem kahnOrdered_props (schema : Schema)
    (hnd : (schema.tables.map Prod.fst).Nodup) :
    (kahnOrdered schema).Nodup ∧
    (∀ x ∈ kahnOrdered schema, x ∈ schema.tables.map Prod.fst) ∧
    (∀ c ∈ kahnOrdered schema, ∀ p,
      c ∈ childrenOf (kahnAddEdges schema (schema.tables.map Prod.fst)
        (kahnInit (schema.tables.map Prod.fst))).2 p →
      ∃ i j, i < j ∧ (kahnOrdered schema).get? i = some p ∧
        (kahnOrdered schema).get? j = some c) := by
  obtain ⟨hk1, hk2, hdeg, hch⟩ := kahnAddEdges_degOk_full schema hnd
  rw [kahnOrdered_eq]
  refine kahnLoop_main _ (schema.tables.map Prod.fst) hnd hk2
    (fun p ps hm => hch p ps hm) _ _ _ []
    ?_ ?_ ?_ ?_ ?_ ?_
  · show ((schema.tables.map Prod.fst).filter _).Nodup
    exact hnd.filter _
  · intro x hx
    have hx' : x ∈ (schema.tables.map Prod.fst).filter (fun t =>
        (assocGet (kahnAddEdges schema (schema.tables.map Prod.fst)
          (kahnInit (schema.tables.map Prod.fst))).1 t).getD 0 == 0) := hx
    exact (List.mem_filter.mp hx').1
  · intro c hctab
    rw [hdeg c]
    have : List.countP (fun p => (childrenOf (kahnAddEdges schema
        (schema.tables.map Prod.fst) (kahnInit (schema.tables.map Prod.fst))).2 p).contains c)
        ([] : List String) = 0 := rfl
    rw [this]
    omega
  · intro c hctab
    rw [hdeg c]
    constructor
    · intro hle
      refine Or.inr (List.mem_filter.mpr ⟨hctab, ?_⟩)
      have hP : parentCount (kahnAddEdges schema (schema.tables.map Prod.fst)
          (kahnInit (schema.tables.map Prod.fst))).2 c = 0 := by omega
      rw [hdeg c, hP]
      rfl
    · intro hmem
      rcases hmem with h1 | h1
      · cases h1
      · have hb := (List.mem_filter.mp h1).2
        have : (assocGet (kahnAddEdges schema (schema.tables.map Prod.fst)
            (kahnInit (schema.tables.map Prod.fst))).1 c).getD 0 = 0 := beq_iff_eq.mp hb
        rw [hdeg c] at this
        omega
  · intro c hcq p hedge
    exfalso
    have hb := (List.mem_filter.mp hcq).2
    have hz : (assocGet (kahnAddEdges schema (schema.tables.map Prod.fst)
        (kahnInit (schema.tables.map Prod.fst))).1 c).getD 0 = 0 := beq_iff_eq.mp hb
    rw [hdeg c] at hz
    have hP : parentCount (kahnAddEdges schema (schema.tables.map Prod.fst)
        (kahnInit (schema.tables.map Prod.fst))).2 c = 0 := by omega
    rcases hgp : assocGet (kahnAddEdges schema (schema.tables.map Prod.fst)
        (kahnInit (schema.tables.map Prod.fst))).2 p with _ | ps
    · unfold childrenOf at hedge
      rw [hgp] at hedge
      cases hedge
    · have hpm := mem_of_assocGet_some hgp
      have hcnt := List.countP_eq_zero.mp hP _ hpm
      unfold childrenOf at hedge
      rw [hgp] at hedge
      have : ps.contains c = true := List.elem_eq_true_of_mem hedge
      exact hcnt this
  · intro c hc
    cases hc

theorem fkEdgesInner_sub (tn : String) (fks : List FK) :
    ∀ (es : List (String × String)) (x : String × String),
    x ∈ fks.foldl (fun es fk =>
      match fk.referenceTable with
      | some parent => if parent != tn then es ++ [(parent, tn)] else es
      | none => es) es →
    x ∈ es ∨ ∃ fk ∈ fks, fk.referenceTable = some x.1 ∧ x.2 = tn ∧ x.1 ≠ tn := by
  induction fks with
  | nil => intro es x hx; exact Or.inl hx
  | cons fk rest ih =>
    intro es x hx
    rw [List.foldl_cons] at hx
    rcases ih _ x hx with h1 | ⟨fk2, hfk2, hp⟩
    · rcases hrt : fk.referenceTable with _ | parent
      · simp only [hrt] at h1
        exact Or.inl h1
      · simp only [hrt] at h1
        by_cases hpt : (parent != tn) = true
        · rw [if_pos hpt] at h1
          rcases List.mem_append.mp h1 with h2 | h2
          · exact Or.inl h2
          · have hx2 : x = (parent, tn) := List.mem_singleton.mp h2
            refine Or.inr ⟨fk, List.mem_cons_self _ _, ?_, ?_, ?_⟩
            · rw [hx2, hrt]
            · rw [hx2]
            · rw [hx2]
              simpa using hpt
        · rw [if_neg hpt] at h1
          exact Or.inl h1
    · exact Or.inr ⟨fk2, List.mem_cons_of_mem _ hfk2, hp⟩

theorem fkEdges_mem (schema : Schema) (x : String × String) (hx : x ∈ fkEdges schema) :
    ∃ q ∈ schema.tables, ∃ fk ∈ q.2.foreignKeys,
      fk.referenceTable = some x.1 ∧ x.2 = q.1 ∧ x.1 ≠ q.1 := by
  unfold fkEdges at hx
  suffices h : ∀ (l : List (String × TableDef)) (es : List (String × String)),
      x ∈ l.foldl (fun es p => p.2.foreignKeys.foldl (fun es fk =>
        match fk.referenceTable with
        | some parent => if parent != p.1 then es ++ [(parent, p.1)] else es
        | none => es) es) es →
      x ∈ es ∨ ∃ q ∈ l, ∃ fk ∈ q.2.foreignKeys,
        fk.referenceTable = some x.1 ∧ x.2 = q.1 ∧ x.1 ≠ q.1 by
    rcases h schema.tables [] hx with h1 | h1
    · cases h1
    · exact h1
  intro l
  induction l with
  | nil => intro es hes; exact Or.inl hes
  | cons q rest ih =>
    intro es hes
    rw [List.foldl_cons] at hes
    rcases ih _ hes with h1 | ⟨q2, hq2, hfk⟩
    · rcases fkEdgesInner_sub q.1 q.2.foreignKeys es x h1 with h2 | ⟨fk, hfkm, hp⟩
      · exact Or.inl h2
      · exact Or.inr ⟨q, List.mem_cons_self _ _, fk, hfkm, hp⟩
    · exact Or.inr ⟨q2, List.mem_cons_of_mem _ hq2, hfk⟩

theorem contains_append_mem (a b : List String) (x : String) :
    (a ++ b).contains x = (a.contains x || b.contains x) := by
  show List.elem x (a ++ b) = (List.elem x a || List.elem x b)
  by_cases hx : x ∈ a ++ b
  · rw [List.elem_eq_true_of_mem hx]
    rcases List.mem_append.mp hx with h1 | h1
    · rw [List.elem_eq_true_of_mem h1]
      rfl
    · rw [List.elem_eq_true_of_mem h1]
      cases List.elem x a <;> rfl
  · rw [show List.elem x (a ++ b) = false from contains_false_of_not_mem hx,
        show List.elem x a = false from
          contains_false_of_not_mem (fun h => hx (List.mem_append_left _ h)),
        show List.elem x b = false from
          contains_false_of_not_mem (fun h => hx (List.mem_append_right _ h))]
    rfl

theorem appendRemaining_aux :
    ∀ (ts : List String), ts.Nodup → ∀ (ordered s : List String), (∀ t ∈ ts, t ∉ s) →
    ts.foldl (fun acc t => if acc.contains t then acc else acc ++ [t]) (ordered ++ s)
      = ordered ++ s ++ ts.filter (fun t => !(ordered.contains t)) := by
  intro ts
  induction ts with
  | nil => intro _ ordered s _; simp
  | cons t rest ih =>
    intro hnd ordered s hs
    have htns : t ∉ s := hs t (List.mem_cons_self _ _)
    rw [List.foldl_cons]
    show rest.foldl (fun acc t => if acc.contains t then acc else acc ++ [t])
      (if (ordered ++ s).contains t then ordered ++ s else (ordered ++ s) ++ [t]) = _
    by_cases hto : t ∈ ordered
    · have hcond : ((ordered ++ s).contains t) = true :=
        List.elem_eq_true_of_mem (List.mem_append_left _ hto)
      rw [if_pos hcond]
      rw [ih (List.Nodup.of_cons hnd) ordered s (fun q hq => hs q (List.mem_cons_of_mem _ hq))]
      have hfil : (t :: rest).filter (fun q => !(ordered.contains q))
          = rest.filter (fun q => !(ordered.contains q)) := by
        rw [List.filter_cons]
        have hb : (!(ordered.contains t)) = false := by
          show (!(List.elem t ordered)) = false
          rw [List.elem_eq_true_of_mem hto]
          rfl
        rw [hb]
        simp
      rw [hfil]
    · have hcond : ((ordered ++ s).contains t) = false := by
        refine contains_false_of_not_mem ?_
        intro hm
        rcases List.mem_append.mp hm with h1 | h1
        · exact hto h1
        · exact htns h1
      rw [if_neg (by intro hh; rw [hcond] at hh; cases hh)]
      have hassoc : (ordered ++ s) ++ [t] = ordered ++ (s ++ [t]) := by
        rw [List.append_assoc]
      rw [hassoc]
      rw [ih (List.Nodup.of_cons hnd) ordered (s ++ [t]) ?_]
      · have hfil : (t :: rest).filter (fun q => !(ordered.contains q))
            = t :: rest.filter (fun q => !(ordered.contains q)) := by
          rw [List.filter_cons]
          have hb : (!(ordered.contains t)) = true := by
            show (!(List.elem t ordered)) = true
            rw [show List.elem t ordered = false from contains_false_of_not_mem hto]
            rfl
          rw [hb]
          simp
        rw [hfil]
        simp
      · intro q hq
        intro hm
        rcases List.mem_append.mp hm with h1 | h1
        · exact hs q (List.mem_cons_of_mem _ hq) h1
        · have hqt : q = t := List.mem_singleton.mp h1
          exact (List.nodup_cons.mp hnd).1 (hqt ▸ hq)

theorem appendRemaining_filter (tables ordered : List String) (hnd : tables.Nodup) :
    appendRemaining tables ordered
      = ordered ++ tables.filter (fun t => !(ordered.contains t)) := by
  have h := appendRemaining_aux tables hnd ordered [] (by simp)
  rw [List.append_nil] at h
  unfold appendRemaining
  rw [h]

theorem orderTables_eq_filter (schema : Schema)
    (hnd : (schema.tables.map Prod.fst).Nodup) :
    orderTablesForGeneration schema
      = kahnOrdered schema ++ (schema.tables.map Prod.fst).filter
          (fun t => !((kahnOrdered schema).contains t)) := by
  show appendRemaining (schema.tables.map Prod.fst) (kahnOrdered schema) = _
  exact appendRemaining_filter (schema.tables.map Prod.fst) (kahnOrdered schema) hnd

theorem orderTables_mem_iff (schema : Schema)
    (hnd : (schema.tables.map Prod.fst).Nodup) (x : String) :
    x ∈ orderTablesForGeneration schema ↔ x ∈ schema.tables.map Prod.fst := by
  rw [orderTables_eq_filter schema hnd]
  obtain ⟨hknd, hksub, _⟩ := kahnOrdered_props schema hnd
  constructor
  · intro hx
    rcases List.mem_append.mp hx with h1 | h1
    · exact hksub x h1
    · exact (List.mem_filter.mp h1).1
  · intro hx
    by_cases hk : x ∈ kahnOrdered schema
    · exact List.mem_append_left _ hk
    · refine List.mem_append_right _ (List.mem_filter.mpr ⟨hx, ?_⟩)
      show (!(List.elem x (kahnOrdered schema))) = true
      rw [show List.elem x (kahnOrdered schema) = false from contains_false_of_not_mem hk]
      rfl

theorem orderTables_nodup (schema : Schema)
    (hnd : (schema.tables.map Prod.fst).Nodup) :
    (orderTablesForGeneration schema).Nodup := by
  rw [orderTables_eq_filter schema hnd]
  obtain ⟨hknd, hksub, _⟩ := kahnOrdered_props schema hnd
  refine List.Nodup.append hknd (hnd.filter _) ?_
  intro a ha haf
  have hb := (List.mem_filter.mp haf).2
  have : (kahnOrdered schema).contains a = true := List.elem_eq_true_of_mem ha
  rw [this] at hb
  cases hb

theorem orderTables_perm (schema : Schema)
    (hnd : (schema.tables.map Prod.fst).Nodup) :
    List.Perm (orderTablesForGeneration schema) (schema.tables.map Prod.fst) := by
  rw [List.perm_ext_iff_of_nodup (orderTables_nodup schema hnd) hnd]
  exact orderTables_mem_iff schema hnd

theorem topo_eq_orderTables (schema : Schema)
    (hnd : (schema.tables.map Prod.fst).Nodup) :
    topologicalSortTables schema = orderTablesForGeneration schema := by
  show (if (kahnOrdered schema).length == (schema.tables.map (fun p => p.1)).length
      then kahnOrdered schema
      else appendRemaining (schema.tables.map (fun p => p.1)) (kahnOrdered schema))
    = orderTablesForGeneration schema
  by_cases hlen : ((kahnOrdered schema).length == (schema.tables.map (fun p => p.1)).length)
      = true
  · rw [if_pos hlen]
    have hleneq : (kahnOrdered schema).length = (schema.tables.map Prod.fst).length :=
      beq_iff_eq.mp hlen
    obtain ⟨hknd, hksub, _⟩ := kahnOrdered_props schema hnd
    have hsp : List.Subperm (kahnOrdered schema) (schema.tables.map Prod.fst) :=
      List.subperm_of_subset hknd hksub
    have hperm : List.Perm (kahnOrdered schema) (schema.tables.map Prod.fst) :=
      hsp.perm_of_length_le (by omega)
    have hfil : (schema.tables.map Prod.fst).filter
        (fun t => !((kahnOrdered schema).contains t)) = [] := by
      rw [List.filter_eq_nil_iff]
      intro a ha
      have hak : a ∈ kahnOrdered schema := hperm.mem_iff.mpr ha
      intro hb
      have : (kahnOrdered schema).contains a = true := List.elem_eq_true_of_mem hak
      rw [this] at hb
      cases hb
    rw [orderTables_eq_filter schema hnd, hfil, List.append_nil]
  · rw [if_neg hlen]
    rfl

/-- C4 (amended).  Under distinct table names, `topologicalSortTables` is a
permutation of the declared table names, agrees with
`orderTablesForGeneration`, and equals the Kahn-phase output followed by the
remaining (cyclic or downstream-of-cycle) tables in declaration order; every
parent precedes each of its children that the Kahn phase emitted. -/
theorem topo_sort_properties (schema : Schema)
    (hnd : (schema.tables.map Prod.fst).Nodup) :
    List.Perm (topologicalSortTables schema) (schema.tables.map Prod.fst) ∧
    topologicalSortTables schema = orderTablesForGeneration schema ∧
    orderTablesForGeneration schema = kahnOrdered schema
      ++ (schema.tables.map Prod.fst).filter (fun t => !((kahnOrdered schema).contains t)) ∧
    (∀ p c, (p, c) ∈ fkEdges schema → p ∈ schema.tables.map Prod.fst →
      c ∈ kahnOrdered schema →
      ∃ i j, i < j ∧ (orderTablesForGeneration schema).get? i = some p ∧
        (orderTablesForGeneration schema).get? j = some c) := by
  refine ⟨?_, topo_eq_orderTables schema hnd, orderTables_eq_filter schema hnd, ?_⟩
  · rw [topo_eq_orderTables schema hnd]
    exact orderTables_perm schema hnd
  · intro p c hedge hp hck
    obtain ⟨hknd, hksub, hkbefore⟩ := kahnOrdered_props schema hnd
    obtain ⟨q, hq, fk, hfk, hrt, hc2, hne⟩ := fkEdges_mem schema (p, c) hedge
    have hq1 : q.1 = c := hc2.symm
    have hcq : (c, q.2) ∈ schema.tables := by
      have heq : (c, q.2) = q := by
        rw [← hq1]
      rw [heq]
      exact hq
    have hpc : p ≠ c := hq1 ▸ hne
    have hgedge : c ∈ childrenOf (kahnAddEdges schema (schema.tables.map Prod.fst)
        (kahnInit (schema.tables.map Prod.fst))).2 p :=
      kahnAddEdges_edge schema (schema.tables.map Prod.fst) hnd rfl c q.2 hcq fk hfk p
        hrt hpc hp (kahnInit (schema.tables.map Prod.fst))
        (degOk_init (schema.tables.map Prod.fst) hnd)
    obtain ⟨i, j, hij, hgi, hgj⟩ := hkbefore c hck p hgedge
    rw [orderTables_eq_filter schema hnd]
    have hjlen : j < (kahnOrdered schema).length := by
      rcases List.get?_eq_some.mp hgj with ⟨h, _⟩
      exact h
    have hilen : i < (kahnOrdered schema).length := lt_trans hij hjlen
    refine ⟨i, j, hij, ?_, ?_⟩
    · rw [List.get?_append hilen]
      exact hgi
    · rw [List.get?_append hjlen]
      exact hgj

/-- C10.  For a table with no declared primary key, the repairer's
`inferSinglePK` and the generator's `inferPrimaryKey` agree: the former
returns a column exactly when the latter returns the corresponding singleton
list, and `none` exactly when the latter returns the empty list. -/
theorem infer_pk_agreement (tableName : String) (td : TableDef)
    (h : td.primaryKey = none ∨ td.primaryKey = some []) :
    (∀ c, inferSinglePK tableName td = some c ↔ inferPrimaryKey tableName td = [c]) ∧
    (inferSinglePK tableName td = none ↔ inferPrimaryKey tableName td = []) := by
  have key : inferPrimaryKey tableName td = (inferSinglePK tableName td).toList := by
    unfold inferSinglePK inferPrimaryKey
    rcases h with h | h <;> rw [h] <;>
      cases hf : (colsOf td).find? (fun p => strLower p.1 == "id" && typeIntSerial p.2.type) <;>
        simp only [hf] <;>
        cases hf2 : (colsOf td).find? (fun p =>
            (strLower p.1 == strLower tableName ++ "_id" || strEnds (strLower p.1) "_id")
              && typeIntSerial p.2.type) <;>
          simp [hf2]
  refine ⟨fun c => ?_, ?_⟩
  · rw [key]; cases inferSinglePK tableName td <;> simp
  · rw [key]; cases inferSinglePK tableName td <;> simp

/-- C10 witness: agreement evaluated on a concrete undeclared-PK table. -/
theorem infer_pk_agreement_witness :
    (c10Def.primaryKey = none ∨ c10Def.primaryKey = some []) ∧
    ((∀ c, inferSinglePK "users" c10Def = some c ↔ inferPrimaryKey "users" c10Def = [c]) ∧
     (inferSinglePK "users" c10Def = none ↔ inferPrimaryKey "users" c10Def = [])) :=
  ⟨Or.inl rfl, infer_pk_agreement "users" c10Def (Or.inl rfl)⟩

/-- C9 counterexample: cancelling a freshly started job puts it into the
status `cancelling`, which is not among the five statuses the claim allows. -/
theorem job_status_counterexample :
    (cancelJob (startJob createJob)).1.status = "cancelling" ∧
    (cancelJob (startJob createJob)).1.status ∉ specJobStatuses := by
  constructor
  · rfl
  · decide

/-- C9 amended.  Every job state reachable through the service's mutations
has one of the six statuses `created`, `running`, `cancelling`, `completed`,
`error`, `cancelled` (the spec's five plus the transient `cancelling` that a
cancellation request installs on a non-terminal job), and a job in a
terminal status is refused by `cancelJob`. -/
theorem job_status_invariant (j : Job) (h : JobReachable j) :
    j.status ∈ codeJobStatuses ∧
    (j.status ∈ ["completed", "error", "cancelled"] → (cancelJob j).2 = false) := by
  constructor
  · induction h with
    | refl => simp [createJob, codeJobStatuses]
    | tail _ step ih =>
      cases step with
      | start => simp [startJob, codeJobStatuses]
      | progress p => simpa [setProgress] using ih
      | cancel =>
        unfold cancelJob
        split
        · exact ih
        · simp [codeJobStatuses]
      | success => simp [finishSuccess, codeJobStatuses]
      | failure ab m =>
        unfold finishFailure
        split <;> simp [codeJobStatuses]
  · intro hterm
    unfold cancelJob
    rw [if_pos (List.elem_eq_true_of_mem hterm)]

/-- C9 witness: the invariant evaluated on the concrete reachable job
created → running → cancel-requested. -/
theorem job_status_invariant_witness :
    JobReachable (cancelJob (startJob createJob)).1 ∧
    (cancelJob (startJob createJob)).1.status ∈ codeJobStatuses := by
  have hr : JobReachable (cancelJob (startJob createJob)).1 :=
    Relation.ReflTransGen.tail
      (Relation.ReflTransGen.tail Relation.ReflTransGen.refl (JobStep.start createJob))
      (JobStep.cancel (startJob createJob))
  exact ⟨hr, (job_status_invariant _ hr).1⟩

/-- C6 counterexample: with zero recoverable tables and the AI fallback
unavailable, `parse` does not throw — it returns the schema with zero
tables, although the claim requires this very case to throw. -/
theorem parse_throw_counterexample :
    recoverBlocks [] = [] ∧
    SchemaParser_parse [] none = Except.ok ⟨[]⟩ ∧
    ∀ m, SchemaParser_parse [] none ≠ Except.error m := by
  refine ⟨rfl, rfl, fun m h => ?_⟩
  exact Except.noConfusion h

/-- C6 amended.  `SchemaParser.parse` throws exactly when zero tables are
recoverable from the DDL blocks, an AI model is configured, and the AI
fallback call itself throws; an unavailable AI model or an unparsable AI
response instead yields a schema with zero tables, and any recovered table
(including regex-salvaged ones) yields a schema without consulting the
fallback. -/
theorem parse_throws_iff (blocks : List DdlBlock) (ai : Option AiParse) :
    (∃ m, SchemaParser_parse blocks ai = Except.error m) ↔
    (recoverBlocks blocks = [] ∧ ∃ e, ai = some (AiParse.threw e)) := by
  unfold SchemaParser_parse
  rcases hrec : recoverBlocks blocks with _ | ⟨b, bs⟩
  · simp only [List.isEmpty_nil, if_pos rfl]
    cases ai with
    | none => simp
    | some o =>
      cases o with
      | threw m => simp
      | unparsable => simp
      | parsed s => simp
  · simp

/-- C1.  With the identical schema, config and seed (seed 1), two runs of
`generateDeterministicData` under different ambient `Math.random` streams
produce different datasets: `synthValue` draws date/time/numeric values and
FK samples from `Math.random` directly, ignoring the seeded rng it is
handed, so the seed does not determine the output. -/
theorem seed_does_not_determine_output :
    c1Cfg.seed = some 1 ∧
    (generateDeterministicData c1Schema c1Cfg c1StA).1
      = [("t", [[("x", Value.vStr "00:00:00")]])] ∧
    (generateDeterministicData c1Schema c1Cfg c1StB).1
      = [("t", [[("x", Value.vStr "12:30:30")]])] ∧
    (generateDeterministicData c1Schema c1Cfg c1StA).1
      ≠ (generateDeterministicData c1Schema c1Cfg c1StB).1 := by
  have ha : (generateDeterministicData c1Schema c1Cfg c1StA).1
      = [("t", [[("x", Value.vStr "00:00:00")]])] := rfl
  have hb : (generateDeterministicData c1Schema c1Cfg c1StB).1
      = [("t", [[("x", Value.vStr "12:30:30")]])] := rfl
  refine ⟨rfl, ha, hb, ?_⟩
  rw [ha, hb]
  decide

/-- C2 counterexample: the child's declared PK column `id` is also its
single FK column; the FK pass reassigns both dangling values round-robin
over the parent's only PK value, leaving the duplicate PK column `[1, 1]` —
so after repair the PK values are neither unique nor the claim true. -/
theorem pk_uniqueness_counterexample :
    inferSinglePK "child" c2ChildDef = some "id" ∧
    colVals ((dataGet (autoRepairForeignKeys c2Schema c2Data true) "child").getD []) "id"
      = [some (Value.vNum 1), some (Value.vNum 1)] ∧
    ¬ GoodPk ((dataGet (autoRepairForeignKeys c2Schema c2Data true) "child").getD []) "id" := by
  have h2 : colVals ((dataGet (autoRepairForeignKeys c2Schema c2Data true) "child").getD []) "id"
      = [some (Value.vNum 1), some (Value.vNum 1)] := rfl
  refine ⟨rfl, h2, fun hg => ?_⟩
  have hp := hg.2
  rw [h2] at hp
  cases hp with
  | cons hrel _ => exact hrel _ (List.mem_singleton_self _) rfl

/-- C2 amended.  After `autoRepairForeignKeys` runs with repair enabled, a
table with a declared-or-inferable single-column PK has all-non-null,
pairwise-distinct PK values — provided the PK column is not itself a
foreign-key column of that table (the FK pass may overwrite such a column,
see the counterexample) and the table does not also declare a multi-column
primary key. -/
theorem autoRepair_pk_unique_nonnull (schema : Schema) (data : Data) (tn : String)
    (td : TableDef) (pk : String)
    (hnd : (schema.tables.map Prod.fst).Nodup)
    (hmem : (tn, td) ∈ schema.tables)
    (hpk : inferSinglePK tn td = some pk)
    (hfks : ∀ fk ∈ td.foreignKeys, pk ∉ fk.columns)
    (hdecl : ∀ l, td.primaryKey = some l → l.length ≤ 1) :
    GoodPk ((dataGet (autoRepairForeignKeys schema data true) tn).getD []) pk := by
  unfold autoRepairForeignKeys
  rw [if_neg (by simp)]
  apply fkPassFold_goodData schema schema.tables _ tn td pk
    (schemaGet_of_mem schema tn td hnd hmem) hpk hdecl
    (fun p hp hp1 => keyed_mem_unique schema.tables hnd tn td hmem p hp hp1) hfks
  unfold pkPass
  exact pkFold_good schema.tables _ tn td pk hnd hmem hpk

/-- C2 witness: the repaired-PK theorem applied to a concrete schema whose
child FK column differs from its PK column, with a null PK and a dangling FK
in the data. -/
theorem autoRepair_pk_unique_nonnull_witness :
    ((wSchema.tables.map Prod.fst).Nodup ∧
     ("authors", wAuthors) ∈ wSchema.tables ∧
     inferSinglePK "authors" wAuthors = some "id" ∧
     (∀ fk ∈ wAuthors.foreignKeys, "id" ∉ fk.columns)) ∧
    GoodPk ((dataGet (autoRepairForeignKeys wSchema wData true) "authors").getD []) "id" := by
  refine ⟨⟨?_, ?_, ?_, ?_⟩, ?_⟩
  · decide
  · decide
  · rfl
  · decide
  · exact autoRepair_pk_unique_nonnull wSchema wData "authors" wAuthors "id"
      (by decide) (by decide) rfl (by decide)
      (fun l hl => by
        have hl' : l = ["id"] := by
          have := Option.some.inj hl
          rw [← this]
        rw [hl']
        decide)

/-- C8 amended.  An empty (or absent) table whose schema *declares* a
single-column primary key pk — the inferable-but-undeclared case is refuted
by the counterexample — ends the repair with exactly one row whose PK value
is 1, provided pk is not itself one of the table's foreign-key columns. -/
theorem empty_table_pk_one (schema : Schema) (data : Data) (tn : String) (td : TableDef)
    (pk : String)
    (hnd : (schema.tables.map Prod.fst).Nodup)
    (hmem : (tn, td) ∈ schema.tables)
    (hdecl : td.primaryKey = some [pk])
    (hempty : dataGet data tn = none ∨ dataGet data tn = some [])
    (hfks : ∀ fk ∈ td.foreignKeys, pk ∉ fk.columns) :
    colVals ((dataGet (autoRepairForeignKeys schema data true) tn).getD []) pk
      = [some (Value.vNum 1)] := by
  have hpk : inferSinglePK tn td = some pk := inferSinglePK_declared tn td pk hdecl
  have h0 : dataGet (synthEmptyDeclared schema data) tn = some [[(pk, Value.vNum 1)]] := by
    unfold synthEmptyDeclared
    exact synthFold_at schema.tables tn td pk data hnd hmem hdecl hempty
  have h1 : dataGet (pkPass schema (synthEmptyDeclared schema data)) tn
      = some [[(pk, Value.vNum 1)]] := by
    unfold pkPass
    exact pkFold_exact schema.tables tn td pk _ hnd hmem hpk h0
  have hsets : setsGet (buildParentPkSets schema
      (pkPass schema (synthEmptyDeclared schema data))) tn = some [Value.vNum 1] := by
    rw [buildParentPkSets_at schema _ tn td pk hnd hmem hpk, h1]
    exact congrArg some (pkValueSet_single pk)
  have hOk : ∀ l', setsGet (buildParentPkSets schema
      (pkPass schema (synthEmptyDeclared schema data))) tn = some l' → l' ≠ [] := by
    intro l' hl' hnil
    rw [hsets] at hl'
    have := Option.some.inj hl'
    rw [hnil] at this
    cases this
  unfold autoRepairForeignKeys
  rw [if_neg (by simp)]
  rw [fkPassFold_exact schema schema.tables tn td pk
    (pkPass schema (synthEmptyDeclared schema data),
     buildParentPkSets schema (pkPass schema (synthEmptyDeclared schema data)))
    (fun p hp hp1 => keyed_mem_unique schema.tables hnd tn td hmem p hp hp1) hfks hOk]
  show colVals ((dataGet (pkPass schema (synthEmptyDeclared schema data)) tn).getD []) pk
    = [some (Value.vNum 1)]
  rw [h1]
  show colVals [[(pk, Value.vNum 1)]] pk = [some (Value.vNum 1)]
  simp [colVals, rowGet_singleton]

/-- C8 witness: the empty-table synthesis theorem applied to one empty table
with declared PK `id` and no foreign keys. -/
theorem empty_table_pk_one_witness :
    ((c8dSchema.tables.map Prod.fst).Nodup ∧
     ("t", c8dDef) ∈ c8dSchema.tables ∧
     c8dDef.primaryKey = some ["id"] ∧
     (dataGet ([("t", [])] : Data) "t" = none ∨ dataGet ([("t", [])] : Data) "t" = some []) ∧
     (∀ fk ∈ c8dDef.foreignKeys, "id" ∉ fk.columns)) ∧
    colVals ((dataGet (autoRepairForeignKeys c8dSchema [("t", [])] true) "t").getD []) "id"
      = [some (Value.vNum 1)] := by
  refine ⟨⟨?_, ?_, ?_, ?_, ?_⟩, ?_⟩
  · decide
  · decide
  · rfl
  · exact Or.inr rfl
  · decide
  · exact empty_table_pk_one c8dSchema [("t", [])] "t" c8dDef "id"
      (by decide) (by decide) rfl (Or.inr rfl) (by decide)

set_option maxHeartbeats 8000000 in
/-- C3 amended.  For a simple single-column FK `c → pt` of a child table that
is non-empty after the PK pass, provided the parent's post-PK-pass PK value
set is non-empty (the counterexample refutes the empty-set case), no later FK
of the same child table writes the same column, and the child's own parent-set
entry (if any) is non-empty, `autoRepairForeignKeys` leaves every child row
with a value of that set (100% coverage); invalid values are reassigned by
`fkRepairRows`, which walks the set round-robin, advancing only on rewrites. -/
theorem fk_coverage_round_robin (schema : Schema) (data : Data)
    (preT postT : List (String × TableDef)) (ct : String) (cd : TableDef)
    (preF postF : List FK) (fk : FK) (c pt : String) (pset0 : List Value)
    (hnd : (schema.tables.map Prod.fst).Nodup)
    (hsplitT : schema.tables = preT ++ (ct, cd) :: postT)
    (hsplitF : cd.foreignKeys = preF ++ fk :: postF)
    (hc : fk.columns = [c])
    (hrt : fk.referenceTable = some pt)
    (hrc : fk.referenceColumns.length = 1)
    (hpostF : ∀ fk' ∈ postF, ∀ c0, fk'.columns = [c0] → c0 ≠ c)
    (hOkCt : ∀ l', setsGet (buildParentPkSets schema
      (pkPass schema (synthEmptyDeclared schema data))) ct = some l' → l' ≠ [])
    (hpt : setsGet (buildParentPkSets schema
      (pkPass schema (synthEmptyDeclared schema data))) pt = some pset0)
    (hpne : pset0 ≠ [])
    (hctne : (dataGet (pkPass schema (synthEmptyDeclared schema data)) ct).getD [] ≠ []) :
    CoveredBy ((dataGet (autoRepairForeignKeys schema data true) ct).getD []) c pset0 ∧
    (∀ st : FkPassState, setsGet st.sets pt = some pset0 →
      repairFkStep schema ct fk st
        = { st with rows := fkRepairRows c pset0 pset0 0 st.rows }) ∧
    (∀ (rows : List Row) (j : Nat),
      (fkRepairRows c pset0 pset0 0 rows).get? j = (rows.get? j).map (fun r =>
        if fkRowInvalid c pset0 r then
          rowSet r c (pset0.getD
            (((rows.take j).countP (fkRowInvalid c pset0)) % pset0.length) Value.vNull)
        else r)) := by
  refine ⟨?_, ?_, ?_⟩
  · have hnd2 : ((preT ++ (ct, cd) :: postT).map Prod.fst).Nodup := by
      rw [← hsplitT]; exact hnd
    rw [List.map_append, List.map_cons] at hnd2
    rcases List.nodup_append.mp hnd2 with ⟨hndPre, hndMid, hdisj⟩
    have hpre_keys : ∀ p ∈ preT, p.1 ≠ ct := by
      intro p hp hpc
      exact hdisj (List.mem_map.mpr ⟨p, hp, hpc⟩) (List.mem_cons_self _ _)
    have hpost_keys : ∀ p ∈ postT, p.1 ≠ ct := by
      intro p hp hpc
      exact (List.nodup_cons.mp hndMid).1 (List.mem_map.mpr ⟨p, hp, hpc⟩)
    unfold autoRepairForeignKeys
    rw [if_neg (by simp)]
    revert hOkCt hpt hctne
    generalize pkPass schema (synthEmptyDeclared schema data) = D
    generalize buildParentPkSets schema D = S
    intro hOkCt hpt hctne
    rw [hsplitT, List.foldl_append, List.foldl_cons]
    have hOkPre := fkPassFold_setsOk schema preT ct (D, S) hOkCt
    have hsetsPre := fkPassFold_sets_const schema preT pt pset0 hpne (D, S) hpt
    have hdataPre := fkPassFold_data_exact schema preT ct (D, S) hpre_keys hOkCt
    have hnePre : (dataGet (preT.foldl (fun dst p => fkPassTable schema p.1 p.2 dst)
        (D, S)).1 ct).getD [] ≠ [] := by
      rw [hdataPre]
      exact hctne
    have hcov := fkPassTable_covered schema ct cd
      (preT.foldl (fun dst p => fkPassTable schema p.1 p.2 dst) (D, S))
      preF postF fk c pt pset0 hsplitF hc hrt hrc hpostF hOkPre hsetsPre hpne hnePre
    have hOkAfter := fkPassTable_setsOk schema ct cd
      (preT.foldl (fun dst p => fkPassTable schema p.1 p.2 dst) (D, S)) ct hOkPre
    show CoveredBy ((dataGet (postT.foldl (fun dst p => fkPassTable schema p.1 p.2 dst)
        (fkPassTable schema ct cd
          (preT.foldl (fun dst p => fkPassTable schema p.1 p.2 dst) (D, S)))).1
        ct).getD []) c pset0
    rw [fkPassFold_data_exact schema postT ct _ hpost_keys hOkAfter]
    exact hcov
  · intro st hs
    exact repairFkStep_nonempty schema ct fk st c pt pset0 hc hrt hrc hs hpne
  · intro rows j
    have h := fkRepairRows_round_robin c pset0 pset0 rows 0 j
    simpa using h


/-- C3 counterexample: the parent's PK is inferable but undeclared and the
parent has no rows, so its PK value set is empty; the FK pass cannot repair
against an empty set and leaves the non-empty child with a null FK value —
0% coverage, not the claimed 100%. -/
theorem fk_coverage_counterexample :
    colVals ((dataGet (autoRepairForeignKeys c3Schema c3Data true) "child").getD []) "pid"
      = [some Value.vNull] ∧
    pkValueSet "id" ((dataGet (autoRepairForeignKeys c3Schema c3Data true) "parent").getD []) = [] ∧
    ((dataGet (autoRepairForeignKeys c3Schema c3Data true) "child").getD []) ≠ [] := by
  refine ⟨rfl, rfl, ?_⟩
  decide

/-- C4 counterexample: tables are declared in the order c, a, b; a and b
reference each other (a cycle) and c references a.  The FK of c is on no
dependency cycle (c reaches nothing), yet the sort emits the child c before
its parent a, because every table downstream of the cycle is merely appended
in declaration order. -/
theorem topo_sort_counterexample :
    topologicalSortTables c4Schema = ["c", "a", "b"] ∧
    orderTablesForGeneration c4Schema = ["c", "a", "b"] ∧
    (fkEdges c4Schema).contains ("a", "c") = true ∧
    reachesN (fkEdges c4Schema) 4 "c" "a" = false ∧
    List.indexOf "c" (topologicalSortTables c4Schema)
      < List.indexOf "a" (topologicalSortTables c4Schema) := by
  refine ⟨rfl, rfl, rfl, rfl, ?_⟩
  decide

/-- C5 counterexample: a table whose definition has no `columns` object is
emitted as an empty array by the AI orchestrator (the missing-columns skip),
so the generated dataset can contain an empty table. -/
theorem ai_orchestrator_empty_table_counterexample :
    schemaGet c5Schema "bad" ≠ none ∧
    (generateSyntheticData c5Schema {} true oracleEmpty c1StA).toOption.map
      (fun p => dataGet p.1 "bad") = some (some []) := by
  refine ⟨?_, rfl⟩
  decide

/-- C8 counterexample: a zero-row table whose single-column PK is inferable
but not declared receives no synthesized row — the empty-table synthesis
requires a declared PK. -/
theorem empty_table_synthesis_counterexample :
    inferSinglePK "t" c8Def = some "id" ∧
    dataGet (autoRepairForeignKeys c8Schema [("t", [])] true) "t" = some [] :=
  ⟨rfl, rfl⟩

/-- Witness: the claim theorem instantiated at the child-first schema. -/
theorem topo_sort_properties_witness :
    (c4wSchema.tables.map Prod.fst).Nodup ∧
    (List.Perm (topologicalSortTables c4wSchema) (c4wSchema.tables.map Prod.fst) ∧
     topologicalSortTables c4wSchema = orderTablesForGeneration c4wSchema ∧
     orderTablesForGeneration c4wSchema = kahnOrdered c4wSchema
       ++ (c4wSchema.tables.map Prod.fst).filter
            (fun t => !((kahnOrdered c4wSchema).contains t)) ∧
     (∀ p c, (p, c) ∈ fkEdges c4wSchema → p ∈ c4wSchema.tables.map Prod.fst →
       c ∈ kahnOrdered c4wSchema →
       ∃ i j, i < j ∧ (orderTablesForGeneration c4wSchema).get? i = some p ∧
         (orderTablesForGeneration c4wSchema).get? j = some c)) :=
  ⟨by decide, topo_sort_properties c4wSchema (by decide)⟩

/-- C7.  The deterministic validator is pure and idempotent: it returns its
input dataset unchanged as the repaired dataset, so a second run on its own
output is identical to the first. -/
theorem validator_pure_idempotent (schema : Schema) (d : Data) :
    (validateDeterministicData schema d).1 = d ∧
    validateDeterministicData schema ((validateDeterministicData schema d).1)
      = validateDeterministicData schema d := by
  refine ⟨validateData_fst schema d, ?_⟩
  rw [validateData_fst schema d]

theorem keyed_split {α : Type} (l : List (String × α)) (tn : String) (v : α)
    (hnd : (l.map Prod.fst).Nodup) (hmem : (tn, v) ∈ l) :
    ∃ pre post, l = pre ++ (tn, v) :: post ∧
      (∀ p ∈ pre, p.1 ≠ tn) ∧ (∀ p ∈ post, p.1 ≠ tn) := by
  obtain ⟨pre, post, hsplit⟩ := List.append_of_mem hmem
  refine ⟨pre, post, hsplit, ?_, ?_⟩
  · intro p hp hp1
    have h2 := hnd
    rw [hsplit, List.map_append, List.map_cons] at h2
    have hdis := (List.nodup_append.mp h2).2.2
    exact hdis (List.mem_map.mpr ⟨p, hp, rfl⟩)
      (by rw [hp1]; exact List.mem_cons_self _ _)
  · intro p hp hp1
    have h2 := hnd
    rw [hsplit, List.map_append, List.map_cons] at h2
    have hn2 := (List.nodup_append.mp h2).2.1
    exact (List.nodup_cons.mp hn2).1 (List.mem_map.mpr ⟨p, hp, hp1⟩)

theorem clampRowCount_pos (r : Option Nat) : 1 ≤ clampRowCount r := by
  rcases r with _ | n
  · show (1 : Nat) ≤ 10
    omega
  · show 1 ≤ if (n == 0) = true then 10 else min (max 1 n) 1000
    split
    · omega
    · omega

theorem effGlobalCount_eq (cfg : GenConfig) (m : Nat) (h : cfg.globalRowCount = some m)
    (hm : m ≠ 0) : effGlobalCount cfg = m := by
  unfold effGlobalCount
  rw [h]
  show (if (m == 0) = true then 25 else m) = m
  rw [if_neg (by simp [hm])]

theorem topo_singleton (tn : String) (td : TableDef) :
    topologicalSortTables ⟨[(tn, td)]⟩ = [tn] := by
  have hnd : (((⟨[(tn, td)]⟩ : Schema).tables).map Prod.fst).Nodup := by simp
  have hperm := orderTables_perm ⟨[(tn, td)]⟩ hnd
  rw [topo_eq_orderTables _ hnd]
  have hm : ((⟨[(tn, td)]⟩ : Schema).tables).map Prod.fst = [tn] := rfl
  rw [hm] at hperm
  exact List.perm_singleton.mp hperm

theorem schemaGet_singleton (tn : String) (td : TableDef) :
    schemaGet ⟨[(tn, td)]⟩ tn = some td := by
  simp [schemaGet, List.find?]

theorem rewriteFrom_len (pk : String) : ∀ (i : Nat) (rows : List Row),
    (rewriteFrom pk i rows).length = rows.length := by
  intro i rows
  induction rows generalizing i with
  | nil => rfl
  | cons r rs ih => simp [rewriteFrom, ih]

theorem fillMissingFrom_len (pk : String) : ∀ (i : Nat) (rows : List Row),
    (fillMissingFrom pk i rows).length = rows.length := by
  intro i rows
  induction rows generalizing i with
  | nil => rfl
  | cons r rs ih =>
    simp only [fillMissingFrom]
    by_cases h : isNullish (rowGet r pk) = true
    · rw [if_pos h]
      simp [ih]
    · rw [if_neg h]
      simp [ih]

theorem pkRows1_len (pk : String) (rows : List Row) :
    (pkRows1 pk rows).length = rows.length := by
  unfold pkRows1
  by_cases h : ((scanPkRows pk rows [] 0).1 || (scanPkRows pk rows [] 0).2 == 0) = true
  · rw [if_pos h]
    exact rewriteFrom_len pk 1 rows
  · rw [if_neg h]

theorem pkRepairRowsFn_len (pk : String) (rows : List Row) :
    (pkRepairRowsFn pk rows).length = rows.length := by
  unfold pkRepairRowsFn
  by_cases h : (pkRows1 pk rows).countP (fun row => isNullish (rowGet row pk)) > 0
  · rw [if_pos h, fillMissingFrom_len, pkRows1_len]
  · rw [if_neg h, pkRows1_len]

theorem isNullish_false (o : Option Value) (h : isNullish o = false) :
    ∃ w, o = some w ∧ w ≠ Value.vNull := by
  rcases o with _ | w
  · cases h
  · rcases w with _ | q | s | b | d
    · cases h
    all_goals exact ⟨_, rfl, by simp⟩

theorem fillMissingFrom_nonnull (pk : String) : ∀ (i : Nat) (rows : List Row),
    ∀ r ∈ fillMissingFrom pk i rows, isNullish (rowGet r pk) = false := by
  intro i rows
  induction rows generalizing i with
  | nil => intro r hr; cases hr
  | cons r0 rs ih =>
    intro r hr
    simp only [fillMissingFrom] at hr
    by_cases h : isNullish (rowGet r0 pk) = true
    · rw [if_pos h] at hr
      rcases List.mem_cons.mp hr with heq | hmem
      · subst heq
        rw [rowGet_rowSet_self]
        rfl
      · exact ih _ _ hmem
    · rw [if_neg h] at hr
      rcases List.mem_cons.mp hr with heq | hmem
      · subst heq
        simpa using h
      · exact ih _ _ hmem

theorem pkRepairRowsFn_nonnull (pk : String) (rows : List Row) :
    ∀ r ∈ pkRepairRowsFn pk rows, isNullish (rowGet r pk) = false := by
  unfold pkRepairRowsFn
  by_cases h : (pkRows1 pk rows).countP (fun row => isNullish (rowGet row pk)) > 0
  · rw [if_pos h]
    exact fillMissingFrom_nonnull pk 1 _
  · rw [if_neg h]
    intro r hr
    have h0 : (pkRows1 pk rows).countP (fun row => isNullish (rowGet row pk)) = 0 := by
      omega
    have hc := List.countP_eq_zero.mp h0 r hr
    simpa using hc

theorem fkRepairRows_len (c : String) (pset pvals : List Value) :
    ∀ (i : Nat) (rows : List Row),
    (fkRepairRows c pset pvals i rows).length = rows.length := by
  intro i rows
  induction rows generalizing i with
  | nil => rfl
  | cons r rs ih =>
    simp only [fkRepairRows]
    by_cases h : fkRowInvalid c pset r = true
    · rw [if_pos h]
      simp [ih]
    · rw [if_neg h]
      simp [ih]

theorem insertUnique_ne_nil2 (xs : List Value) (v : Value) (h : xs ≠ []) :
    insertUnique xs v ≠ [] := by
  unfold insertUnique
  by_cases hc : xs.contains v = true
  · rw [if_pos hc]
    exact h
  · rw [if_neg hc]
    simp

theorem pkValueSetFold_ne_nil (pk : String) : ∀ (l : List Row) (acc : List Value),
    acc ≠ [] →
    (l.foldl (fun acc r =>
      match rowGet r pk with
      | none => acc
      | some Value.vNull => acc
      | some w => insertUnique acc w) acc) ≠ [] := by
  intro l
  induction l with
  | nil => intro acc h; exact h
  | cons r rs ih =>
    intro acc h
    rw [List.foldl_cons]
    apply ih
    rcases hg : rowGet r pk with _ | w
    · simp only [hg]
      exact h
    · rcases w with _ | q | s | b | d
      · simp only [hg]
        exact h
      all_goals
        simp only [hg]
      all_goals
        exact insertUnique_ne_nil2 _ _ h

theorem pkValueSet_ne_nil (pk : String) (rows : List Row) (hne : rows ≠ [])
    (hnn : ∀ r ∈ rows, isNullish (rowGet r pk) = false) :
    pkValueSet pk rows ≠ [] := by
  rcases rows with _ | ⟨r, rs⟩
  · cases hne rfl
  · obtain ⟨w, hg, hw⟩ := isNullish_false _ (hnn r (List.mem_cons_self _ _))
    unfold pkValueSet
    rw [List.foldl_cons]
    apply pkValueSetFold_ne_nil
    simp only [hg]
    rcases w with _ | q | s | b | d
    · cases hw rfl
    all_goals simp [insertUnique]

theorem genRowsLoop_len (tn : String) (pk : List String)
    (cols : List (String × ColumnDef)) (np : NullProbConfig)
    (fks : List (String × List (String × (Option String × Option String)))) :
    ∀ (rem i : Nat) (gen : Data) (st : GenState) (rows : List Row),
    dataGet gen tn = some rows →
    ∃ rows', dataGet (genRowsLoop tn pk cols np fks i rem gen st).1 tn = some rows' ∧
      rows'.length = rows.length + rem := by
  intro rem
  induction rem with
  | zero =>
    intro i gen st rows h
    exact ⟨rows, h, rfl⟩
  | succ rem ih =>
    intro i gen st rows h
    simp only [genRowsLoop]
    obtain ⟨rows', h', hlen⟩ := ih (i + 1)
      (dataSet gen tn ((dataGet gen tn).getD [] ++
        [(cols.foldl (genCol tn pk np gen fks i) (([] : Row), st)).1]))
      (cols.foldl (genCol tn pk np gen fks i) (([] : Row), st)).2
      ((dataGet gen tn).getD [] ++ [(cols.foldl (genCol tn pk np gen fks i) (([] : Row), st)).1])
      (dataGet_dataSet_self gen tn _)
    refine ⟨rows', h', ?_⟩
    rw [hlen, h]
    simp only [Option.getD_some, List.length_append, List.length_cons, List.length_nil]
    omega

theorem genTable_singleton_len (tn : String) (td : TableDef) (cfg : GenConfig)
    (fks : List (String × List (String × (Option String × Option String))))
    (acc : Data × GenState) :
    ∃ rows, dataGet (genTable ⟨[(tn, td)]⟩ cfg fks acc tn).1 tn = some rows ∧
      rows.length = (assocGet cfg.perTable tn).getD (effGlobalCount cfg) := by
  simp only [genTable, schemaGet_singleton]
  obtain ⟨rows', h', hlen⟩ := genRowsLoop_len tn (inferPrimaryKey tn td) (colsOf td)
    cfg.nullProbability fks ((assocGet cfg.perTable tn).getD (effGlobalCount cfg)) 0
    (dataSet acc.1 tn []) acc.2 [] (dataGet_dataSet_self acc.1 tn [])
  exact ⟨rows', h', by simpa using hlen⟩

theorem reconRowFold_len (cols : List String) (pool : List Value) :
    ∀ (l : List Row) (acc : List Row × GenState),
    ((l.foldl (fun (racc : List Row × GenState) r =>
      let r' := reconRow cols pool (r, racc.2)
      (racc.1 ++ [r'.1], r'.2)) acc).1).length = acc.1.length + l.length := by
  intro l
  induction l with
  | nil => intro acc; rfl
  | cons r rs ih =>
    intro acc
    rw [List.foldl_cons, ih]
    simp only [List.length_append, List.length_cons, List.length_nil]
    omega

theorem reconFk_len (tnOwn tn : String) (fk : FK) (acc : Data × GenState) (rows : List Row)
    (h : dataGet acc.1 tn = some rows) :
    ∃ rows', dataGet (reconFk tnOwn fk acc).1 tn = some rows' ∧
      rows'.length = rows.length := by
  simp only [reconFk]
  split
  · exact ⟨rows, h, rfl⟩
  · split
    · exact ⟨rows, h, rfl⟩
    · by_cases htn : tnOwn = tn
      · subst htn
        refine ⟨_, dataGet_dataSet_self _ _ _, ?_⟩
        rw [reconRowFold_len]
        simp only [List.length_nil, Nat.zero_add]
        rw [h]
        rfl
      · refine ⟨rows, ?_, rfl⟩
        rw [dataGet_dataSet_other _ _ _ _ (fun hh => htn hh.symm)]
        exact h

theorem reconFksFold_len (tn tnOwn : String) :
    ∀ (fks : List FK) (acc : Data × GenState) (rows : List Row),
    dataGet acc.1 tn = some rows →
    ∃ rows', dataGet (fks.foldl (fun acc fk => reconFk tnOwn fk acc) acc).1 tn
        = some rows' ∧ rows'.length = rows.length := by
  intro fks
  induction fks with
  | nil => intro acc rows h; exact ⟨rows, h, rfl⟩
  | cons fk rest ih =>
    intro acc rows h
    rw [List.foldl_cons]
    obtain ⟨r1, h1, hl1⟩ := reconFk_len tnOwn tn fk acc rows h
    obtain ⟨r2, h2, hl2⟩ := ih _ _ h1
    exact ⟨r2, h2, by omega⟩

theorem reconPass_len (tn : String) :
    ∀ (l : List (String × TableDef)) (acc : Data × GenState) (rows : List Row),
    dataGet acc.1 tn = some rows →
    ∃ rows', dataGet (l.foldl (fun acc p =>
      p.2.foreignKeys.foldl (fun acc fk => reconFk p.1 fk acc) acc) acc).1 tn
        = some rows' ∧ rows'.length = rows.length := by
  intro l
  induction l with
  | nil => intro acc rows h; exact ⟨rows, h, rfl⟩
  | cons p rest ih =>
    intro acc rows h
    rw [List.foldl_cons]
    obtain ⟨r1, h1, hl1⟩ := reconFksFold_len tn p.1 p.2.foreignKeys acc rows h
    obtain ⟨r2, h2, hl2⟩ := ih _ _ h1
    exact ⟨r2, h2, by omega⟩

theorem genDet_singleton_len (tn : String) (td : TableDef) (cfg : GenConfig) (st : GenState) :
    ∃ rows, dataGet (generateDeterministicData ⟨[(tn, td)]⟩ cfg st).1 tn = some rows ∧
      rows.length = (assocGet cfg.perTable tn).getD (effGlobalCount cfg) := by
  simp only [generateDeterministicData]
  rw [topo_singleton, List.foldl_cons, List.foldl_nil]
  obtain ⟨r1, h1, hl1⟩ := genTable_singleton_len tn td cfg (buildFkSources ⟨[(tn, td)]⟩)
    (([] : Data), { st with lcg := cfg.seed.map (fun s => s % 4294967296) })
  obtain ⟨r2, h2, hl2⟩ := reconPass_len tn [(tn, td)] _ r1 h1
  exact ⟨r2, h2, by omega⟩

theorem genDet_singleton_len2 (tn : String) (td : TableDef) (cfg : GenConfig) (st : GenState)
    (E : Nat) (hper : cfg.perTable = []) (hg : cfg.globalRowCount = some E) (hE : E ≠ 0) :
    ∃ rows, dataGet (generateDeterministicData ⟨[(tn, td)]⟩ cfg st).1 tn = some rows ∧
      rows.length = E := by
  obtain ⟨rows, hr, hlen⟩ := genDet_singleton_len tn td cfg st
  refine ⟨rows, hr, ?_⟩
  rw [hlen, hper]
  rw [show assocGet ([] : List (String × Nat)) tn = none from rfl]
  rw [Option.getD_none]
  exact effGlobalCount_eq cfg E hg hE

theorem generateTableAI_fb_body (tn : String) (td : TableDef) (d : Data) (st : GenState)
    (E : Nat) (np : NullProbConfig) (sd : Option Nat) :
    ∃ rows, dataGet (dataSet d tn
      (if ((dataGet (generateDeterministicData ⟨[(tn, td)]⟩
            { globalRowCount := some (clampRowCount (some E)), perTable := [],
              nullProbability := np, seed := sd } st).1 tn).getD []).isEmpty = true
       then absoluteGuardRows ((colsOf td).map (fun c => c.1)) (clampRowCount (some E))
       else ((dataGet (generateDeterministicData ⟨[(tn, td)]⟩
            { globalRowCount := some (clampRowCount (some E)), perTable := [],
              nullProbability := np, seed := sd } st).1 tn).getD []))) tn = some rows ∧
      rows.length = clampRowCount (some E) ∧ rows ≠ [] := by
  obtain ⟨rows, hr, hlen⟩ := genDet_singleton_len2 tn td
    { globalRowCount := some (clampRowCount (some E)), perTable := [],
      nullProbability := np, seed := sd } st (clampRowCount (some E)) rfl rfl
    (by have := clampRowCount_pos (some E); omega)
  have hpos := clampRowCount_pos (some E)
  have hne : rows ≠ [] := by
    intro hh
    rw [hh] at hlen
    simp only [List.length_nil] at hlen
    omega
  have hie : rows.isEmpty = false := by
    rcases rows with _ | _
    · cases hne rfl
    · rfl
  simp only [hr, Option.getD_some, hie, Bool.false_eq_true, if_false]
  exact ⟨rows, dataGet_dataSet_self d tn rows, hlen, hne⟩

theorem generateTableAI_shape (schema : Schema) (cfg : AiConfig) (oracle : AiOracle)
    (acc : Data × GenState) (t : String) :
    ∃ rows2, (generateTableAI schema cfg oracle acc t).1 = dataSet acc.1 t rows2 := by
  unfold generateTableAI
  rcases hg : schemaGet schema t with _ | td
  · simp only [hg]
    exact ⟨[], rfl⟩
  · simp only [hg]
    rcases hc : td.columns with _ | cols
    · simp only [hc]
      exact ⟨[], rfl⟩
    · simp only [hc]
      split
      · split
        · exact ⟨_, rfl⟩
        · exact ⟨_, rfl⟩
      · split
        · exact ⟨_, rfl⟩
        · exact ⟨_, rfl⟩

theorem generateTableAI_other (schema : Schema) (cfg : AiConfig) (oracle : AiOracle)
    (acc : Data × GenState) (t tn : String) (h : tn ≠ t) :
    dataGet (generateTableAI schema cfg oracle acc t).1 tn = dataGet acc.1 tn := by
  obtain ⟨r2, hr⟩ := generateTableAI_shape schema cfg oracle acc t
  rw [hr, dataGet_dataSet_other acc.1 t tn r2 h]

theorem generateTableAI_fallback (schema : Schema) (cfg : AiConfig) (oracle : AiOracle)
    (acc : Data × GenState) (tn : String) (td : TableDef) (cols : List (String × ColumnDef))
    (hget : schemaGet schema tn = some td) (hcols : td.columns = some cols)
    (hfirst : oracle.firstRows tn = []) (hretry : oracle.retryRows tn = []) :
    ∃ rows, dataGet (generateTableAI schema cfg oracle acc tn).1 tn = some rows ∧
      rows.length = clampRowCount (some (aiRequested cfg tn)) ∧ rows ≠ [] := by
  unfold generateTableAI aiRequested
  simp only [hget, hcols, hfirst, hretry, List.isEmpty_nil, Bool.true_and, ite_self,
    if_true]
  rcases hA : assocGet cfg.perTableRowCounts tn with _ | n
  · simp only [hA]
    exact generateTableAI_fb_body tn td acc.1 acc.2 (clampRowCount cfg.numRecords) _ _
  · simp only [hA]
    by_cases hn : (n == 0) = true
    · simp only [hn, if_true]
      exact generateTableAI_fb_body tn td acc.1 acc.2 (clampRowCount cfg.numRecords) _ _
    · simp only [hn, Bool.false_eq_true, if_false]
      exact generateTableAI_fb_body tn td acc.1 acc.2 n _ _

theorem applyEnumColFold_len (col : String) (vals : List String) :
    ∀ (l : List Row) (acc : List Row × GenState),
    ((l.foldl (fun acc r =>
      if isNullish (rowGet r col) then
        let s := sampleEnum vals acc.2
        (acc.1 ++ [rowSet r col s.1], s.2)
      else (acc.1 ++ [r], acc.2)) acc).1).length = acc.1.length + l.length := by
  intro l
  induction l with
  | nil => intro acc; rfl
  | cons r rs ih =>
    intro acc
    rw [List.foldl_cons, ih]
    by_cases h : isNullish (rowGet r col) = true
    · rw [if_pos h]
      simp only [List.length_append, List.length_cons, List.length_nil]
      omega
    · rw [if_neg h]
      simp only [List.length_append, List.length_cons, List.length_nil]
      omega

theorem applyEnumCol_len (col : String) (vals : List String) (rows : List Row)
    (st : GenState) : ((applyEnumCol col vals rows st).1).length = rows.length := by
  unfold applyEnumCol
  rw [applyEnumColFold_len]
  simp

theorem enumColsFold_len (l : List (String × ColumnDef)) :
    ∀ (acc : List Row × GenState),
    ((l.foldl (fun acc2 c =>
      if c.2.enumValues.length != 0 then applyEnumCol c.1 c.2.enumValues acc2.1 acc2.2
      else acc2) acc).1).length = acc.1.length := by
  induction l with
  | nil => intro acc; rfl
  | cons c rest ih =>
    intro acc
    rw [List.foldl_cons, ih]
    by_cases h : (c.2.enumValues.length != 0) = true
    · rw [if_pos h]
      exact applyEnumCol_len _ _ _ _
    · rw [if_neg h]

theorem enumFold_at (tn : String) (n : Nat) :
    ∀ (l : List (String × TableDef)) (acc : Data × GenState),
    (∃ rows, dataGet acc.1 tn = some rows ∧ rows.length = n) →
    ∃ rows, dataGet ((l.foldl (fun acc p =>
      let rows := (dataGet acc.1 p.1).getD []
      if rows.isEmpty then acc
      else
        let cs := (colsOf p.2).foldl (fun acc2 c =>
          if c.2.enumValues.length != 0 then applyEnumCol c.1 c.2.enumValues acc2.1 acc2.2
          else acc2) (rows, acc.2)
        (dataSet acc.1 p.1 cs.1, cs.2)) acc)).1 tn = some rows ∧ rows.length = n := by
  intro l
  induction l with
  | nil => intro acc h; exact h
  | cons p rest ih =>
    intro acc hinv
    rw [List.foldl_cons]
    apply ih
    obtain ⟨rows0, h0, hl0⟩ := hinv
    rcases p with ⟨p1, p2⟩
    by_cases hp : p1 = tn
    · subst hp
      simp only [h0, Option.getD_some]
      by_cases hie : rows0.isEmpty = true
      · rw [if_pos hie]
        exact ⟨rows0, h0, hl0⟩
      · rw [if_neg hie]
        refine ⟨_, dataGet_dataSet_self _ _ _, ?_⟩
        rw [enumColsFold_len]
        exact hl0
    · by_cases hie2 : ((dataGet acc.1 p1).getD []).isEmpty = true
      · simp only [hie2, eq_self_iff_true, if_true, ite_true]
        exact ⟨rows0, h0, hl0⟩
      · have hie3 : ((dataGet acc.1 p1).getD []).isEmpty = false := by
          revert hie2
          cases ((dataGet acc.1 p1).getD []).isEmpty <;> simp
        simp only [hie3, Bool.false_eq_true, if_false, ite_false]
        refine ⟨rows0, ?_, hl0⟩
        rw [dataGet_dataSet_other _ _ _ _ (fun hh => hp hh.symm)]
        exact h0

theorem applyEnumSampling_at (schema : Schema) (tn : String) (n : Nat)
    (acc : Data × GenState)
    (h : ∃ rows, dataGet acc.1 tn = some rows ∧ rows.length = n) :
    ∃ rows, dataGet (applyEnumSampling schema acc).1 tn = some rows ∧ rows.length = n := by
  unfold applyEnumSampling
  exact enumFold_at tn n schema.tables acc h

theorem aiFold_preserve (schema : Schema) (cfg : AiConfig) (oracle : AiOracle)
    (tn : String) :
    ∀ (l : List String) (acc : Data × GenState), tn ∉ l →
    dataGet (l.foldl (generateTableAI schema cfg oracle) acc).1 tn = dataGet acc.1 tn := by
  intro l
  induction l with
  | nil => intro acc _; rfl
  | cons t rest ih =>
    intro acc h
    rw [List.foldl_cons, ih _ (fun hh => h (List.mem_cons_of_mem _ hh)),
      generateTableAI_other schema cfg oracle acc t tn
        (fun hh => h (by rw [hh]; exact List.mem_cons_self _ _))]

theorem aiFold_at (schema : Schema) (cfg : AiConfig) (oracle : AiOracle) (tn : String)
    (td : TableDef) (cols : List (String × ColumnDef))
    (hget : schemaGet schema tn = some td) (hcols : td.columns = some cols)
    (hfirst : oracle.firstRows tn = []) (hretry : oracle.retryRows tn = []) :
    ∀ (l : List String), l.Nodup → tn ∈ l → ∀ (acc : Data × GenState),
    ∃ rows, dataGet (l.foldl (generateTableAI schema cfg oracle) acc).1 tn = some rows ∧
      rows.length = clampRowCount (some (aiRequested cfg tn)) ∧ rows ≠ [] := by
  intro l
  induction l with
  | nil => intro _ hmem; cases hmem
  | cons t rest ih =>
    intro hnd hmem acc
    rw [List.foldl_cons]
    rcases List.mem_cons.mp hmem with heq | hmem2
    · subst heq
      have hnotin : tn ∉ rest := (List.nodup_cons.mp hnd).1
      obtain ⟨rows, hr, hlen, hne⟩ := generateTableAI_fallback schema cfg oracle acc tn td
        cols hget hcols hfirst hretry
      refine ⟨rows, ?_, hlen, hne⟩
      rw [aiFold_preserve schema cfg oracle tn rest _ hnotin]
      exact hr
    · exact ih (List.Nodup.of_cons hnd) hmem2 _

theorem synthEmptyTable_keep (tn tn2 : String) (td2 : TableDef) (d : Data) (rows : List Row)
    (h : dataGet d tn = some rows) (hne : rows ≠ []) :
    dataGet (synthEmptyTable tn2 td2 d) tn = some rows := by
  unfold synthEmptyTable
  rcases hpk : td2.primaryKey with _ | l
  · exact h
  · rcases l with _ | ⟨c, cs⟩
    · exact h
    · rcases cs with _ | ⟨c2, cs2⟩
      · by_cases htn : tn2 = tn
        · subst htn
          rw [h]
          rcases rows with _ | ⟨r, rs⟩
          · cases hne rfl
          · exact h
        · rcases hd : dataGet d tn2 with _ | rows2
          · show dataGet (dataSet d tn2 [[(c, Value.vNum 1)]]) tn = some rows
            rw [dataGet_dataSet_other _ _ _ _ (fun hh => htn hh.symm)]
            exact h
          · rcases rows2 with _ | ⟨r2, rs2⟩
            · show dataGet (dataSet d tn2 [[(c, Value.vNum 1)]]) tn = some rows
              rw [dataGet_dataSet_other _ _ _ _ (fun hh => htn hh.symm)]
              exact h
            · exact h
      · exact h

theorem synthFold_keep (l : List (String × TableDef)) (tn : String) (rows : List Row) :
    ∀ d, dataGet d tn = some rows → rows ≠ [] →
    dataGet (l.foldl (fun d p => synthEmptyTable p.1 p.2 d) d) tn = some rows := by
  induction l with
  | nil => intro d h _; exact h
  | cons p rest ih =>
    intro d h hne
    rw [List.foldl_cons]
    exact ih _ (synthEmptyTable_keep tn p.1 p.2 d rows h hne) hne

theorem repairPkTable_at_len (tn : String) (td : TableDef) (d : Data) (rows : List Row)
    (h : dataGet d tn = some rows) (hne : rows ≠ []) :
    ∃ rows2, dataGet (repairPkTable tn td d) tn = some rows2 ∧
      rows2.length = rows.length ∧ rows2 ≠ [] ∧
      (∀ pk, inferSinglePK tn td = some pk →
        ∀ r ∈ rows2, isNullish (rowGet r pk) = false) := by
  unfold repairPkTable
  rcases hpk : inferSinglePK tn td with _ | pk
  · simp only [hpk]
    refine ⟨rows, h, rfl, hne, ?_⟩
    intro pk2 hpk2
    cases hpk2
  · simp only [hpk]
    rcases rows with _ | ⟨r, rs⟩
    · cases hne rfl
    · simp only [h]
      refine ⟨pkRepairRowsFn pk (r :: rs), dataGet_dataSet_self _ _ _,
        pkRepairRowsFn_len _ _, ?_, ?_⟩
      · intro hh
        have hl := pkRepairRowsFn_len pk (r :: rs)
        rw [hh] at hl
        simp at hl
      · intro pk2 hpk2 r2 hr2
        injection hpk2 with hh
        subst hh
        exact pkRepairRowsFn_nonnull pk _ r2 hr2

theorem pkPass_at_len (schema : Schema) (d : Data) (tn : String) (td : TableDef)
    (rows : List Row) (hnd : (schema.tables.map Prod.fst).Nodup)
    (hmem : (tn, td) ∈ schema.tables) (h : dataGet d tn = some rows) (hne : rows ≠ []) :
    ∃ rows2, dataGet (pkPass schema d) tn = some rows2 ∧
      rows2.length = rows.length ∧ rows2 ≠ [] ∧
      (∀ pk, inferSinglePK tn td = some pk →
        ∀ r ∈ rows2, isNullish (rowGet r pk) = false) := by
  obtain ⟨pre, post, hsplit, hpre, hpost⟩ := keyed_split schema.tables tn td hnd hmem
  unfold pkPass
  rw [hsplit, List.foldl_append, List.foldl_cons]
  obtain ⟨rows2, h2, hl2, hne2, hnn2⟩ := repairPkTable_at_len tn td
    (pre.foldl (fun d p => repairPkTable p.1 p.2 d) d) rows
    (by rw [pkFold_preserve pre d tn hpre]; exact h) hne
  refine ⟨rows2, ?_, hl2, hne2, hnn2⟩
  rw [pkFold_preserve post _ tn hpost]
  exact h2

theorem buildSetsFold_none_at (d : Data) (l : List (String × TableDef)) (tn : String)
    (td : TableDef) :
    ∀ (acc : List (String × List Value)), (l.map Prod.fst).Nodup → (tn, td) ∈ l →
    inferSinglePK tn td = none → setsGet acc tn = none →
    setsGet (l.foldl (fun acc p =>
      match inferSinglePK p.1 p.2 with
      | none => acc
      | some pkCol => acc ++ [(p.1, pkValueSet pkCol ((dataGet d p.1).getD []))]) acc) tn
      = none := by
  induction l with
  | nil => intro acc _ hmem _ _; cases hmem
  | cons p rest ih =>
    intro acc hnd hmem hpk hacc
    rw [List.foldl_cons]
    have hhd := (List.nodup_cons.mp hnd).1
    rcases List.mem_cons.mp hmem with heq | hmem2
    · cases heq
      have hrest : ∀ q ∈ rest, q.1 ≠ tn := by
        intro q hq hq1
        exact hhd (List.mem_map.mpr ⟨q, hq, hq1⟩)
      refine buildSetsFold_none d rest tn _ hrest ?_
      have hpk2 : inferSinglePK ((tn, td) : String × TableDef).1 (tn, td).2 = none := hpk
      simp only [hpk2]
      exact hacc
    · have hp1 : p.1 ≠ tn := fun hh => hhd (hh ▸ List.mem_map.mpr ⟨(tn, td), hmem2, rfl⟩)
      refine ih _ (List.Nodup.of_cons hnd) hmem2 hpk ?_
      rcases hpk3 : inferSinglePK p.1 p.2 with _ | pkc
      · simp only [hpk3]
        exact hacc
      · simp only [hpk3]
        rw [setsGet_append_none _ _ _ hacc]
        exact setsGet_singleton_ne p.1 tn _ hp1

theorem buildSets_hOk (schema : Schema) (d : Data) (tn : String) (td : TableDef)
    (rows : List Row) (hnd : (schema.tables.map Prod.fst).Nodup)
    (hmem : (tn, td) ∈ schema.tables) (hrows : dataGet d tn = some rows) (hne : rows ≠ [])
    (hnn : ∀ pk, inferSinglePK tn td = some pk →
      ∀ r ∈ rows, isNullish (rowGet r pk) = false) :
    ∀ s, setsGet (buildParentPkSets schema d) tn = some s → s ≠ [] := by
  intro s hs
  rcases hpk : inferSinglePK tn td with _ | pk
  · have hnone : setsGet (buildParentPkSets schema d) tn = none := by
      unfold buildParentPkSets
      exact buildSetsFold_none_at d schema.tables tn td [] hnd hmem hpk rfl
    rw [hnone] at hs
    cases hs
  · have hat := buildParentPkSets_at schema d tn td pk hnd hmem hpk
    rw [hat] at hs
    cases hs
    simp only [hrows, Option.getD_some]
    exact pkValueSet_ne_nil pk rows hne (hnn pk hpk)

theorem repairFkStep_rows_len (schema : Schema) (tnCur : String) (fk : FK)
    (st : FkPassState) :
    (repairFkStep schema tnCur fk st).rows.length = st.rows.length := by
  unfold repairFkStep
  rcases hrt : fk.referenceTable with _ | pt
  · rfl
  · simp only [hrt]
    split
    · rfl
    · split
      · rfl
      · split
        · split
          · exact fkRepairRows_len _ _ _ _ _
          · rfl
        · exact fkRepairRows_len _ _ _ _ _

theorem fkFold_rows_len (schema : Schema) (tnCur : String) (fks : List FK) :
    ∀ st : FkPassState,
    (fks.foldl (fun st fk => repairFkStep schema tnCur fk st) st).rows.length
      = st.rows.length := by
  induction fks with
  | nil => intro st; rfl
  | cons fk rest ih =>
    intro st
    rw [List.foldl_cons, ih _]
    exact repairFkStep_rows_len schema tnCur fk st

theorem fkPassTable_len_at (schema : Schema) (tn : String) (td2 : TableDef)
    (dst : Data × List (String × List Value)) (rows : List Row)
    (hd : dataGet dst.1 tn = some rows)
    (hOk : ∀ s, setsGet dst.2 tn = some s → s ≠ []) :
    ∃ rows2, dataGet (fkPassTable schema tn td2 dst).1 tn = some rows2 ∧
      rows2.length = rows.length := by
  unfold fkPassTable
  by_cases hempty : ((dataGet dst.1 tn).getD []).isEmpty = true
  · rw [if_pos hempty]
    exact ⟨rows, hd, rfl⟩
  · rw [if_neg hempty]
    refine ⟨_, fkWriteBack_fst_self tn _ ?_, ?_⟩
    · show (fkFoldTable schema tn td2
        { rows := (dataGet dst.1 tn).getD [], data := dst.1,
          sets := dst.2, aliasLive := true }).aliasLive = true
      unfold fkFoldTable
      rw [fkFold_alias schema tn td2.foreignKeys _ hOk]
    · show (fkFoldTable schema tn td2
        { rows := (dataGet dst.1 tn).getD [], data := dst.1,
          sets := dst.2, aliasLive := true }).rows.length = rows.length
      unfold fkFoldTable
      rw [fkFold_rows_len]
      show ((dataGet dst.1 tn).getD []).length = rows.length
      rw [hd]
      rfl

theorem fkPassFold_len (schema : Schema) (tn : String) (n : Nat) :
    ∀ (l : List (String × TableDef)) (dst : Data × List (String × List Value)),
    (∃ rows, dataGet dst.1 tn = some rows ∧ rows.length = n) →
    (∀ s, setsGet dst.2 tn = some s → s ≠ []) →
    ∃ rows, dataGet (l.foldl (fun dst p => fkPassTable schema p.1 p.2 dst) dst).1 tn
      = some rows ∧ rows.length = n := by
  intro l
  induction l with
  | nil => intro dst h _; exact h
  | cons p rest ih =>
    intro dst hinv hOk
    obtain ⟨rows, hd, hl⟩ := hinv
    rw [List.foldl_cons]
    refine ih _ ?_ (fkPassTable_setsOk schema p.1 p.2 dst tn hOk)
    rcases p with ⟨p1, p2⟩
    by_cases hp : p1 = tn
    · subst hp
      obtain ⟨rows2, h2, hl2⟩ := fkPassTable_len_at schema p1 p2 dst rows hd hOk
      exact ⟨rows2, h2, by omega⟩
    · refine ⟨rows, ?_, hl⟩
      rw [fkPassTable_data_other schema p1 p2 dst tn hp hOk]
      exact hd

theorem autoRepair_len_at (schema : Schema) (data : Data) (tn : String) (td : TableDef)
    (rows : List Row) (hnd : (schema.tables.map Prod.fst).Nodup)
    (hmem : (tn, td) ∈ schema.tables) (hrows : dataGet data tn = some rows)
    (hne : rows ≠ []) :
    ∃ rows2, dataGet (autoRepairForeignKeys schema data true) tn = some rows2 ∧
      rows2.length = rows.length := by
  unfold autoRepairForeignKeys
  rw [if_neg (by simp)]
  have h1 : dataGet (synthEmptyDeclared schema data) tn = some rows := by
    unfold synthEmptyDeclared
    exact synthFold_keep schema.tables tn rows data hrows hne
  obtain ⟨rows1, h2, hl2, hne2, hnn2⟩ := pkPass_at_len schema _ tn td rows hnd hmem h1 hne
  have hOk := buildSets_hOk schema (pkPass schema (synthEmptyDeclared schema data)) tn td
    rows1 hnd hmem h2 hne2 hnn2
  obtain ⟨rows2, h3, hl3⟩ := fkPassFold_len schema tn rows1.length schema.tables
    (pkPass schema (synthEmptyDeclared schema data),
     buildParentPkSets schema (pkPass schema (synthEmptyDeclared schema data)))
    ⟨rows1, h2, rfl⟩ hOk
  exact ⟨rows2, h3, by omega⟩

/-- C5 (amended).  When the external service yields zero usable rows for a
table on both the first attempt and the retry, the AI orchestrator fills that
table through the deterministic fallback with exactly the advisory row count
(the per-table override or the clamped global request), never leaving it
empty — for tables that carry a `columns` object, under distinct table
names, whether or not integrity repair runs afterwards. -/
theorem ai_orchestrator_fallback (schema : Schema) (cfg : AiConfig) (oracle : AiOracle)
    (st : GenState) (tn : String) (td : TableDef) (cols : List (String × ColumnDef))
    (hnd : (schema.tables.map Prod.fst).Nodup)
    (hmem : (tn, td) ∈ schema.tables)
    (hcols : td.columns = some cols)
    (hfirst : oracle.firstRows tn = [])
    (hretry : oracle.retryRows tn = []) :
    ∃ out, generateSyntheticData schema cfg true oracle st = Except.ok out ∧
      ∃ rows, dataGet out.1 tn = some rows ∧
        rows.length = clampRowCount (some (aiRequested cfg tn)) ∧ rows ≠ [] := by
  have hget := schemaGet_of_mem schema tn td hnd hmem
  have htmem : tn ∈ orderTablesForGeneration schema :=
    (orderTables_mem_iff schema hnd tn).mpr (List.mem_map.mpr ⟨(tn, td), hmem, rfl⟩)
  have htnd := orderTables_nodup schema hnd
  have hpos := clampRowCount_pos (some (aiRequested cfg tn))
  obtain ⟨rowsA, hA, hlA, hneA⟩ := aiFold_at schema cfg oracle tn td cols hget hcols
    hfirst hretry (orderTablesForGeneration schema) htnd htmem (([] : Data), st)
  obtain ⟨rowsB, hB, hlB⟩ := applyEnumSampling_at schema tn
    (clampRowCount (some (aiRequested cfg tn)))
    ((orderTablesForGeneration schema).foldl (generateTableAI schema cfg oracle)
      (([] : Data), st)) ⟨rowsA, hA, hlA⟩
  have hneB : rowsB ≠ [] := by
    intro hh
    rw [hh] at hlB
    simp only [List.length_nil] at hlB
    omega
  have hemp : ¬(schema.tables.isEmpty = true) := by
    intro hh
    rcases hts : schema.tables with _ | ⟨q, qs⟩
    · rw [hts] at hmem
      cases hmem
    · rw [hts] at hh
      simp at hh
  unfold generateSyntheticData
  rw [if_neg (by simp)]
  rw [if_neg hemp]
  rcases hrep : cfg.integrityRepair with _ | _
  · rw [if_neg (by simp)]
    exact ⟨_, rfl, rowsB, hB, hlB, hneB⟩
  · rw [if_pos rfl]
    obtain ⟨rowsC, hC, hlC⟩ := autoRepair_len_at schema _ tn td rowsB hnd hmem hB hneB
    refine ⟨_, rfl, rowsC, hC, ?_, ?_⟩
    · omega
    · intro hh
      rw [hh] at hlC
      simp only [List.length_nil] at hlC
      omega

/-- Witness: the claim theorem instantiated at a one-table schema with a
silent oracle and three requested records. -/
theorem ai_orchestrator_fallback_witness :
    ((c5wSchema.tables.map Prod.fst).Nodup ∧ ("t", c5wTd) ∈ c5wSchema.tables ∧
     c5wTd.columns = some [("id", { type := "int" })] ∧
     c5wOracle.firstRows "t" = [] ∧ c5wOracle.retryRows "t" = []) ∧
    (∃ out, generateSyntheticData c5wSchema c5wCfg true c5wOracle c5wSt = Except.ok out ∧
      ∃ rows, dataGet out.1 "t" = some rows ∧
        rows.length = clampRowCount (some (aiRequested c5wCfg "t")) ∧ rows ≠ []) :=
  ⟨⟨by decide, by decide, rfl, rfl, rfl⟩,
   ai_orchestrator_fallback c5wSchema c5wCfg c5wOracle c5wSt "t" c5wTd
     [("id", { type := "int" })] (by decide) (by decide) rfl rfl rfl⟩


/-- Witness: the amended C3 theorem instantiated at the two-table schema;
the child's null FK is round-robin-repaired against the parent PK set. -/
theorem fk_coverage_round_robin_witness :
    ((wcSchema.tables.map Prod.fst).Nodup ∧
     wcSchema.tables = [("parent", wcParent)] ++ ("child", wcChild) :: [] ∧
     wcChild.foreignKeys = [] ++ wcFk :: ([] : List FK) ∧
     ([Value.vNum 7] : List Value) ≠ [] ∧
     (dataGet (pkPass wcSchema (synthEmptyDeclared wcSchema wcData)) "child").getD [] ≠ []) ∧
    CoveredBy ((dataGet (autoRepairForeignKeys wcSchema wcData true) "child").getD [])
      "pid" [Value.vNum 7] := by
  refine ⟨⟨?_, ?_, ?_, ?_, ?_⟩, ?_⟩
  · decide
  · rfl
  · rfl
  · decide
  · decide
  · refine (fk_coverage_round_robin wcSchema wcData [("parent", wcParent)] [] "child" wcChild
      [] [] wcFk "pid" "parent" [Value.vNum 7]
      (by decide) rfl rfl rfl rfl rfl ?_ ?_ (by decide) (by decide) (by decide)).1
    · intro fk' hfk'
      cases hfk'
    · intro l' hl'
      rw [show setsGet (buildParentPkSets wcSchema
          (pkPass wcSchema (synthEmptyDeclared wcSchema wcData))) "child" = none from by decide]
        at hl'
      cases hl'

end SynthData
